import Mathlib

/-!
# RubenOS storage stack: floppy driver and track file system

A shallow embedding of `src/kernel/string.c`, `src/kernel/file_system.c` and
`src/kernel/floppy.c`, of the parts of `low_level.c`, `shell.c`, `screen.c` and
`idt.c` that the storage stack and its shell commands rest on, and of the
external program `fibonacci.c`, followed by theorems about them.

Conventions of the embedding.

* A byte is a `Fin 256`.
* A `char *` argument that points outside the DMA buffer (a file name or a
  file content handed over by the shell) is the list of bytes stored from the
  pointer on; the byte that follows the last element of the list is the
  terminating zero.  A zero inside the list therefore ends the C string early,
  exactly as it does for the C code.
* `floppy_dmabuf` is a function from offsets to bytes.  Offsets below
  `FLOPPY_DMA_LENGTH` are the buffer, larger offsets are the memory that
  follows it; only the buffer takes part in a track transfer.
* The medium is a function from track index to track content.  The file
  system layer sees the driver through `floppy_read_buffer` and
  `floppy_write_buffer`.  For a track index below 256 their effect is the
  completed transfer of one 16384-byte track (the DMA channel is programmed
  with count `0x3FFF`).  For a larger index the seek cannot succeed, because
  the cylinder the controller reports is one byte: nothing is transferred and
  the message of the exhausted seek is printed
  (`floppy_do_track_beyond_byte`).
* The controller driver is embedded over an explicit trace of port accesses;
  the controller is an arbitrary answer function for port reads.
* Strings that are changed where they lie (the command line of the shell) and
  the video memory live in a memory that maps addresses to bytes.
* A loop without a bound of its own takes a `fuel` argument, the number of
  iterations the run is followed for, and yields `none` when that is used up.
-/

namespace RubenOS

/-! ## Bytes and C strings (`string.c`) -/

abbrev Byte := Fin 256

/-- The byte obtained by truncating a machine integer to eight bits. -/
def byte (n : Nat) : Byte := ⟨n % 256, Nat.mod_lt n (by decide)⟩

/-- The bytes of an ASCII string literal. -/
def ascii (s : String) : List Byte := s.toList.map (fun c => byte c.toNat)

/-- `strlen` of `string.c`: number of bytes before the first zero. -/
def strlen : List Byte → Nat
  | [] => 0
  | c :: cs => if c ≠ 0 then strlen cs + 1 else 0

/-- The C string denoted by a `char *` argument: the bytes before the first zero. -/
def cstr : List Byte → List Byte
  | [] => []
  | c :: cs => if c ≠ 0 then c :: cstr cs else []

/-- One byte store `mem[off] = v`. -/
def poke (mem : Nat → Byte) (off : Nat) (v : Byte) : Nat → Byte :=
  fun j => if j = off then v else mem j

/-- `string_copy` of `string.c` with the destination inside `mem` at offset
`dest`: copies the bytes before the first zero and does not copy the zero. -/
def string_copy : List Byte → Nat → (Nat → Byte) → (Nat → Byte)
  | [], _, mem => mem
  | c :: cs, dest, mem =>
    if c ≠ 0 then string_copy cs (dest + 1) (poke mem dest c) else mem

/-- `string_equals(a, b)` of `string.c` with `a` inside `mem` at offset `a` and
`b` a `char *` argument.  The loop first compares `a[index]` with `b[index]`
and then tests `a[index]` for zero. -/
def string_equals (mem : Nat → Byte) : Nat → List Byte → Bool
  | a, [] => mem a == 0
  | a, c :: cs =>
    if mem a ≠ c then false
    else if mem a = 0 then true
    else string_equals mem (a + 1) cs

/-- The characters `print` sends to `print_char` for a message stored in `mem`
at offset `off`: the bytes before the first zero.  `fuel` bounds the number of
bytes inspected; `none` when no zero was found within the bound. -/
def message_at (mem : Nat → Byte) : Nat → Nat → Option (List Byte)
  | 0, _ => none
  | fuel + 1, off =>
    if mem off ≠ 0 then (message_at mem fuel (off + 1)).map (fun r => mem off :: r)
    else some []

/-! ## Track store (`floppy.h`, tail of `floppy.c`) -/

def FLOPPY_DMA_LENGTH : Nat := 0x4000

/-- One transfer between the buffer and the medium. -/
inductive TrackOp where
  | read (index : Nat)
  | write (index : Nat)
  deriving DecidableEq, Repr

/-- The state the file system works on. -/
structure Fs where
  /-- The DMA buffer `floppy_dmabuf` and the memory behind it. -/
  floppy_dmabuf : Nat → Byte
  /-- Content of every track of the medium. -/
  medium : Nat → Nat → Byte
  /-- The transfers done so far, oldest first. -/
  ops : List TrackOp
  /-- The characters handed to `print_char` so far, oldest first. -/
  screen : List Byte


/-- `print` of a `char *` argument: its C string goes to the screen. -/
def print (message : List Byte) (s : Fs) : Fs :=
  { s with screen := s.screen ++ cstr message }

/-- What a track transfer does when its seek fails: `floppy_seek` gives up
after ten attempts, prints its message and returns -1; `floppy_do_track` hands
the -1 on before it programs the DMA channel or writes a transfer command, and
`floppy_read_buffer` / `floppy_write_buffer` drop it.  Nothing is transferred. -/
def seek_failure (s : Fs) : Fs :=
  print (ascii "floppy_seek: 10 retries exhausted\n") s

/-- `floppy_read_buffer(index)` with a drive that does what it is told.  For
`index < 256` the seek succeeds and the addressed track replaces the buffer.
For a larger index no seek can succeed: `floppy_seek` compares the requested
cylinder with the cylinder the controller reports, which is read as one byte. -/
def floppy_read_buffer (index : Nat) (s : Fs) : Fs :=
  if index < 256 then
    { s with
      floppy_dmabuf := fun j => if j < FLOPPY_DMA_LENGTH then s.medium index j else s.floppy_dmabuf j
      ops := s.ops ++ [TrackOp.read index] }
  else seek_failure s

/-- `floppy_write_buffer(index)` with a drive that does what it is told.  For
`index < 256` the buffer replaces the addressed track; for a larger index the
seek fails as in `floppy_read_buffer`. -/
def floppy_write_buffer (index : Nat) (s : Fs) : Fs :=
  if index < 256 then
    { s with
      medium := fun t => if t = index then
          (fun j => if j < FLOPPY_DMA_LENGTH then s.floppy_dmabuf j else s.medium t j)
        else s.medium t
      ops := s.ops ++ [TrackOp.write index] }
  else seek_failure s

/-- `floppy_clear_buffer`: `memset(floppy_dmabuf, 0, FLOPPY_DMA_LENGTH)`. -/
def floppy_clear_buffer (s : Fs) : Fs :=
  { s with floppy_dmabuf := fun j => if j < FLOPPY_DMA_LENGTH then 0 else s.floppy_dmabuf j }

/-- `print_char`. -/
def print_char (c : Byte) (s : Fs) : Fs :=
  { s with screen := s.screen ++ [c] }

/-! ## File system (`file_system.h`, `file_system.c`) -/

def MAX_FILENAME_LENGTH : Nat := 60
def MAX_FILE_COUNT : Nat := 119
def FILES_RECORD_INDEX : Nat := 0

/-- `record->file_count`: the packed `unsigned short` at offset 0, little endian. -/
def file_count (mem : Nat → Byte) : Nat := (mem 0).val + 256 * (mem 1).val

/-- Offset of `record->file_names[i]` in the packed `struct record`. -/
def file_names (i : Nat) : Nat := 2 + MAX_FILENAME_LENGTH * i

/-- Store to `record->file_count` (truncated to sixteen bits). -/
def set_file_count (mem : Nat → Byte) (v : Nat) : Nat → Byte :=
  poke (poke mem 0 (byte v)) 1 (byte (v / 256))

/-- Offset of `file->data_length` in the packed `struct file`. -/
def data_length_offset : Nat := MAX_FILENAME_LENGTH
/-- Offset of `file->data` in the packed `struct file`. -/
def data_offset : Nat := MAX_FILENAME_LENGTH + 4

/-- `file->data_length`: the packed `unsigned int` at offset 60, little endian. -/
def data_length (mem : Nat → Byte) : Nat :=
  (mem 60).val + 256 * (mem 61).val + 65536 * (mem 62).val + 16777216 * (mem 63).val

/-- Store to `file->data_length` (truncated to thirty-two bits). -/
def set_data_length (mem : Nat → Byte) (v : Nat) : Nat → Byte :=
  poke (poke (poke (poke mem 60 (byte v)) 61 (byte (v / 256))) 62 (byte (v / 65536)))
    63 (byte (v / 16777216))

/-- `create_file(filename, data)`. -/
def create_file (filename data : List Byte) (s : Fs) : Fs :=
  -- load the file record
  let s := floppy_read_buffer FILES_RECORD_INDEX s
  -- save the filename into the record
  let mem := string_copy filename (file_names (file_count s.floppy_dmabuf)) s.floppy_dmabuf
  -- increment the filecount
  let mem := set_file_count mem (file_count mem + 1)
  let count := file_count mem
  -- write the changed record
  let s := floppy_write_buffer FILES_RECORD_INDEX { s with floppy_dmabuf := mem }
  -- clear the buffer
  let s := floppy_clear_buffer s
  -- write the filename, the data length and the data
  let mem := string_copy filename 0 s.floppy_dmabuf
  let mem := set_data_length mem (strlen data + 1)
  let mem := string_copy data data_offset mem
  -- write the file to the next free track on the floppy
  floppy_write_buffer count { s with floppy_dmabuf := mem }

/-- The lookup loop shared by `print_file_command` and `execute_file_command`:
`for (i = 0; i < record->file_count; i++) if (string_equals(record->file_names[i], filename)) ...`
with `n` iterations left; yields the first matching slot index. -/
def find_slot (mem : Nat → Byte) (filename : List Byte) : Nat → Nat → Option Nat
  | 0, _ => none
  | n + 1, i =>
    if string_equals mem (file_names i) filename then some i
    else find_slot mem filename n (i + 1)

/-- The lookup of a file name: load the record from track 0 and scan the first
`file_count` slots; yields the track index `i + 1` of the first match. -/
def find (filename : List Byte) (s : Fs) : Option Nat × Fs :=
  let s := floppy_read_buffer FILES_RECORD_INDEX s
  ((find_slot s.floppy_dmabuf filename (file_count s.floppy_dmabuf) 0).map (· + 1), s)

/-- The message printed when an argument is missing. -/
def not_enough_arguments : List Byte := ascii "Error: Did not provide enough arguments!\n"

/-- `print_file_command(argc, argv)` with `argc = argv.length`; yields the
return value and the new state. -/
def print_file_command (argv : List (List Byte)) (s : Fs) : Int × Fs :=
  match argv with
  | _ :: filename :: _ =>
    match find filename s with
    | (some track, s) =>
      -- read the found file
      let s := floppy_read_buffer track s
      -- print its full data, even if there are \0 bytes
      let s := (List.range (data_length s.floppy_dmabuf)).foldl
        (fun s j => print_char (s.floppy_dmabuf (data_offset + j)) s) s
      (0, print (ascii "\n") s)
    | (none, s) =>
      let s := print (ascii "File: " ++ [39]) s
      let s := print filename s
      (0, print ([39] ++ ascii " not found\n") s)
  | _ => (1, print not_enough_arguments s)

/-- `print` of a message stored in the buffer at offset `off`.  `fuel` bounds
the number of bytes inspected; `none` when no zero was found within the bound. -/
def print_buffer (fuel off : Nat) (s : Fs) : Option Fs :=
  (message_at s.floppy_dmabuf fuel off).map (fun m => { s with screen := s.screen ++ m })

/-- The loop of `list_files_command` with `n` iterations left: for each file,
print its name and a newline. -/
def list_files_loop (fuel : Nat) : Nat → Nat → Fs → Option Fs
  | 0, _, s => some s
  | n + 1, i, s =>
    match print_buffer fuel (file_names i) s with
    | none => none
    | some s => list_files_loop fuel n (i + 1) (print (ascii "\n") s)

/-- `list_files_command(argc, argv)`; the arguments are unused.  Yields the
return value and the new state; `fuel` as in `print_buffer`. -/
def list_files_command (fuel : Nat) (_argv : List (List Byte)) (s : Fs) : Option (Int × Fs) :=
  let s := print (ascii "Listing files...\n") s
  -- reading files record
  let s := floppy_read_buffer FILES_RECORD_INDEX s
  (list_files_loop fuel (file_count s.floppy_dmabuf) 0 s).map (fun s => (0, s))

/-- A medium and buffer filled with zeros, nothing transferred or printed yet. -/
def blank : Fs :=
  { floppy_dmabuf := fun _ => 0, medium := fun _ _ => 0, ops := [], screen := [] }

/-- Whether a transfer writes to the medium. -/
def is_write : TrackOp → Bool
  | TrackOp.write _ => true
  | TrackOp.read _ => false

/-- A run of `create_file` calls, one for each `(filename, data)` pair in order. -/
def create_all (files : List (List Byte × List Byte)) (s : Fs) : Fs :=
  files.foldl (fun s f => create_file f.1 f.2 s) s

/-- The file image `create_file` builds in the cleared buffer. -/
def file_image (filename data : List Byte) : Nat → Byte :=
  string_copy data data_offset
    (set_data_length (string_copy filename 0 (fun _ => 0)) (strlen data + 1))

/-- Number of elements of `file->data` in `struct file`; the specification
takes it as the capacity of a file in bytes. -/
def FILE_DATA_CAPACITY : Nat := FLOPPY_DMA_LENGTH - MAX_FILENAME_LENGTH - 33

/-- A file name as the file system expects it: at most 59 characters, none of
them zero. -/
def IsName (name : List Byte) : Prop :=
  name.length < MAX_FILENAME_LENGTH ∧ ∀ c ∈ name, c ≠ 0

instance (name : List Byte) : Decidable (IsName name) := by
  unfold IsName
  infer_instance

/-- Track content `mem` holds a well-formed Directory Record with the names
`names`: the count is their number, slot `i` holds name `i` followed by zeros,
and the slots behind the last name are zero. -/
def WellFormed (mem : Nat → Byte) (names : List (List Byte)) : Prop :=
  file_count mem = names.length ∧ (∀ nm ∈ names, IsName nm) ∧
  ∀ i, i < MAX_FILE_COUNT → ∀ j, j < MAX_FILENAME_LENGTH →
    mem (file_names i + j) = (names.getD i []).getD j 0

/-! ## Controller driver (`floppy.c`, `timer.c`, `low_level.c`) -/

/-- What the driver does to the outside world, in program order. -/
inductive IoEvent where
  /-- `port_byte_in(port)` returned `value`. -/
  | inb (port value : Nat)
  /-- `port_byte_out(port, value)`. -/
  | outb (port value : Nat)
  /-- `timer_sleep(ticks)`. -/
  | sleep (ticks : Nat)
  /-- `print(message, FLOPPY_PRINT_ATTRIBUTE)`. -/
  | print (message : String)
  deriving DecidableEq, Repr

/-- The hardware seen through port reads: `answer port n` is what read number
`n` (counted from 0) of `port` returns. -/
structure Controller where
  answer : Nat → Nat → Nat

/-- The driver state: the motor flag and the trace of everything done so far. -/
structure Floppy where
  floppy_motor_state : Nat
  trace : List IoEvent

def FLOPPY_BASE : Nat := 0x03F0
def FLOPPY_DOR : Nat := 2
def FLOPPY_MSR : Nat := 4
def FLOPPY_FIFO : Nat := 5
def FLOPPY_CCR : Nat := 7

def CMD_SPECIFY : Nat := 3
def CMD_WRITE_DATA : Nat := 5
def CMD_READ_DATA : Nat := 6
def CMD_RECALIBRATE : Nat := 7
def CMD_SENSE_INTERRUPT : Nat := 8
def CMD_SEEK : Nat := 15

def FLOPPY_MOTOR_OFF : Nat := 0
def FLOPPY_MOTOR_ON : Nat := 1

/-- Whether an event is a read of `port`. -/
def is_inb (port : Nat) : IoEvent → Bool
  | IoEvent.inb p _ => p == port
  | _ => false

/-- Number of reads of `port` in a trace. -/
def reads (port : Nat) (trace : List IoEvent) : Nat := (trace.filter (is_inb port)).length

/-- `port_byte_in(port)`: the controller answers; the result is an `unsigned char`. -/
def port_byte_in (hw : Controller) (port : Nat) (s : Floppy) : Nat × Floppy :=
  let v := hw.answer port (reads port s.trace) % 256
  (v, { s with trace := s.trace ++ [IoEvent.inb port v] })

/-- `port_byte_out(port, data)`; `data` is an `unsigned char`. -/
def port_byte_out (port data : Nat) (s : Floppy) : Floppy :=
  { s with trace := s.trace ++ [IoEvent.outb port (data % 256)] }

/-- `timer_sleep(ticks)`: a fixed busy loop. -/
def timer_sleep (ticks : Nat) (s : Floppy) : Floppy :=
  { s with trace := s.trace ++ [IoEvent.sleep ticks] }

/-- `print(message, FLOPPY_PRINT_ATTRIBUTE)` of the driver. -/
def floppy_print (message : String) (s : Floppy) : Floppy :=
  { s with trace := s.trace ++ [IoEvent.print message] }

/-- `wait_floppy_ready`: poll the master status register until bit 7 is set.
`fuel` is the number of polls the model follows; `none` when the bit was
clear in all of them. -/
def wait_floppy_ready (hw : Controller) : Nat → Floppy → Option Floppy
  | 0, _ => none
  | fuel + 1, s =>
    let r := port_byte_in hw (FLOPPY_BASE + FLOPPY_MSR) s
    if 0x80 &&& r.1 ≠ 0 then some r.2 else wait_floppy_ready hw fuel r.2

/-- `floppy_write_cmd(cmd)`. -/
def floppy_write_cmd (hw : Controller) (fuel cmd : Nat) (s : Floppy) : Option Floppy :=
  (wait_floppy_ready hw fuel s).map (port_byte_out (FLOPPY_BASE + FLOPPY_FIFO) cmd)

/-- `floppy_read_data()`. -/
def floppy_read_data (hw : Controller) (fuel : Nat) (s : Floppy) : Option (Nat × Floppy) :=
  (wait_floppy_ready hw fuel s).map (port_byte_in hw (FLOPPY_BASE + FLOPPY_FIFO))

/-- `wait_for_interrupt()`: waits for 500ms instead of for the interrupt. -/
def wait_for_interrupt (s : Floppy) : Floppy := timer_sleep 50 s

/-- `floppy_check_interrupt(&st0, &cyl)`; yields `(st0, cyl)` and the state. -/
def floppy_check_interrupt (hw : Controller) (fuel : Nat) (s : Floppy) :
    Option ((Nat × Nat) × Floppy) :=
  (floppy_write_cmd hw fuel CMD_SENSE_INTERRUPT s).bind fun s =>
  (floppy_read_data hw fuel s).bind fun st0 =>
  (floppy_read_data hw fuel st0.2).bind fun cyl =>
  some ((st0.1, cyl.1), cyl.2)

/-- `floppy_motor(onoff)`. -/
def floppy_motor (onoff : Nat) (s : Floppy) : Floppy :=
  if onoff ≠ 0 then
    let s := if s.floppy_motor_state = 0 then
        -- need to turn on
        timer_sleep 50 (port_byte_out (FLOPPY_BASE + FLOPPY_DOR) 0x1c s)
      else s
    { s with floppy_motor_state := FLOPPY_MOTOR_ON }
  else
    { s with floppy_motor_state := FLOPPY_MOTOR_OFF }

/-- One pass through the body of the loop of `floppy_calibrate` up to the test:
recalibrate command, wait, sense interrupt.  Yields the reported cylinder. -/
def calibrate_attempt (hw : Controller) (fuel : Nat) (s : Floppy) : Option (Nat × Floppy) :=
  (floppy_write_cmd hw fuel CMD_RECALIBRATE s).bind fun s =>
  (floppy_write_cmd hw fuel 0 s).bind fun s =>
  (floppy_check_interrupt hw fuel (wait_for_interrupt s)).bind fun r =>
  some (r.1.2, r.2)

/-- The loop of `floppy_calibrate` with `n` iterations left, and the code
after it. -/
def calibrate_loop (hw : Controller) (fuel : Nat) : Nat → Floppy → Option (Int × Floppy)
  | 0, s =>
    some (-1, floppy_motor FLOPPY_MOTOR_OFF
      (floppy_print "floppy_calibrate: 10 retries exhausted\n" s))
  | n + 1, s =>
    (calibrate_attempt hw fuel s).bind fun r =>
    if r.1 = 0 then some (0, floppy_motor FLOPPY_MOTOR_OFF r.2)
    else calibrate_loop hw fuel n r.2

/-- `floppy_calibrate()`. -/
def floppy_calibrate (hw : Controller) (fuel : Nat) (s : Floppy) : Option (Int × Floppy) :=
  calibrate_loop hw fuel 10 (floppy_motor FLOPPY_MOTOR_ON s)

/-- One pass through the body of the loop of `floppy_seek` up to the test:
seek command, wait, sense interrupt.  Yields the reported cylinder. -/
def seek_attempt (hw : Controller) (fuel cyli head : Nat) (s : Floppy) : Option (Nat × Floppy) :=
  (floppy_write_cmd hw fuel CMD_SEEK s).bind fun s =>
  (floppy_write_cmd hw fuel (head <<< 2) s).bind fun s =>
  (floppy_write_cmd hw fuel cyli s).bind fun s =>
  (floppy_check_interrupt hw fuel (wait_for_interrupt s)).bind fun r =>
  some (r.1.2, r.2)

/-- The loop of `floppy_seek` with `n` iterations left, and the code after it. -/
def seek_loop (hw : Controller) (fuel cyli head : Nat) : Nat → Floppy → Option (Int × Floppy)
  | 0, s =>
    some (-1, floppy_motor FLOPPY_MOTOR_OFF
      (floppy_print "floppy_seek: 10 retries exhausted\n" s))
  | n + 1, s =>
    (seek_attempt hw fuel cyli head s).bind fun r =>
    if r.1 = cyli then some (0, floppy_motor FLOPPY_MOTOR_OFF r.2)
    else seek_loop hw fuel cyli head n r.2

/-- `floppy_seek(cyli, head)`. -/
def floppy_seek (hw : Controller) (fuel cyli head : Nat) (s : Floppy) : Option (Int × Floppy) :=
  seek_loop hw fuel cyli head 10 (floppy_motor FLOPPY_MOTOR_ON s)

def floppy_dir_read : Nat := 1
def floppy_dir_write : Nat := 2

/-- `floppy_dma_init(dir)`; `addr` is the address of `floppy_dmabuf`. -/
def floppy_dma_init (addr dir : Nat) (s : Floppy) : Floppy :=
  let count := FLOPPY_DMA_LENGTH - 1
  if dir = floppy_dir_read ∨ dir = floppy_dir_write then
    let mode := if dir = floppy_dir_read then 0x46 else 0x4a
    let s := port_byte_out 0x0a 0x06 s
    let s := port_byte_out 0x0c 0xff s
    let s := port_byte_out 0x04 (addr % 256) s
    let s := port_byte_out 0x04 (addr / 256 % 256) s
    let s := port_byte_out 0x81 (addr / 65536 % 256) s
    let s := port_byte_out 0x0c 0xff s
    let s := port_byte_out 0x05 (count % 256) s
    let s := port_byte_out 0x05 (count / 256 % 256) s
    let s := port_byte_out 0x0b mode s
    port_byte_out 0x0a 0x02 s
  else
    floppy_print "floppy_dma_init: invalid direction" s

/-- A run of `floppy_write_cmd` calls, one for each byte of `cmds` in order. -/
def write_cmds (hw : Controller) (fuel : Nat) : List Nat → Floppy → Option Floppy
  | [], s => some s
  | c :: cs, s => (floppy_write_cmd hw fuel c s).bind (write_cmds hw fuel cs)

/-- A run of `n` calls of `floppy_read_data`; yields the bytes read, in order. -/
def read_results (hw : Controller) (fuel : Nat) : Nat → Floppy → Option (List Nat × Floppy)
  | 0, s => some ([], s)
  | n + 1, s =>
    (floppy_read_data hw fuel s).bind fun (r : Nat × Floppy) =>
    (read_results hw fuel n r.2).map fun (rs : List Nat × Floppy) => (r.1 :: rs.1, rs.2)

/-- One pass through the body of the loop of `floppy_do_track`: motor on, DMA
set-up, settle delay, the nine command bytes, the wait, the seven result
bytes `st0 st1 st2 rcy rhe rse bps` (none of which is looked at), motor off,
`return 0`. -/
def track_attempt (hw : Controller) (fuel addr cyl dir cmd : Nat) (s : Floppy) :
    Option (Int × Floppy) :=
  let s := floppy_motor FLOPPY_MOTOR_ON s
  let s := floppy_dma_init addr dir s
  let s := timer_sleep 10 s
  (write_cmds hw fuel [cmd, 0, cyl, 0, 1, 2, 18, 0x1b, 0xff] s).bind fun (s : Floppy) =>
  (read_results hw fuel 7 (wait_for_interrupt s)).bind fun (r : List Nat × Floppy) =>
  some ((0 : Int), floppy_motor FLOPPY_MOTOR_OFF r.2)

/-- The loop of `floppy_do_track` with `n` iterations left, and the code after it. -/
def track_loop (hw : Controller) (fuel addr cyl dir cmd : Nat) : Nat → Floppy → Option (Int × Floppy)
  | 0, s =>
    some (-1, floppy_motor FLOPPY_MOTOR_OFF
      (floppy_print "floppy_do_sector: 20 retries exhausted\n" s))
  | _ + 1, s => track_attempt hw fuel addr cyl dir cmd s

/-- `floppy_do_track(cyl, dir)`; `addr` is the address of `floppy_dmabuf`. -/
def floppy_do_track (hw : Controller) (fuel addr cyl dir : Nat) (s : Floppy) :
    Option (Int × Floppy) :=
  if dir = floppy_dir_read ∨ dir = floppy_dir_write then
    let cmd := if dir = floppy_dir_read then CMD_READ_DATA ||| 0xC0 else CMD_WRITE_DATA ||| 0xC0
    -- seek both heads
    (floppy_seek hw fuel cyl 0 s).bind fun r0 =>
    if r0.1 ≠ 0 then some (-1, r0.2)
    else
      (floppy_seek hw fuel cyl 1 r0.2).bind fun r1 =>
      if r1.1 ≠ 0 then some (-1, r1.2)
      else track_loop hw fuel addr cyl dir cmd 20 r1.2
  else
    some (0, floppy_print "floppy_do_track: invalid direction" s)

/-- `floppy_read_track(cyl)`. -/
def floppy_read_track (hw : Controller) (fuel addr cyl : Nat) (s : Floppy) :
    Option (Int × Floppy) :=
  floppy_do_track hw fuel addr cyl floppy_dir_read s

/-- `floppy_write_track(cyl)`. -/
def floppy_write_track (hw : Controller) (fuel addr cyl : Nat) (s : Floppy) :
    Option (Int × Floppy) :=
  floppy_do_track hw fuel addr cyl floppy_dir_write s

/-! ### Reading a trace -/

/-- Whether an event is a poll of the master status register. -/
def is_poll (e : IoEvent) : Bool := is_inb (FLOPPY_BASE + FLOPPY_MSR) e

/-- The trace without the polls of the master status register. -/
def quiet (trace : List IoEvent) : List IoEvent := trace.filter (fun e => !is_poll e)

/-- The bytes written to the data FIFO, in order. -/
def fifo_writes (trace : List IoEvent) : List Nat :=
  trace.filterMap fun e =>
    match e with
    | IoEvent.outb p v => if p = FLOPPY_BASE + FLOPPY_FIFO then some v else none
    | _ => none

/-- The writes to the ports of the DMA controller, in order. -/
def dma_writes (trace : List IoEvent) : List (Nat × Nat) :=
  trace.filterMap fun e =>
    match e with
    | IoEvent.outb p v => if p ∈ [0x0a, 0x0b, 0x0c, 0x04, 0x05, 0x81] then some (p, v) else none
    | _ => none

/-- Poll number `n` of the master status register finds the ready bit set. -/
def ready (hw : Controller) (n : Nat) : Prop :=
  0x80 &&& (hw.answer (FLOPPY_BASE + FLOPPY_MSR) n % 256) ≠ 0

/-- The controller sets the ready bit within `d` polls, from any poll on. -/
def ReadyWithin (hw : Controller) (d : Nat) : Prop := ∀ n, ∃ j, j < d ∧ ready hw (n + j)

/-- The events of one pass of the loop of `floppy_seek` that starts when `r`
bytes have been read from the FIFO: the seek command, the wait, the sense
interrupt command and its two result bytes. -/
def seek_events (hw : Controller) (cyli head r : Nat) : List IoEvent :=
  [IoEvent.outb (FLOPPY_BASE + FLOPPY_FIFO) CMD_SEEK,
   IoEvent.outb (FLOPPY_BASE + FLOPPY_FIFO) (head <<< 2 % 256),
   IoEvent.outb (FLOPPY_BASE + FLOPPY_FIFO) (cyli % 256),
   IoEvent.sleep 50,
   IoEvent.outb (FLOPPY_BASE + FLOPPY_FIFO) CMD_SENSE_INTERRUPT,
   IoEvent.inb (FLOPPY_BASE + FLOPPY_FIFO) (hw.answer (FLOPPY_BASE + FLOPPY_FIFO) r % 256),
   IoEvent.inb (FLOPPY_BASE + FLOPPY_FIFO) (hw.answer (FLOPPY_BASE + FLOPPY_FIFO) (r + 1) % 256)]

/-- The events of one pass of the loop of `floppy_calibrate` that starts when
`r` bytes have been read from the FIFO. -/
def calibrate_events (hw : Controller) (r : Nat) : List IoEvent :=
  [IoEvent.outb (FLOPPY_BASE + FLOPPY_FIFO) CMD_RECALIBRATE,
   IoEvent.outb (FLOPPY_BASE + FLOPPY_FIFO) 0,
   IoEvent.sleep 50,
   IoEvent.outb (FLOPPY_BASE + FLOPPY_FIFO) CMD_SENSE_INTERRUPT,
   IoEvent.inb (FLOPPY_BASE + FLOPPY_FIFO) (hw.answer (FLOPPY_BASE + FLOPPY_FIFO) r % 256),
   IoEvent.inb (FLOPPY_BASE + FLOPPY_FIFO) (hw.answer (FLOPPY_BASE + FLOPPY_FIFO) (r + 1) % 256)]

/-- The events of `n` passes of the loop of `floppy_seek`, the first of which
starts when `r` bytes have been read from the FIFO. -/
def seek_trace (hw : Controller) (cyli head : Nat) : Nat → Nat → List IoEvent
  | 0, _ => []
  | n + 1, r => seek_events hw cyli head r ++ seek_trace hw cyli head n (r + 2)

/-- The events of `n` passes of the loop of `floppy_calibrate`. -/
def calibrate_trace (hw : Controller) : Nat → Nat → List IoEvent
  | 0, _ => []
  | n + 1, r => calibrate_events hw r ++ calibrate_trace hw n (r + 2)

/-- The events of `floppy_motor(FLOPPY_MOTOR_ON)` in motor state `m`. -/
def motor_on_events (m : Nat) : List IoEvent :=
  if m = 0 then [IoEvent.outb (FLOPPY_BASE + FLOPPY_DOR) 0x1c, IoEvent.sleep 50] else []

/-- Number of bytes read from the data FIFO so far. -/
def fifo_reads (s : Floppy) : Nat := reads (FLOPPY_BASE + FLOPPY_FIFO) s.trace

/-- State `t` is reached from `s` with the motor flag `m` by doing `evs` and
any number of polls of the master status register. -/
def Reaches (s t : Floppy) (m : Nat) (evs : List IoEvent) : Prop :=
  t.floppy_motor_state = m ∧ quiet t.trace = quiet s.trace ++ evs

/-- The messages printed by the driver, in order. -/
def prints (trace : List IoEvent) : List String :=
  trace.filterMap fun e =>
    match e with
    | IoEvent.print m => some m
    | _ => none

/-- The port writes of `floppy_dma_init` for a valid direction. -/
def dma_init_events (addr dir : Nat) : List IoEvent :=
  [IoEvent.outb 0x0a 0x06, IoEvent.outb 0x0c 0xff,
   IoEvent.outb 0x04 (addr % 256), IoEvent.outb 0x04 (addr / 256 % 256),
   IoEvent.outb 0x81 (addr / 65536 % 256),
   IoEvent.outb 0x0c 0xff, IoEvent.outb 0x05 0xff, IoEvent.outb 0x05 0x3f,
   IoEvent.outb 0x0b (if dir = floppy_dir_read then 0x46 else 0x4a),
   IoEvent.outb 0x0a 0x02]

/-- The events of one pass of the loop of `floppy_do_track` started in motor
state `m`, with `results` the seven bytes read back. -/
def track_events (addr cyl dir cmd m : Nat) (results : List Nat) : List IoEvent :=
  motor_on_events m ++ dma_init_events addr dir ++ [IoEvent.sleep 10]
    ++ [cmd, 0, cyl, 0, 1, 2, 18, 0x1b, 0xff].map
      (fun c => IoEvent.outb (FLOPPY_BASE + FLOPPY_FIFO) (c % 256))
    ++ [IoEvent.sleep 50] ++ results.map (IoEvent.inb (FLOPPY_BASE + FLOPPY_FIFO))

/-- A controller that is always ready and reports cylinder `c` in the first
sense-interrupt answer and `c + 1` afterwards. -/
def once (c : Nat) : Controller :=
  { answer := fun p n => if p = 0x3F4 then 0x80 else if n = 1 then c else c + 1 }

/-- A controller that is always ready and answers 3 to every FIFO read but
the reads number 4 to 10, which it answers with 0xFF. -/
def noisy : Controller :=
  { answer := fun p n => if p = 0x3F4 then 0x80 else if 4 ≤ n ∧ n < 11 then 0xFF else 3 }

/-- A controller that is ready at every poll and reports cylinder `c` always. -/
def steady (c : Nat) : Controller := { answer := fun p _ => if p = 0x3F4 then 0x80 else c }

/-- A controller that sets the ready bit at every second poll and whose FIFO
answers 5 to read number 3, 0 to read number 5 and 1 to every other read. -/
def sample : Controller :=
  { answer := fun p n =>
      if p = 0x3F4 then (if n % 2 = 1 then 0x80 else 0)
      else if n = 3 then 5 else if n = 5 then 0 else 1 }

/-- The driver state at power-up: motor off, nothing done yet. -/
def idle : Floppy := { floppy_motor_state := 0, trace := [] }


/-! ## Sample file system states -/

/-- A medium whose directory lists the one file `f` and whose track 1 holds a
file of three data bytes with a zero in the middle: `a`, zero, `b`. -/
def holed : Fs :=
  { floppy_dmabuf := fun _ => 0
    medium := fun t =>
      if t = 0 then set_file_count (string_copy (ascii "f") (file_names 0) (fun _ => 0)) 1
      else if t = 1 then
        set_data_length (poke (poke (string_copy (ascii "f") 0 (fun _ => 0)) 64 97) 66 98) 3
      else fun _ => 0
    ops := []
    screen := [] }

/-- A medium whose directory count is 119 and which is zero otherwise. -/
def full : Fs :=
  { floppy_dmabuf := fun _ => 0
    medium := fun t => if t = 0 then set_file_count (fun _ => 0) 119 else fun _ => 0
    ops := []
    screen := [] }

/-! ## Memory and in-place string functions (`low_level.c`, `string.c`)

From here on strings are also handled where they lie: memory is a function
from addresses to bytes and a `char *` is an address.  The address arithmetic
of the loops stays far below the 32-bit limit and is done in `Nat`. -/

/-- `memcpy(destination, source, count)` of `low_level.c`: `count` times
`*destination++ = *source++`, then `return destination`.  Yields the returned
pointer and the memory. -/
def memcpy (mem : Nat → Byte) : Nat → Nat → Nat → Nat × (Nat → Byte)
  | destination, _, 0 => (destination, mem)
  | destination, source, count + 1 =>
    memcpy (poke mem destination (mem source)) (destination + 1) (source + 1) count

/-- `memmove(destination, source, count)` of `low_level.c`: `return memcpy(...)`. -/
def memmove (mem : Nat → Byte) (destination source count : Nat) : Nat × (Nat → Byte) :=
  memcpy mem destination source count

/-- `strlen(string)` of `string.c` for a string lying in memory, started with
`count`: `while (string[count] != 0) count++`.  `fuel` bounds the number of
bytes inspected; `none` when no zero was found within the bound. -/
def strlen_at (mem : Nat → Byte) (string : Nat) : Nat → Nat → Option Nat
  | 0, _ => none
  | fuel + 1, count =>
    if mem (string + count) ≠ 0 then strlen_at mem string fuel (count + 1) else some count

/-- `string_count_char(string, c)` of `string.c` for a string lying in memory,
started at index `i` with `count`.  `fuel` as in `strlen_at`. -/
def string_count_char (mem : Nat → Byte) (string : Nat) (c : Byte) : Nat → Nat → Nat → Option Nat
  | 0, _, _ => none
  | fuel + 1, i, count =>
    if mem (string + i) ≠ 0 then
      string_count_char mem string c fuel (i + 1) (if mem (string + i) = c then count + 1 else count)
    else some count

/-- The loop of `reduce_consecutive_occurrences` at index `i` with
`last_index`.  `last_index - i - 1` is at least 1 whenever it is used, because
`last_index` is the index of the terminator and `string[i + 1]` is not zero.
`fuel` bounds the number of iterations; `none` when it runs out. -/
def reduce_loop (c : Byte) (string : Nat) : Nat → (Nat → Byte) → Nat → Nat → Option (Nat → Byte)
  | 0, _, _, _ => none
  | fuel + 1, mem, i, last_index =>
    if mem (string + i) ≠ 0 then
      if mem (string + i) = c ∧ mem (string + i + 1) = c then
        reduce_loop c string fuel
          (memcpy mem (string + i + 1) (string + i + 2) (last_index - i - 1)).2 i (last_index - 1)
      else reduce_loop c string fuel mem (i + 1) last_index
    else some mem

/-- `reduce_consecutive_occurrences(string, c)` of `string.c`. -/
def reduce_consecutive_occurrences (fuel : Nat) (mem : Nat → Byte) (string : Nat) (c : Byte) :
    Option (Nat → Byte) :=
  (strlen_at mem string fuel 0).bind fun last_index => reduce_loop c string fuel mem 0 last_index

/-- Specification of `reduce_consecutive_occurrences`: the string in which
every maximal run of `c` is replaced by a single `c`, that is, a character is
dropped exactly when it is `c` and the character before it is `c`.  `prev` is
the character before the list, if any. -/
def collapse_runs (c : Byte) : Option Byte → List Byte → List Byte
  | _, [] => []
  | prev, x :: r =>
    if x = c ∧ prev = some c then collapse_runs c (some x) r
    else x :: collapse_runs c (some x) r

/-- Number of characters that `collapse_runs` drops. -/
def dropped (c : Byte) : Option Byte → List Byte → Nat
  | _, [] => 0
  | prev, x :: r =>
    if x = c ∧ prev = some c then dropped c (some x) r + 1 else dropped c (some x) r

/-- The memory that holds the bytes of `l` from address 0 on and zero elsewhere. -/
def memory_of (l : List Byte) : Nat → Byte := fun a => l.getD a 0

/-! ## The external program `fibonacci.c` -/

/-- The conversion of an `unsigned int` to `int`: the value with the same 32
bits. -/
def int_of_unsigned (u : Nat) : Int :=
  if u % 4294967296 < 2147483648 then ((u % 4294967296 : Nat) : Int)
  else ((u % 4294967296 : Nat) : Int) - 4294967296

/-- The conversion of an `int` to `unsigned int`. -/
def unsigned_of_int (i : Int) : Nat := (i % 4294967296).toNat

/-- `fib_recursive(previous, current, count)` of `fibonacci.c`; the sum is an
`unsigned int`, the result is returned as `int`. -/
def fib_recursive (previous current : Nat) : Nat → Int
  | 0 => int_of_unsigned previous
  | count + 1 => fib_recursive current ((previous + current) % 4294967296) count

/-- `string_to_unsigned_int(string)` of `fibonacci.c`, started with `result`.
`string[i] -= 48` is done on a `char`: `d` is the new byte and it is negative
as a `char` when it is 128 or more.  The result is returned as `int`.  (The
function also leaves the decremented bytes in the string; they are not read
again.) -/
def string_to_unsigned_int : List Byte → Nat → Int
  | [], result => int_of_unsigned result
  | ch :: rest, result =>
    if ch ≠ 0 then
      let result := result * 10 % 4294967296
      let d := (ch.val + 256 - 48) % 256
      if 128 ≤ d ∨ 9 < d then -1
      else string_to_unsigned_int rest ((result + d) % 4294967296)
    else int_of_unsigned result

/-- `function_main(argc, argv)` of `fibonacci.c` with `argc = argv.length`. -/
def function_main (argv : List (List Byte)) : Int :=
  match argv with
  | _ :: input :: _ =>
    let count := unsigned_of_int (string_to_unsigned_int input 0)
    fib_recursive 0 1 count
  | _ => -1

/-- The decimal digits of `n` in front of `acc`, most significant first;
`fuel` bounds the number of digits. -/
def decimal_digits : Nat → Nat → List Byte → List Byte
  | 0, _, acc => acc
  | fuel + 1, n, acc =>
    if n < 10 then byte (48 + n) :: acc
    else decimal_digits fuel (n / 10) (byte (48 + n % 10) :: acc)

/-- The decimal digit string of `n`. -/
def decimal (n : Nat) : List Byte := decimal_digits (n + 1) n []

/-! ## Shell (`shell.c`) and the `create` command of `file_system.c` -/

/-- The loop of `execute_command` over `args` at index `i`, with the pointers
stored in `argv[0 .. argc)` so far (`argc` is the length of the list): a space
becomes a zero byte and the address behind it becomes the next argument.
`fuel` bounds the number of iterations; `none` when it runs out. -/
def split_loop (args : Nat) : Nat → (Nat → Byte) → Nat → List Nat → Option ((Nat → Byte) × List Nat)
  | 0, _, _, _ => none
  | fuel + 1, mem, i, argv =>
    if mem (args + i) ≠ 0 then
      if mem (args + i) = 32 then
        split_loop args fuel (poke mem (args + i) 0) (i + 1) (argv ++ [args + i + 1])
      else split_loop args fuel mem (i + 1) argv
    else some (mem, argv)

/-- What `execute_command` hands to the command function. -/
structure Call where
  /-- The memory after the arguments have been split. -/
  mem : Nat → Byte
  /-- Number of elements of the array `argv`. -/
  argv_length : Nat
  /-- The pointers `argv[0 .. argc)`; the store `argv[argc] = 0` follows them. -/
  argv : List Nat
  /-- The argument count. -/
  argc : Nat

/-- `execute_command(command, args)` of `shell.c` up to the call of the command
function; the lookup of the function in the command table is left out, it does
not touch `argc`, `argv` or `args`.  A null pointer is the address 0. -/
def execute_command (fuel command args : Nat) (mem : Nat → Byte) : Option Call :=
  -- reduce consecutive strings of whitespaces to a single ' '
  (reduce_consecutive_occurrences fuel mem args 32).bind fun (mem : Nat → Byte) =>
  (string_count_char mem args 32 fuel 0 0).bind fun (count : Nat) =>
  (split_loop args fuel mem 0 [command]).bind fun (r : (Nat → Byte) × List Nat) =>
  let argc := r.2.length
  let argc := if r.2.getD (argc - 1) 0 = 0 then argc - 1 else argc
  some { mem := r.1, argv_length := count + 1, argv := r.2.take argc, argc := argc }

/-- The words `words` written one after the other, word `k` and word `k + 1`
separated by `seps[k] + 1` spaces (by one space where `seps` has run out). -/
def spaced : List (List Byte) → List Nat → List Byte
  | [], _ => []
  | [w], _ => w
  | w :: v :: ws, seps =>
    w ++ List.replicate (seps.headD 0 + 1) 32 ++ spaced (v :: ws) seps.tail

/-- The addresses behind the spaces of a string `u` lying at address `q`. -/
def arg_pointers : Nat → List Byte → List Nat
  | _, [] => []
  | q, x :: r => if x = 32 then (q + 1) :: arg_pointers (q + 1) r else arg_pointers (q + 1) r

/-! ## Controller driver: reset and the ready handshake (`floppy.c`) -/

/-- `floppy_reset()`. -/
def floppy_reset (hw : Controller) (fuel : Nat) (s : Floppy) : Option (Int × Floppy) :=
  -- disable controller
  let s := port_byte_out (FLOPPY_BASE + FLOPPY_DOR) 0x00 s
  -- enable controller
  let s := port_byte_out (FLOPPY_BASE + FLOPPY_DOR) 0x0C s
  -- read clear interrupt data
  (floppy_check_interrupt hw fuel (wait_for_interrupt s)).bind fun (r : (Nat × Nat) × Floppy) =>
  -- set transfer speed 500kb/s
  let s := port_byte_out (FLOPPY_BASE + FLOPPY_CCR) 0x00 r.2
  (write_cmds hw fuel [CMD_SPECIFY, 0xdf, 0x02] s).bind fun (s : Floppy) =>
  -- it could fail...
  (floppy_calibrate hw fuel s).bind fun (r : Int × Floppy) =>
  if r.1 ≠ 0 then some (-1, r.2) else some (0, r.2)

/-- Whether an event is an access to the data FIFO: a command byte written to
it or a result byte read from it. -/
def is_fifo : IoEvent → Bool
  | IoEvent.inb p _ => p == FLOPPY_BASE + FLOPPY_FIFO
  | IoEvent.outb p _ => p == FLOPPY_BASE + FLOPPY_FIFO
  | _ => false

/-- Whether an event is a read of the master status register that returned a
value with the ready bit (bit 7) set. -/
def is_ready_poll : IoEvent → Bool
  | IoEvent.inb p v => p == FLOPPY_BASE + FLOPPY_MSR && (0x80 &&& v != 0)
  | _ => false

/-- Whether the event before the current one, if any, is a ready poll. -/
def after_ready : Option IoEvent → Bool
  | some e => is_ready_poll e
  | none => false

/-- The last event of a trace that comes after the event `prev`. -/
def last_event : Option IoEvent → List IoEvent → Option IoEvent
  | prev, [] => prev
  | _, e :: es => last_event (some e) es

/-- Executable form of `Guarded`: every FIFO access of the trace, which comes
after the event `prev`, has a ready poll directly in front of it. -/
def guarded : Option IoEvent → List IoEvent → Bool
  | _, [] => true
  | prev, e :: es => (!is_fifo e || after_ready prev) && guarded (some e) es

/-- The ready handshake as a property of a trace: every access to the data
FIFO is directly preceded by a read of the master status register that
returned a value with bit 7 set. -/
def Guarded (evs : List IoEvent) : Prop :=
  ∀ (i : Nat) (e : IoEvent), evs[i]? = some e → is_fifo e = true →
    ∃ v, 0 < i ∧ evs[i - 1]? = some (IoEvent.inb (FLOPPY_BASE + FLOPPY_MSR) v) ∧
      0x80 &&& v ≠ 0

/-- The events of `k` polls of the master status register, the first of which
is read number `n` of that port. -/
def poll_events (hw : Controller) : Nat → Nat → List IoEvent
  | _, 0 => []
  | n, k + 1 =>
    IoEvent.inb (FLOPPY_BASE + FLOPPY_MSR) (hw.answer (FLOPPY_BASE + FLOPPY_MSR) n % 256)
      :: poll_events hw (n + 1) k

/-- A controller that never sets the ready bit. -/
def deaf : Controller := { answer := fun _ _ => 0 }

/-- A controller that sets the ready bit from poll number `n` on and not before. -/
def late (n : Nat) : Controller :=
  { answer := fun p k => if p = 0x3F4 ∧ n ≤ k then 0x80 else 0 }

instance (hw : Controller) (n : Nat) : Decidable (ready hw n) := by
  unfold ready
  infer_instance

/-! ## Shell: the command name (`shell.c`, `low_level.c`) -/

def MAX_COMMAND_NAME_LENGTH : Nat := 32

/-- The loop of `memset` with `n` iterations left: `destination[i] = value`. -/
def memset_loop (destination : Nat) (value : Byte) : Nat → Nat → (Nat → Byte) → (Nat → Byte)
  | 0, _, mem => mem
  | n + 1, i, mem => memset_loop destination value n (i + 1) (poke mem (destination + i) value)

/-- `memset(destination, value, count)` of `low_level.c`.  Yields the returned
pointer and the memory. -/
def memset (mem : Nat → Byte) (destination : Nat) (value : Byte) (count : Nat) :
    Nat × (Nat → Byte) :=
  (destination, memset_loop destination value count 0 mem)

/-- The loop of `shell_keyboard_print_function` that copies the first word of
`command_buffer` to `command`:
`while (command_buffer[i] != ' ' && command_buffer[i] != 0)`.  The loop does
not look at the length of `command`.  `fuel` bounds the number of iterations. -/
def copy_command_loop (command command_buffer : Nat) :
    Nat → (Nat → Byte) → Nat → Option (Nat → Byte)
  | 0, _, _ => none
  | fuel + 1, mem, i =>
    if mem (command_buffer + i) ≠ 32 ∧ mem (command_buffer + i) ≠ 0 then
      copy_command_loop command command_buffer fuel
        (poke mem (command + i) (mem (command_buffer + i))) (i + 1)
    else some mem

/-- The newline case of `shell_keyboard_print_function` for a non-empty
`command_buffer`, from the declaration of the local array `command` (which
lies at the address `command`) to the call of `execute_command`, that call
included. -/
def shell_keyboard_newline (fuel command command_buffer : Nat) (mem : Nat → Byte) :
    Option Call :=
  let mem := (memset mem command 0 MAX_COMMAND_NAME_LENGTH).2
  (copy_command_loop command command_buffer fuel mem 0).bind fun (mem : Nat → Byte) =>
  let mem := poke mem (command + (MAX_COMMAND_NAME_LENGTH - 1)) 0
  execute_command fuel command command_buffer mem

/-! ## Screen (`screen.c`)

`int` values are integers; an `int` operation whose mathematical result is not
an `int` is undefined in C and yields `none` here.  `/` and `%` of C truncate
towards zero (`Int.tdiv`, `Int.tmod`). -/

/-- Address of the memory mapped video memory. -/
def VIDEO_ADRESS : Nat := 0xb8000
def MAX_ROWS : Int := 25
def MAX_COLUMNS : Int := 80

/-- The result `x` of an `int` operation: defined when it is an `int`. -/
def int_op (x : Int) : Option Int :=
  if -2147483648 ≤ x ∧ x ≤ 2147483647 then some x else none

/-- `get_screen_position(column, row)` of `screen.c`.  The pairs are
`(column, row)` after each of the first three `if` statements. -/
def get_screen_position (column row : Int) : Option Int :=
  -- if the column is below 0, it will underflow into a lower row
  (if column < 0 then
    (int_op (-column)).bind fun (n : Int) =>
    (int_op (row - (n.tdiv MAX_COLUMNS + 1))).bind fun (row : Int) =>
    some (MAX_COLUMNS - n.tmod MAX_COLUMNS, row)
  else some (column, row)).bind fun (p : Int × Int) =>
  -- if the row is below 0, we will print at 0,0
  let p : Int × Int := if p.2 < 0 then (0, 0) else p
  -- if column is above the maximum, it will overflow into a higher row
  (if p.1 ≥ MAX_COLUMNS then
    (int_op (p.2 + p.1.tdiv MAX_COLUMNS)).bind fun (row : Int) =>
    some (p.1.tmod MAX_COLUMNS, row)
  else some p).bind fun (p : Int × Int) =>
  -- if row is above maximum, we will print at the last row
  let row : Int := if p.2 ≥ MAX_ROWS then MAX_ROWS - 1 else p.2
  some (row * MAX_COLUMNS + p.1)

/-- `print_char_at(character, column, row, attribute_byte)` of `screen.c`. -/
def print_char_at (mem : Nat → Byte) (character : Byte) (column row : Int)
    (attribute_byte : Byte) : Option (Nat → Byte) :=
  (get_screen_position column row).bind fun (position : Int) =>
  (int_op (position * 2)).bind fun (offset : Int) =>
  some (poke (poke mem ((VIDEO_ADRESS : Int) + offset).toNat character)
    ((VIDEO_ADRESS : Int) + (offset + 1)).toNat attribute_byte)

/-- The loop `for (int i = 1; i < MAX_ROWS; i++)` of `scroll_up` at index `i`
with `n` iterations left: row `i` is copied to row `i - 1`. -/
def scroll_rows : Nat → Int → (Nat → Byte) → Option (Nat → Byte)
  | 0, _, mem => some mem
  | n + 1, i, mem =>
    (get_screen_position 0 (i - 1)).bind fun (above : Int) =>
    (get_screen_position 0 i).bind fun (here : Int) =>
    scroll_rows n (i + 1)
      (memcpy mem (above * 2 + (VIDEO_ADRESS : Int)).toNat (here * 2 + (VIDEO_ADRESS : Int)).toNat
        (MAX_COLUMNS * 2).toNat).2

/-- The loop `for (int i = 0; i < MAX_COLUMNS * 2 - 1; i++) last_line[i] = 0`
of `scroll_up` at index `i` with `n` iterations left. -/
def blank_loop (last_line : Nat) : Nat → Nat → (Nat → Byte) → (Nat → Byte)
  | 0, _, mem => mem
  | n + 1, i, mem => blank_loop last_line n (i + 1) (poke mem (last_line + i) 0)

/-- The loop `for (int j = 0; j < rows; j++)` of `scroll_up` with `n`
iterations left. -/
def scroll_up_loop : Nat → (Nat → Byte) → Option (Nat → Byte)
  | 0, mem => some mem
  | n + 1, mem =>
    (scroll_rows (MAX_ROWS - 1).toNat 1 mem).bind fun (mem : Nat → Byte) =>
    -- Blank the last line
    (get_screen_position 0 (MAX_ROWS - 1)).bind fun (last : Int) =>
    scroll_up_loop n
      (blank_loop ((last * 2).toNat + VIDEO_ADRESS) (MAX_COLUMNS * 2 - 1).toNat 0 mem)

/-- `scroll_up(rows)` of `screen.c`. -/
def scroll_up (rows : Int) (mem : Nat → Byte) : Option (Nat → Byte) :=
  scroll_up_loop rows.toNat mem

/-! ## Exceptions (`idt.c`) -/

/-- The table `exception_messages` of `idt.c`. -/
def exception_messages : List String :=
  ["Division By Zero Exception",
   "Debug Exception",
   "n Maskable Interrupt Exception",
   "Breakpoint Exception",
   "Into Detected Overflow Exception",
   "Out of Bounds Exception",
   "Invalid Opcode Exception",
   "Coprocessor Exception",
   "Double Fault Exception",
   "Coprocessor Segment Overrun Exception",
   "Bad TSS Exception",
   "Segment t Present Exception",
   "Stack Fault Exception",
   "General Protection Fault Exception",
   "Page Fault Exception",
   "Unkwn Interrupt Exception",
   "Coprocessor Fault Exception",
   "Alignment Check Exception",
   "Machine Check Exception",
   "Reserved Exceptions"]

/-- What a call of `fault_handler` does. -/
inductive Fault where
  /-- It returns without doing anything. -/
  | ignored
  /-- It prints the messages and stays in its endless loop. -/
  | halted (messages : List String)
  /-- It reads `exception_messages[index]` behind the end of the table. -/
  | out_of_table (index : Nat)
  deriving DecidableEq, Repr

/-- `fault_handler(regs)` of `idt.c`, with `int_no` the field `regs->int_no`. -/
def fault_handler (int_no : Nat) : Fault :=
  -- Is this a fault whose number is from 0 to 31?
  if int_no < 32 then
    match exception_messages[int_no]? with
    | some message => Fault.halted [message, " Exception. System Halted!\n"]
    | none => Fault.out_of_table int_no
  else Fault.ignored

/-! ## Lemmas on C strings -/

theorem strlen_of_nonzero (l : List Byte) (h : ∀ c ∈ l, c ≠ 0) : strlen l = l.length := by
  induction l with
  | nil => rfl
  | cons c cs ih =>
    have hc : c ≠ 0 := h c (List.mem_cons_self _ _)
    simp [strlen, hc, ih (fun x hx => h x (List.mem_cons_of_mem _ hx))]

theorem cstr_of_nonzero (l : List Byte) (h : ∀ c ∈ l, c ≠ 0) : cstr l = l := by
  induction l with
  | nil => rfl
  | cons c cs ih =>
    have hc : c ≠ 0 := h c (List.mem_cons_self _ _)
    simp [cstr, hc, ih (fun x hx => h x (List.mem_cons_of_mem _ hx))]

theorem string_copy_apply (l : List Byte) (h : ∀ c ∈ l, c ≠ 0) (d : Nat) (mem : Nat → Byte)
    (j : Nat) :
    string_copy l d mem j = if d ≤ j ∧ j < d + l.length then l.getD (j - d) 0 else mem j := by
  induction l generalizing d mem with
  | nil =>
    have h3 : ¬ (d ≤ j ∧ j < d + 0) := by omega
    simp only [string_copy, List.length_nil, if_neg h3]
  | cons c cs ih =>
    have hc : c ≠ 0 := h c (List.mem_cons_self _ _)
    have hcs : ∀ x ∈ cs, x ≠ 0 := fun x hx => h x (List.mem_cons_of_mem _ hx)
    simp only [string_copy, hc, ne_eq, not_false_eq_true, if_true, ih hcs, List.length_cons]
    by_cases h1 : j = d
    · subst h1
      simp [poke]
    · by_cases h2 : d + 1 ≤ j ∧ j < d + 1 + cs.length
      · have h3 : d ≤ j ∧ j < d + (cs.length + 1) := by omega
        have h4 : j - d = (j - (d + 1)) + 1 := by omega
        rw [if_pos h2, if_pos h3, h4, List.getD_cons_succ]
      · have h3 : ¬ (d ≤ j ∧ j < d + (cs.length + 1)) := by omega
        rw [if_neg h2, if_neg h3]
        simp [poke, h1]

theorem string_equals_iff (mem : Nat → Byte) (nm q : List Byte) (a : Nat)
    (hnm : ∀ c ∈ nm, c ≠ 0) (hq : ∀ c ∈ q, c ≠ 0)
    (hmem : ∀ j, j ≤ nm.length → mem (a + j) = nm.getD j 0) :
    string_equals mem a q = true ↔ nm = q := by
  induction q generalizing nm a with
  | nil =>
    have h0 := hmem 0 (Nat.zero_le _)
    cases nm with
    | nil => simpa [string_equals] using h0
    | cons c cs =>
      have hc : c ≠ 0 := hnm c (List.mem_cons_self _ _)
      simp at h0
      simp [string_equals, h0, hc]
  | cons x xs ih =>
    have hx : x ≠ 0 := hq x (List.mem_cons_self _ _)
    have hxs : ∀ c ∈ xs, c ≠ 0 := fun c hc => hq c (List.mem_cons_of_mem _ hc)
    have h0 := hmem 0 (Nat.zero_le _)
    cases nm with
    | nil =>
      simp at h0
      simp [string_equals, h0, Ne.symm hx]
    | cons c cs =>
      have hc : c ≠ 0 := hnm c (List.mem_cons_self _ _)
      have hcs : ∀ y ∈ cs, y ≠ 0 := fun y hy => hnm y (List.mem_cons_of_mem _ hy)
      simp at h0
      by_cases hcx : c = x
      · subst hcx
        have hrec := ih cs (a + 1) hcs hxs (by
          intro j hj
          have := hmem (j + 1) (by simp; omega)
          simpa [Nat.add_assoc, Nat.add_comm 1 j] using this)
        simp [string_equals, h0, hc, hrec]
      · simp [string_equals, h0, hcx]

theorem message_at_eq (mem : Nat → Byte) (nm : List Byte) (fuel a : Nat)
    (hnm : ∀ c ∈ nm, c ≠ 0) (hfuel : nm.length < fuel)
    (hmem : ∀ j, j ≤ nm.length → mem (a + j) = nm.getD j 0) :
    message_at mem fuel a = some nm := by
  induction nm generalizing fuel a with
  | nil =>
    have h0 := hmem 0 (Nat.zero_le _)
    cases fuel with
    | zero => simp at hfuel
    | succ f =>
      simp at h0
      simp [message_at, h0]
  | cons c cs ih =>
    have hc : c ≠ 0 := hnm c (List.mem_cons_self _ _)
    have hcs : ∀ y ∈ cs, y ≠ 0 := fun y hy => hnm y (List.mem_cons_of_mem _ hy)
    have h0 := hmem 0 (Nat.zero_le _)
    cases fuel with
    | zero => simp at hfuel
    | succ f =>
      simp at h0
      have hrec := ih f (a + 1) hcs (by simpa using hfuel) (by
        intro j hj
        have := hmem (j + 1) (by simp; omega)
        simpa [Nat.add_assoc, Nat.add_comm 1 j] using this)
      simp [message_at, h0, hc, hrec]

/-! ## Lemmas on the Directory Record and `create_file` -/

theorem string_copy_below (l : List Byte) (d : Nat) (mem : Nat → Byte) (j : Nat) (h : j < d) :
    string_copy l d mem j = mem j := by
  induction l generalizing d mem with
  | nil => rfl
  | cons c cs ih =>
    simp only [string_copy]
    split
    · rw [ih (d + 1) _ (by omega)]
      have : j ≠ d := by omega
      simp [poke, this]
    · rfl

theorem byte_val (n : Nat) : (byte n).val = n % 256 := rfl

theorem file_count_set (mem : Nat → Byte) (v : Nat) :
    file_count (set_file_count mem v) = v % 65536 := by
  simp [file_count, set_file_count, poke, byte_val]
  omega

theorem set_file_count_apply (mem : Nat → Byte) (v j : Nat) (h : 2 ≤ j) :
    set_file_count mem v j = mem j := by
  have h0 : j ≠ 0 := by omega
  have h1 : j ≠ 1 := by omega
  simp [set_file_count, poke, h0, h1]

theorem data_length_set (mem : Nat → Byte) (v : Nat) :
    data_length (set_data_length mem v) = v % 4294967296 := by
  simp [data_length, set_data_length, poke, byte_val]
  omega

theorem set_data_length_apply (mem : Nat → Byte) (v j : Nat) (h : j < 60 ∨ 64 ≤ j) :
    set_data_length mem v j = mem j := by
  have h0 : j ≠ 60 := by omega
  have h1 : j ≠ 61 := by omega
  have h2 : j ≠ 62 := by omega
  have h3 : j ≠ 63 := by omega
  simp [set_data_length, poke, h0, h1, h2, h3]

/-- A transfer of a track whose index fits in a byte is carried out. -/
theorem floppy_read_buffer_low (index : Nat) (s : Fs) (h : index < 256) :
    floppy_read_buffer index s = { s with
      floppy_dmabuf := fun j =>
        if j < FLOPPY_DMA_LENGTH then s.medium index j else s.floppy_dmabuf j
      ops := s.ops ++ [TrackOp.read index] } := by
  simp only [floppy_read_buffer, if_pos h]

theorem floppy_write_buffer_low (index : Nat) (s : Fs) (h : index < 256) :
    floppy_write_buffer index s = { s with
      medium := fun t => if t = index then
          (fun j => if j < FLOPPY_DMA_LENGTH then s.floppy_dmabuf j else s.medium t j)
        else s.medium t
      ops := s.ops ++ [TrackOp.write index] } := by
  simp only [floppy_write_buffer, if_pos h]

/-- A transfer of a track whose index does not fit in a byte fails in its seek. -/
theorem floppy_write_buffer_high (index : Nat) (s : Fs) (h : ¬ index < 256) :
    floppy_write_buffer index s = seek_failure s := by
  simp only [floppy_write_buffer, if_neg h]

theorem floppy_read_buffer_high (index : Nat) (s : Fs) (h : ¬ index < 256) :
    floppy_read_buffer index s = seek_failure s := by
  simp only [floppy_read_buffer, if_neg h]

theorem file_count_read (s : Fs) :
    file_count (floppy_read_buffer 0 s).floppy_dmabuf = file_count (s.medium 0) := by
  simp [file_count, floppy_read_buffer_low 0 s (by decide), FLOPPY_DMA_LENGTH]

/-- The track index `create_file` hands to its second `floppy_write_buffer`,
and the transfers it does when that index fits in a byte. -/
theorem create_file_ops (filename data : List Byte) (s : Fs)
    (hlow : (file_count (s.medium 0) + 1) % 65536 < 256) :
    (create_file filename data s).ops = s.ops ++
      [TrackOp.read 0, TrackOp.write 0,
        TrackOp.write ((file_count (s.medium 0) + 1) % 65536)] := by
  have hfc : file_count (string_copy filename
      (file_names (file_count (floppy_read_buffer 0 s).floppy_dmabuf))
      (floppy_read_buffer 0 s).floppy_dmabuf) = file_count (s.medium 0) := by
    rw [← file_count_read s]
    simp only [file_count]
    rw [string_copy_below _ _ _ 0 (by simp [file_names]),
      string_copy_below _ _ _ 1 (by simp [file_names, MAX_FILENAME_LENGTH]; omega)]
  simp only [create_file, FILES_RECORD_INDEX, file_count_set, hfc]
  rw [floppy_write_buffer_low _ _ hlow, floppy_write_buffer_low 0 _ (by decide)]
  simp [floppy_clear_buffer, floppy_read_buffer_low 0 s (by decide)]

theorem file_count_copy (filename : List Byte) (i : Nat) (mem : Nat → Byte) :
    file_count (string_copy filename (file_names i) mem) = file_count mem := by
  simp only [file_count]
  rw [string_copy_below _ _ _ 0 (by simp [file_names]),
    string_copy_below _ _ _ 1 (by simp [file_names, MAX_FILENAME_LENGTH]; omega)]

/-- Tracks other than the directory and the new content track keep their content. -/
theorem create_file_other (filename data : List Byte) (s : Fs) (t : Nat) (h0 : t ≠ 0)
    (h1 : t ≠ (file_count (s.medium 0) + 1) % 65536) :
    (create_file filename data s).medium t = s.medium t := by
  simp only [create_file, FILES_RECORD_INDEX, file_count_set, file_count_copy, file_count_read]
  rw [floppy_write_buffer_low 0 _ (by decide)]
  by_cases hlow : (file_count (s.medium 0) + 1) % 65536 < 256
  · rw [floppy_write_buffer_low _ _ hlow]
    simp [floppy_clear_buffer, floppy_read_buffer_low 0 s (by decide), h0, h1]
  · rw [floppy_write_buffer_high _ _ hlow]
    simp [seek_failure, print, floppy_clear_buffer, floppy_read_buffer_low 0 s (by decide), h0]

/-- The directory track after `create_file`, as long as the count does not wrap. -/
theorem create_file_record (filename data : List Byte) (s : Fs) (j : Nat)
    (hk : (file_count (s.medium 0) + 1) % 65536 ≠ 0) (hj : j < FLOPPY_DMA_LENGTH) :
    (create_file filename data s).medium 0 j =
      set_file_count (string_copy filename (file_names (file_count (s.medium 0)))
        (floppy_read_buffer 0 s).floppy_dmabuf) (file_count (s.medium 0) + 1) j := by
  simp only [create_file, FILES_RECORD_INDEX, file_count_set, file_count_copy, file_count_read]
  rw [floppy_write_buffer_low 0 _ (by decide)]
  by_cases hlow : (file_count (s.medium 0) + 1) % 65536 < 256
  · rw [floppy_write_buffer_low _ _ hlow]
    simp [floppy_clear_buffer, hj, Ne.symm hk]
  · rw [floppy_write_buffer_high _ _ hlow]
    simp [seek_failure, print, floppy_clear_buffer, hj]

theorem string_copy_congr (l : List Byte) (d : Nat) (mem mem2 : Nat → Byte) (j : Nat)
    (h : mem j = mem2 j) : string_copy l d mem j = string_copy l d mem2 j := by
  induction l generalizing d mem mem2 with
  | nil => exact h
  | cons c cs ih =>
    simp only [string_copy]
    split
    · exact ih (d + 1) _ _ (by simp [poke, h])
    · exact h

theorem set_data_length_congr (mem mem2 : Nat → Byte) (v j : Nat) (h : mem j = mem2 j) :
    set_data_length mem v j = set_data_length mem2 v j := by
  simp [set_data_length, poke, h]

/-- The content track after `create_file`, when its index fits in a byte. -/
theorem create_file_track (filename data : List Byte) (s : Fs) (j : Nat)
    (hj : j < FLOPPY_DMA_LENGTH) (hlow : (file_count (s.medium 0) + 1) % 65536 < 256) :
    (create_file filename data s).medium ((file_count (s.medium 0) + 1) % 65536) j =
      file_image filename data j := by
  simp only [create_file, FILES_RECORD_INDEX, file_count_set, file_count_copy, file_count_read]
  rw [floppy_write_buffer_low _ _ hlow, floppy_write_buffer_low 0 _ (by decide)]
  simp only [floppy_clear_buffer, if_pos hj, if_true, file_image]
  apply string_copy_congr
  apply set_data_length_congr
  apply string_copy_congr
  simp [hj]

theorem data_length_file_image (filename data : List Byte) :
    data_length (file_image filename data) = (strlen data + 1) % 4294967296 := by
  rw [← data_length_set (string_copy filename 0 (fun _ => 0)) (strlen data + 1)]
  simp only [data_length, file_image]
  rw [string_copy_below _ _ _ 60 (by decide), string_copy_below _ _ _ 61 (by decide),
    string_copy_below _ _ _ 62 (by decide), string_copy_below _ _ _ 63 (by decide)]

theorem file_image_data (filename data : List Byte) (hn : IsName filename)
    (hd : ∀ c ∈ data, c ≠ 0) (j : Nat) :
    file_image filename data (data_offset + j) = data.getD j 0 := by
  have hlen : filename.length < 60 := hn.1
  simp only [file_image, data_offset, MAX_FILENAME_LENGTH]
  rw [string_copy_apply data hd]
  by_cases h : j < data.length
  · have h1 : 60 + 4 ≤ 60 + 4 + j ∧ 60 + 4 + j < 60 + 4 + data.length := by omega
    rw [if_pos h1]
    congr 1
    omega
  · have h1 : ¬ (60 + 4 ≤ 60 + 4 + j ∧ 60 + 4 + j < 60 + 4 + data.length) := by omega
    rw [if_neg h1, set_data_length_apply _ _ _ (by omega), string_copy_apply filename hn.2]
    have h2 : ¬ (0 ≤ 60 + 4 + j ∧ 60 + 4 + j < 0 + filename.length) := by omega
    rw [if_neg h2, List.getD_eq_default _ _ (by omega)]

theorem file_image_name (filename data : List Byte) (hn : IsName filename) (j : Nat)
    (hj : j < MAX_FILENAME_LENGTH) :
    file_image filename data j = filename.getD j 0 := by
  have hlen : filename.length < 60 := hn.1
  have hj2 : j < 60 := hj
  simp only [file_image, data_offset, MAX_FILENAME_LENGTH]
  rw [string_copy_below _ _ _ _ (by omega), set_data_length_apply _ _ _ (by omega),
    string_copy_apply filename hn.2]
  by_cases h : j < filename.length
  · have h1 : 0 ≤ j ∧ j < 0 + filename.length := by omega
    rw [if_pos h1]
    simp
  · have h1 : ¬ (0 ≤ j ∧ j < 0 + filename.length) := by omega
    rw [if_neg h1, List.getD_eq_default _ _ (by omega)]

/-- The bytes of the file image: the name at 0..59 padded with zeros, the
length of the content plus one at 60..63, low byte first, the content from
byte 64 on, zeros behind it. -/
theorem file_image_layout (filename data : List Byte) (hn : IsName filename)
    (hd : ∀ c ∈ data, c ≠ 0) (j : Nat) :
    file_image filename data j =
      if j < 60 then filename.getD j 0
      else if j = 60 then byte (data.length + 1)
      else if j = 61 then byte ((data.length + 1) / 256)
      else if j = 62 then byte ((data.length + 1) / 65536)
      else if j = 63 then byte ((data.length + 1) / 16777216)
      else if j < 64 + data.length then data.getD (j - 64) 0
      else 0 := by
  by_cases h60 : j < 60
  · rw [if_pos h60]
    exact file_image_name filename data hn j h60
  · rw [if_neg h60]
    by_cases h64 : 64 ≤ j
    · have e : j = data_offset + (j - 64) := by
        simp only [data_offset, MAX_FILENAME_LENGTH]; omega
      have h1 : j ≠ 60 := by omega
      have h2 : j ≠ 61 := by omega
      have h3 : j ≠ 62 := by omega
      have h4 : j ≠ 63 := by omega
      rw [if_neg h1, if_neg h2, if_neg h3, if_neg h4]
      conv_lhs => rw [e]
      rw [file_image_data filename data hn hd]
      by_cases hlt : j < 64 + data.length
      · rw [if_pos hlt]
      · rw [if_neg hlt, List.getD_eq_default _ _ (by omega)]
    · have hlenj : file_image filename data j
          = set_data_length (string_copy filename 0 (fun _ => 0)) (strlen data + 1) j := by
        simp only [file_image, data_offset, MAX_FILENAME_LENGTH]
        exact string_copy_below _ _ _ _ (by omega)
      rw [hlenj, strlen_of_nonzero data hd]
      have hc : j = 60 ∨ j = 61 ∨ j = 62 ∨ j = 63 := by omega
      rcases hc with h | h | h | h <;> subst h <;> simp [set_data_length, poke]

/-- `create_file` keeps the Directory Record well formed and appends the name. -/
theorem create_file_wellformed (filename data : List Byte) (s : Fs) (names : List (List Byte))
    (hwf : WellFormed (s.medium 0) names) (hlen : names.length < MAX_FILE_COUNT)
    (hn : IsName filename) :
    WellFormed ((create_file filename data s).medium 0) (names ++ [filename]) := by
  obtain ⟨hfc, hnames, hslots⟩ := hwf
  have hlen2 : names.length < 119 := hlen
  have hnl : filename.length < 60 := hn.1
  have hk : (file_count (s.medium 0) + 1) % 65536 ≠ 0 := by rw [hfc]; omega
  refine ⟨?_, ?_, ?_⟩
  · have e0 := create_file_record filename data s 0 hk (by decide)
    have e1 := create_file_record filename data s 1 hk (by decide)
    have e : file_count ((create_file filename data s).medium 0)
        = file_count (set_file_count (string_copy filename (file_names (file_count (s.medium 0)))
          (floppy_read_buffer 0 s).floppy_dmabuf) (file_count (s.medium 0) + 1)) := by
      simp only [file_count, e0, e1]
    rw [e, file_count_set, hfc, List.length_append, List.length_singleton]
    omega
  · intro nm hnm
    rcases List.mem_append.1 hnm with h | h
    · exact hnames nm h
    · rw [List.mem_singleton.1 h]; exact hn
  · intro i hi j hj
    have hi2 : i < 119 := hi
    have hj2 : j < 60 := hj
    have hoff : file_names i + j < FLOPPY_DMA_LENGTH := by
      simp only [file_names, MAX_FILENAME_LENGTH, FLOPPY_DMA_LENGTH]; omega
    rw [create_file_record _ _ _ _ hk hoff,
      set_file_count_apply _ _ _ (by simp only [file_names]; omega),
      string_copy_apply filename hn.2, hfc]
    have hbuf : (floppy_read_buffer 0 s).floppy_dmabuf (file_names i + j)
        = s.medium 0 (file_names i + j) := by
      simp [floppy_read_buffer, hoff]
    by_cases hik : i = names.length
    · subst hik
      have h1 : file_names names.length ≤ file_names names.length + j
          ∧ file_names names.length + j < file_names names.length + filename.length
          ↔ j < filename.length := by omega
      simp only [h1]
      have h2 : (names ++ [filename]).getD names.length [] = filename := by
        simp [List.getD_eq_getElem?_getD]
      rw [h2]
      by_cases hjl : j < filename.length
      · rw [if_pos hjl]
        congr 1
        omega
      · have e1 : names.getD names.length [] = [] := List.getD_eq_default _ _ (Nat.le_refl _)
        have e2 : filename.getD j 0 = 0 := List.getD_eq_default _ _ (by omega)
        rw [if_neg hjl, hbuf, hslots _ hi _ hj, e1, e2]
        simp
    · have h1 : ¬ (file_names names.length ≤ file_names i + j
          ∧ file_names i + j < file_names names.length + filename.length) := by
        simp only [file_names, MAX_FILENAME_LENGTH]; omega
      rw [if_neg h1, hbuf, hslots _ hi _ hj]
      congr 1
      by_cases hlt : i < names.length
      · simp [List.getD_eq_getElem?_getD, List.getElem?_append_left hlt]
      · rw [List.getD_eq_default _ _ (by omega), List.getD_eq_default _ _ (by simp; omega)]

/-! ## Lemmas on lookup and printing -/

theorem wellFormed_read (s : Fs) (names : List (List Byte))
    (hwf : WellFormed (s.medium 0) names) :
    WellFormed (floppy_read_buffer 0 s).floppy_dmabuf names := by
  obtain ⟨hfc, hnames, hslots⟩ := hwf
  refine ⟨by rw [file_count_read]; exact hfc, hnames, ?_⟩
  intro i hi j hj
  have hi2 : i < 119 := hi
  have hj2 : j < 60 := hj
  have hoff : file_names i + j < FLOPPY_DMA_LENGTH := by
    simp only [file_names, MAX_FILENAME_LENGTH, FLOPPY_DMA_LENGTH]; omega
  rw [← hslots i hi j hj]
  simp [floppy_read_buffer, hoff]

theorem slot_equals_iff (mem : Nat → Byte) (names : List (List Byte)) (q : List Byte) (i : Nat)
    (hwf : WellFormed mem names) (hi : i < names.length) (hi2 : i < MAX_FILE_COUNT)
    (hq : ∀ c ∈ q, c ≠ 0) :
    string_equals mem (file_names i) q = true ↔ names.getD i [] = q := by
  obtain ⟨_, hnames, hslots⟩ := hwf
  have hmemb : names.getD i [] ∈ names := by
    rw [List.getD_eq_getElem _ _ hi]
    exact List.getElem_mem hi
  have hnm := hnames _ hmemb
  apply string_equals_iff mem (names.getD i []) q (file_names i) hnm.2 hq
  intro j hj
  have : (names.getD i []).length < 60 := hnm.1
  exact hslots i hi2 j (by simp only [MAX_FILENAME_LENGTH]; omega)

theorem find_slot_none (mem : Nat → Byte) (q : List Byte) (n i : Nat)
    (h : ∀ t, i ≤ t → t < i + n → string_equals mem (file_names t) q = false) :
    find_slot mem q n i = none := by
  induction n generalizing i with
  | zero => rfl
  | succ n ih =>
    simp only [find_slot, h i (Nat.le_refl _) (by omega)]
    exact ih (i + 1) (fun t h1 h2 => h t (by omega) (by omega))

theorem find_slot_some (mem : Nat → Byte) (q : List Byte) (n i t : Nat) (h1 : i ≤ t)
    (h2 : t < i + n) (ht : string_equals mem (file_names t) q = true)
    (h : ∀ u, i ≤ u → u < t → string_equals mem (file_names u) q = false) :
    find_slot mem q n i = some t := by
  induction n generalizing i with
  | zero => omega
  | succ n ih =>
    by_cases hit : i = t
    · subst hit
      simp [find_slot, ht]
    · simp only [find_slot, h i (Nat.le_refl _) (by omega)]
      exact ih (i + 1) (by omega) (by omega) (fun u hu1 hu2 => h u (by omega) hu2)

theorem find_slot_eq_none (mem : Nat → Byte) (q : List Byte) (n i : Nat)
    (h : find_slot mem q n i = none) (t : Nat) (h1 : i ≤ t) (h2 : t < i + n) :
    string_equals mem (file_names t) q = false := by
  induction n generalizing i with
  | zero => omega
  | succ n ih =>
    simp only [find_slot] at h
    split at h
    · simp at h
    · by_cases hit : i = t
      · subst hit
        simpa using ‹¬ string_equals mem (file_names i) q = true›
      · exact ih (i + 1) h (by omega) (by omega)

theorem print_chars (off n : Nat) (s : Fs) :
    (List.range n).foldl (fun s j => print_char (s.floppy_dmabuf (off + j)) s) s =
      { s with screen := s.screen ++ (List.range n).map (fun j => s.floppy_dmabuf (off + j)) } := by
  induction n with
  | zero => simp
  | succ n ih =>
    rw [List.range_succ, List.foldl_append, ih]
    simp [print_char]

theorem range_getD (l : List Byte) :
    (List.range (l.length + 1)).map (fun j => l.getD j 0) = l ++ [0] := by
  apply List.ext_getElem
  · simp
  · intro i h1 h2
    simp only [List.getElem_map, List.getElem_range]
    by_cases h : i < l.length
    · rw [List.getD_eq_getElem _ _ h, List.getElem_append_left h]
    · simp at h1
      have : i = l.length := by omega
      subst this
      simp

theorem find_state (q : List Byte) (s : Fs) : (find q s).2 = floppy_read_buffer 0 s := rfl

/-- On a well-formed record the lookup yields the first slot holding the name. -/
theorem find_wellformed (s : Fs) (names : List (List Byte)) (i : Nat)
    (hwf : WellFormed (s.medium 0) names) (hlen : names.length ≤ MAX_FILE_COUNT)
    (hi : i < names.length) (hfirst : ∀ u, u < i → names.getD u [] ≠ names.getD i []) :
    (find (names.getD i []) s).1 = some (i + 1) := by
  have hwf2 := wellFormed_read s names hwf
  have hlen2 : names.length ≤ 119 := hlen
  have hq : ∀ c ∈ names.getD i [], c ≠ 0 := by
    have hmemb : names.getD i [] ∈ names := by
      rw [List.getD_eq_getElem _ _ hi]
      exact List.getElem_mem hi
    exact (hwf2.2.1 _ hmemb).2
  simp only [find, FILES_RECORD_INDEX, hwf2.1]
  rw [find_slot_some _ _ _ 0 i (Nat.zero_le _) (by omega)]
  · rfl
  · exact (slot_equals_iff _ names _ i hwf2 hi (by simp only [MAX_FILE_COUNT]; omega) hq).2 rfl
  · intro u _ hu
    have := slot_equals_iff _ names (names.getD i []) u hwf2 (by omega)
      (by simp only [MAX_FILE_COUNT]; omega) hq
    cases h : string_equals (floppy_read_buffer 0 s).floppy_dmabuf (file_names u) (names.getD i [])
    · rfl
    · exact absurd (this.1 h) (hfirst u hu)

/-- On a well-formed record the lookup of a name that is not registered fails. -/
theorem find_wellformed_none (s : Fs) (names : List (List Byte)) (q : List Byte)
    (hwf : WellFormed (s.medium 0) names) (hlen : names.length ≤ MAX_FILE_COUNT)
    (hq : ∀ c ∈ q, c ≠ 0) (hnot : q ∉ names) :
    (find q s).1 = none := by
  have hwf2 := wellFormed_read s names hwf
  have hlen2 : names.length ≤ 119 := hlen
  simp only [find, FILES_RECORD_INDEX, hwf2.1]
  rw [find_slot_none]
  · rfl
  · intro t _ ht
    have ht2 : t < names.length := by omega
    have := slot_equals_iff _ names q t hwf2 ht2 (by simp only [MAX_FILE_COUNT]; omega) hq
    cases h : string_equals (floppy_read_buffer 0 s).floppy_dmabuf (file_names t) q
    · rfl
    · exfalso
      apply hnot
      rw [← this.1 h, List.getD_eq_getElem _ _ ht2]
      exact List.getElem_mem ht2

/-- What `print_file_command` does once the lookup has found a track. -/
theorem print_file_found (cmd filename : List Byte) (rest : List (List Byte)) (s : Fs)
    (track : Nat) (h : (find filename s).1 = some track) :
    print_file_command (cmd :: filename :: rest) s =
      (0, print (ascii "\n")
        { floppy_read_buffer track (floppy_read_buffer 0 s) with
          screen := (floppy_read_buffer track (floppy_read_buffer 0 s)).screen
            ++ (List.range (data_length
              (floppy_read_buffer track (floppy_read_buffer 0 s)).floppy_dmabuf)).map
            (fun j => (floppy_read_buffer track (floppy_read_buffer 0 s)).floppy_dmabuf
              (data_offset + j)) }) := by
  have hs : find filename s = (some track, floppy_read_buffer 0 s) := by
    rw [← h, ← find_state filename s]
  simp only [print_file_command, hs, print_chars]

/-! ## Lemmas on runs of `create_file` and on listing -/

theorem wellFormed_empty (mem : Nat → Byte) (h : ∀ j, j < FLOPPY_DMA_LENGTH → mem j = 0) :
    WellFormed mem [] := by
  refine ⟨?_, by simp, ?_⟩
  · simp [file_count, h 0 (by decide), h 1 (by decide)]
  · intro i hi j hj
    have hi2 : i < 119 := hi
    have hj2 : j < 60 := hj
    rw [h _ (by simp only [file_names, MAX_FILENAME_LENGTH, FLOPPY_DMA_LENGTH]; omega)]
    simp

theorem create_all_cons (f : List Byte × List Byte) (fs : List (List Byte × List Byte))
    (s : Fs) : create_all (f :: fs) s = create_all fs (create_file f.1 f.2 s) := rfl

/-- A track transfer that is carried out prints nothing. -/
theorem floppy_read_buffer_screen (index : Nat) (s : Fs) (h : index < 256) :
    (floppy_read_buffer index s).screen = s.screen := by
  rw [floppy_read_buffer_low index s h]

theorem create_file_screen (filename data : List Byte) (s : Fs)
    (hlow : (file_count (s.medium 0) + 1) % 65536 < 256) :
    (create_file filename data s).screen = s.screen := by
  simp only [create_file, FILES_RECORD_INDEX, file_count_set, file_count_copy, file_count_read]
  rw [floppy_write_buffer_low _ _ hlow, floppy_write_buffer_low 0 _ (by decide)]
  simp [floppy_clear_buffer, floppy_read_buffer_low 0 s (by decide)]

/-- What a run of `create_file` calls does to a well-formed medium. -/
theorem create_all_spec (files : List (List Byte × List Byte)) (s : Fs)
    (names : List (List Byte)) (hwf : WellFormed (s.medium 0) names)
    (hlen : names.length + files.length ≤ MAX_FILE_COUNT)
    (hnames : ∀ f ∈ files, IsName f.1) :
    WellFormed ((create_all files s).medium 0) (names ++ files.map Prod.fst) ∧
    (create_all files s).ops = s.ops ++ (List.range files.length).flatMap
      (fun i => [TrackOp.read 0, TrackOp.write 0, TrackOp.write (names.length + i + 1)]) ∧
    (∀ i f, files[i]? = some f → ∀ j, j < FLOPPY_DMA_LENGTH →
      (create_all files s).medium (names.length + i + 1) j = file_image f.1 f.2 j) ∧
    (∀ t, 0 < t → t ≤ names.length → (create_all files s).medium t = s.medium t) := by
  induction files generalizing s names with
  | nil =>
    refine ⟨by simpa using hwf, by simp [create_all], ?_, fun _ _ _ => rfl⟩
    intro i f h
    simp at h
  | cons f fs ih =>
    have hlen2 : names.length + (fs.length + 1) ≤ 119 := hlen
    have hf : IsName f.1 := hnames f (List.mem_cons_self _ _)
    have hwf1 := create_file_wellformed f.1 f.2 s names hwf
      (by simp only [MAX_FILE_COUNT]; omega) hf
    have hk : (file_count (s.medium 0) + 1) % 65536 = names.length + 1 := by
      rw [hwf.1]; omega
    obtain ⟨h1, h2, h3, h4⟩ := ih (create_file f.1 f.2 s) (names ++ [f.1]) hwf1
      (by simp only [List.length_append, List.length_singleton, MAX_FILE_COUNT]; omega)
      (fun g hg => hnames g (List.mem_cons_of_mem _ hg))
    simp only [List.length_append, List.length_singleton] at h2 h3 h4
    rw [create_all_cons]
    have hlow : (file_count (s.medium 0) + 1) % 65536 < 256 := by rw [hk]; omega
    refine ⟨by simpa using h1, ?_, ?_, ?_⟩
    · rw [h2, create_file_ops _ _ _ hlow, hk, List.length_cons, List.range_succ_eq_map]
      simp [List.flatMap, Function.comp_def, Nat.add_assoc, Nat.add_comm 1]
    · intro i g hg j hj
      cases i with
      | zero =>
        simp at hg
        subst hg
        rw [h4 (names.length + 0 + 1) (by omega) (by omega)]
        have := create_file_track f.1 f.2 s j hj hlow
        rw [hk] at this
        exact this
      | succ i =>
        have := h3 i g (by simpa using hg) j hj
        have e : names.length + (i + 1) + 1 = names.length + 1 + i + 1 := by omega
        rw [e]
        exact this
    · intro t ht1 ht2
      rw [h4 t ht1 (by omega)]
      exact create_file_other f.1 f.2 s t (by omega) (by rw [hk]; omega)

/-- A run of `create_file` calls on a well-formed medium prints nothing. -/
theorem create_all_screen (files : List (List Byte × List Byte)) (s : Fs)
    (names : List (List Byte)) (hwf : WellFormed (s.medium 0) names)
    (hlen : names.length + files.length ≤ MAX_FILE_COUNT)
    (hnames : ∀ f ∈ files, IsName f.1) :
    (create_all files s).screen = s.screen := by
  induction files generalizing s names with
  | nil => rfl
  | cons f fs ih =>
    have hlen2 : names.length + (fs.length + 1) ≤ 119 := hlen
    have hf : IsName f.1 := hnames f (List.mem_cons_self _ _)
    have hwf1 := create_file_wellformed f.1 f.2 s names hwf
      (by simp only [MAX_FILE_COUNT]; omega) hf
    have hk : (file_count (s.medium 0) + 1) % 65536 = names.length + 1 := by
      rw [hwf.1]; omega
    rw [create_all_cons, ih (create_file f.1 f.2 s) (names ++ [f.1]) hwf1
      (by simp only [List.length_append, List.length_singleton, MAX_FILE_COUNT]; omega)
      (fun g hg => hnames g (List.mem_cons_of_mem _ hg)),
      create_file_screen _ _ _ (by rw [hk]; omega)]

theorem print_buffer_name (s : Fs) (names : List (List Byte)) (fuel i : Nat)
    (hwf : WellFormed s.floppy_dmabuf names) (hi : i < names.length)
    (hi2 : i < MAX_FILE_COUNT) (hfuel : MAX_FILENAME_LENGTH ≤ fuel) :
    print_buffer fuel (file_names i) s
      = some { s with screen := s.screen ++ names.getD i [] } := by
  obtain ⟨_, hnames, hslots⟩ := hwf
  have hmemb : names.getD i [] ∈ names := by
    rw [List.getD_eq_getElem _ _ hi]
    exact List.getElem_mem hi
  have hnm := hnames _ hmemb
  have h60 : (names.getD i []).length < 60 := hnm.1
  have hfuel2 : 60 ≤ fuel := hfuel
  simp only [print_buffer]
  rw [message_at_eq s.floppy_dmabuf (names.getD i []) fuel (file_names i) hnm.2 (by omega)
    (fun j hj => hslots i hi2 j (by simp only [MAX_FILENAME_LENGTH]; omega))]
  rfl

theorem list_files_loop_spec (fuel n i : Nat) (s : Fs) (names : List (List Byte))
    (hwf : WellFormed s.floppy_dmabuf names) (hn : i + n = names.length)
    (hlen : names.length ≤ MAX_FILE_COUNT) (hfuel : MAX_FILENAME_LENGTH ≤ fuel) :
    list_files_loop fuel n i s = some { s with
      screen := s.screen ++ ((names.drop i).map (fun nm => nm ++ [10])).flatten } := by
  induction n generalizing i s with
  | zero =>
    have : names.drop i = [] := List.drop_eq_nil_of_le (by omega)
    simp [list_files_loop, this]
  | succ n ih =>
    have hi : i < names.length := by omega
    have hlen2 : names.length ≤ 119 := hlen
    have hnl : cstr (ascii "\n") = [10] := by decide
    simp only [list_files_loop,
      print_buffer_name s names fuel i hwf hi (by simp only [MAX_FILE_COUNT]; omega) hfuel]
    rw [ih (i + 1) (print (ascii "\n") { s with screen := s.screen ++ names.getD i [] })
      hwf (by omega), List.drop_eq_getElem_cons hi, List.getD_eq_getElem _ _ hi]
    simp only [print, hnl, List.map_cons, List.flatten_cons, List.append_assoc]

theorem list_files_spec (fuel : Nat) (argv : List (List Byte)) (s : Fs)
    (names : List (List Byte)) (hwf : WellFormed (s.medium 0) names)
    (hlen : names.length ≤ MAX_FILE_COUNT) (hfuel : MAX_FILENAME_LENGTH ≤ fuel) :
    (list_files_command fuel argv s).map (fun r => (r.1, r.2.screen))
      = some (0, s.screen ++ ascii "Listing files...\n"
          ++ (names.map (fun nm => nm ++ [10])).flatten) := by
  have hhead : cstr (ascii "Listing files...\n") = ascii "Listing files...\n" := by decide
  have hwf2 : WellFormed (floppy_read_buffer FILES_RECORD_INDEX
      (print (ascii "Listing files...\n") s)).floppy_dmabuf names :=
    wellFormed_read (print (ascii "Listing files...\n") s) names hwf
  simp only [list_files_command]
  rw [hwf2.1, list_files_loop_spec fuel names.length 0 _ names hwf2 (by omega) hlen hfuel]
  simp [print, floppy_read_buffer_low, FILES_RECORD_INDEX, hhead]

/-! ## File system claims -/

/-- C1 (as stated, refuted): a content with an embedded zero byte does not
survive `create` followed by `readContent`.  For the name `log` and the three
content bytes `h`, zero, `i` on a zero-filled medium the stored `data_length`
is 2 and not 3+1, and the screen receives `h`, a zero and the newline: the
byte `i` is never output. -/
theorem create_print_embedded_zero :
    data_length ((create_file (ascii "log") [104, 0, 105] blank).medium 1) = 2 ∧
    data_length ((create_file (ascii "log") [104, 0, 105] blank).medium 1)
      ≠ [(104 : Byte), 0, 105].length + 1 ∧
    (print_file_command [ascii "print", ascii "log"]
      (create_file (ascii "log") [104, 0, 105] blank)).2.screen = [104, 0, 10] ∧
    (105 : Byte) ∉ (print_file_command [ascii "print", ascii "log"]
      (create_file (ascii "log") [104, 0, 105] blank)).2.screen := by
  decide

/-- C1 (amended): on a medium whose track 0 holds a well-formed Directory
Record with fewer than 119 files (the count is the number of names, each used
slot holds its name padded with zeros, the unused slots are zero), for a name
of at most 59 non-zero characters that is not registered and a content without
zero bytes within the capacity, `create_file` followed by `print_file_command`
returns 0 and sends to the screen exactly the content bytes, then one zero
byte, then the newline; the `data_length` stored on the content track is
`len(content) + 1`. -/
theorem create_print_roundtrip (s : Fs) (names : List (List Byte))
    (cmd filename data : List Byte)
    (hwf : WellFormed (s.medium 0) names) (hlen : names.length < MAX_FILE_COUNT)
    (hn : IsName filename) (hnew : filename ∉ names)
    (hd : ∀ c ∈ data, c ≠ 0) (hcap : data.length ≤ FILE_DATA_CAPACITY) :
    (print_file_command [cmd, filename] (create_file filename data s)).1 = 0 ∧
    (print_file_command [cmd, filename] (create_file filename data s)).2.screen
      = s.screen ++ data ++ [0, 10] ∧
    data_length ((create_file filename data s).medium (names.length + 1)) = data.length + 1 := by
  have hlen2 : names.length < 119 := hlen
  have hcap2 : data.length ≤ 16291 := hcap
  have hwf1 := create_file_wellformed filename data s names hwf hlen hn
  have hget : (names ++ [filename]).getD names.length [] = filename := by
    simp [List.getD_eq_getElem?_getD]
  have hfind : (find filename (create_file filename data s)).1 = some (names.length + 1) := by
    have := find_wellformed (create_file filename data s) (names ++ [filename]) names.length hwf1
      (by simp only [List.length_append, List.length_singleton, MAX_FILE_COUNT]; omega)
      (by simp)
      (by
        intro u hu
        rw [hget]
        have : (names ++ [filename]).getD u [] = names.getD u [] := by
          simp [List.getD_eq_getElem?_getD, List.getElem?_append_left hu]
        rw [this, List.getD_eq_getElem _ _ hu]
        intro h
        exact hnew (h ▸ List.getElem_mem hu))
    rwa [hget] at this
  have htrack : (file_count (s.medium 0) + 1) % 65536 = names.length + 1 := by
    rw [hwf.1]; omega
  have himg : ∀ j, j < FLOPPY_DMA_LENGTH →
      (create_file filename data s).medium (names.length + 1) j = file_image filename data j := by
    intro j hj
    rw [← htrack]
    exact create_file_track filename data s j hj (by rw [htrack]; omega)
  have hlt : names.length + 1 < 256 := by omega
  have hbuf : ∀ j, j < FLOPPY_DMA_LENGTH →
      (floppy_read_buffer (names.length + 1) (floppy_read_buffer 0
        (create_file filename data s))).floppy_dmabuf j = file_image filename data j := by
    intro j hj
    rw [← himg j hj]
    simp [floppy_read_buffer_low, hlt, hj]
  have hdl : data_length (file_image filename data) = data.length + 1 := by
    rw [data_length_file_image, strlen_of_nonzero data hd]
    omega
  have hdl1 : data_length ((create_file filename data s).medium (names.length + 1))
      = data.length + 1 := by
    rw [← hdl]
    simp only [data_length, himg 60 (by decide), himg 61 (by decide), himg 62 (by decide),
      himg 63 (by decide)]
  have hdl2 : data_length (floppy_read_buffer (names.length + 1) (floppy_read_buffer 0
        (create_file filename data s))).floppy_dmabuf = data.length + 1 := by
    rw [← hdl]
    simp only [data_length, hbuf 60 (by decide), hbuf 61 (by decide), hbuf 62 (by decide),
      hbuf 63 (by decide)]
  rw [print_file_found cmd filename [] _ _ hfind, hdl2]
  refine ⟨rfl, ?_, hdl1⟩
  have hmap : (List.range (data.length + 1)).map (fun j =>
      (floppy_read_buffer (names.length + 1) (floppy_read_buffer 0
        (create_file filename data s))).floppy_dmabuf (data_offset + j))
      = (List.range (data.length + 1)).map (fun j => data.getD j 0) := by
    apply List.map_congr_left
    intro j hj
    have hj2 : j < data.length + 1 := List.mem_range.1 hj
    rw [hbuf _ (by simp only [data_offset, MAX_FILENAME_LENGTH, FLOPPY_DMA_LENGTH]; omega)]
    exact file_image_data filename data hn hd j
  have hnl : cstr (ascii "\n") = [10] := by decide
  simp only [print, hmap, range_getD, hnl]
  have hs : (create_file filename data s).screen = s.screen :=
    create_file_screen _ _ _ (by rw [htrack]; omega)
  simp [floppy_read_buffer_low, hlt, hs]

set_option maxRecDepth 4096 in
/-- C1 witness: `create("log", "hello")` on a zero-filled medium, then
`readContent("log")`. -/
theorem create_print_roundtrip_witness :
    (print_file_command [ascii "print", ascii "log"]
      (create_file (ascii "log") (ascii "hello") blank)).1 = 0 ∧
    (print_file_command [ascii "print", ascii "log"]
      (create_file (ascii "log") (ascii "hello") blank)).2.screen
      = blank.screen ++ ascii "hello" ++ [0, 10] ∧
    data_length ((create_file (ascii "log") (ascii "hello") blank).medium
      (([] : List (List Byte)).length + 1)) = (ascii "hello").length + 1 :=
  create_print_roundtrip blank [] (ascii "print") (ascii "log") (ascii "hello")
    ⟨rfl, by simp, by intro i _ j _; simp [blank]⟩ (by decide)
    ⟨by decide, by decide⟩ (by simp) (by decide) (by decide)

/-- C2: starting from a medium whose track 0 is zero-filled, after a run of
at most 119 `create_file` calls with names of at most 59 non-zero characters,
`list_files_command` returns 0 and prints the heading followed by exactly
those names, each once and each followed by a newline, in insertion order. -/
theorem list_after_creates (s : Fs) (files : List (List Byte × List Byte)) (fuel : Nat)
    (argv : List (List Byte))
    (hempty : ∀ j, j < FLOPPY_DMA_LENGTH → s.medium 0 j = 0)
    (hN : files.length ≤ MAX_FILE_COUNT) (hnames : ∀ f ∈ files, IsName f.1)
    (hfuel : MAX_FILENAME_LENGTH ≤ fuel) :
    (list_files_command fuel argv (create_all files s)).map (fun r => (r.1, r.2.screen))
      = some (0, s.screen ++ ascii "Listing files...\n"
          ++ (files.map (fun f => f.1 ++ [10])).flatten) := by
  obtain ⟨hwf, _, _, _⟩ := create_all_spec files s [] (wellFormed_empty _ hempty)
    (by simpa using hN) hnames
  rw [list_files_spec fuel argv (create_all files s) _ hwf (by simpa using hN) hfuel,
    create_all_screen files s [] (wellFormed_empty _ hempty) (by simpa using hN) hnames]
  simp [List.map_map, Function.comp_def]

set_option maxRecDepth 4096 in
/-- C2 witness: `create("a","1")`, `create("b","2")`, then `list()` prints the
names `a` and `b`. -/
theorem list_after_creates_witness :
    (list_files_command 60 [ascii "list"]
      (create_all [(ascii "a", ascii "1"), (ascii "b", ascii "2")] blank)).map
        (fun r => (r.1, r.2.screen))
      = some (0, blank.screen ++ ascii "Listing files...\n"
          ++ ([(ascii "a", ascii "1"), (ascii "b", ascii "2")].map
            (fun f => f.1 ++ [10])).flatten) :=
  list_after_creates blank [(ascii "a", ascii "1"), (ascii "b", ascii "2")] 60 [ascii "list"]
    (fun _ _ => rfl) (by decide) (by decide) (by decide)

/-- C3: starting from a medium whose track 0 is zero-filled, after a run of
at most 119 `create_file` calls with pairwise distinct names of at most 59
non-zero characters, the lookup of the name of call `i` (counted from 0)
yields track `i + 1`, and that track holds the file image built by that call;
the transfers of the run are, for each call in order, the read and the write of
track 0 and the write of track `i + 1`; the lookup of any other name fails. -/
theorem find_after_creates (s : Fs) (files : List (List Byte × List Byte))
    (hempty : ∀ j, j < FLOPPY_DMA_LENGTH → s.medium 0 j = 0)
    (hN : files.length ≤ MAX_FILE_COUNT) (hnames : ∀ f ∈ files, IsName f.1)
    (hdistinct : (files.map Prod.fst).Nodup) :
    (∀ i name data, files[i]? = some (name, data) →
      (find name (create_all files s)).1 = some (i + 1) ∧
      ∀ j, j < FLOPPY_DMA_LENGTH →
        (create_all files s).medium (i + 1) j = file_image name data j) ∧
    (create_all files s).ops = s.ops ++ (List.range files.length).flatMap
      (fun i => [TrackOp.read 0, TrackOp.write 0, TrackOp.write (i + 1)]) ∧
    (∀ q, (∀ c ∈ q, c ≠ 0) → q ∉ files.map Prod.fst →
      (find q (create_all files s)).1 = none) := by
  obtain ⟨hwf, hops, himg, _⟩ := create_all_spec files s [] (wellFormed_empty _ hempty)
    (by simpa using hN) hnames
  simp only [List.nil_append, List.length_nil, Nat.zero_add] at hwf hops himg
  have hlen : (files.map Prod.fst).length ≤ MAX_FILE_COUNT := by simpa using hN
  refine ⟨?_, hops, ?_⟩
  · intro i name data hi
    obtain ⟨hlt, hget⟩ := List.getElem?_eq_some.1 hi
    have hlt2 : i < (files.map Prod.fst).length := by simpa using hlt
    have hname : (files.map Prod.fst).getD i [] = name := by
      rw [List.getD_eq_getElem _ _ hlt2, List.getElem_map, hget]
    refine ⟨?_, himg i (name, data) hi⟩
    have := find_wellformed (create_all files s) (files.map Prod.fst) i hwf hlen hlt2 (by
      intro u hu
      rw [List.getD_eq_getElem _ _ hlt2, List.getD_eq_getElem _ _ (by omega)]
      intro h
      have := (hdistinct.getElem_inj_iff).1 h
      omega)
    rwa [hname] at this
  · intro q hq hnot
    exact find_wellformed_none (create_all files s) (files.map Prod.fst) q hwf hlen hq hnot

set_option maxRecDepth 4096 in
/-- C3 witness: after `create("a","1")` and `create("b","2")` on a zero-filled
medium the second name is found on track 2. -/
theorem find_after_creates_witness :
    (find (ascii "b") (create_all [(ascii "a", ascii "1"), (ascii "b", ascii "2")] blank)).1
      = some 2 :=
  ((find_after_creates blank [(ascii "a", ascii "1"), (ascii "b", ascii "2")]
    (fun _ _ => rfl) (by decide) (by decide) (by decide)).1 1 (ascii "b") (ascii "2") rfl).1

/-- What a read leaves alone, whether it is carried out or fails in its seek:
the medium, the memory behind the buffer, and the list of writes. -/
theorem floppy_read_buffer_frame (index : Nat) (s : Fs) :
    (floppy_read_buffer index s).medium = s.medium ∧
    (∀ j, FLOPPY_DMA_LENGTH ≤ j →
      (floppy_read_buffer index s).floppy_dmabuf j = s.floppy_dmabuf j) ∧
    (floppy_read_buffer index s).ops.filter is_write = s.ops.filter is_write := by
  by_cases h : index < 256
  · rw [floppy_read_buffer_low index s h]
    refine ⟨rfl, ?_, ?_⟩
    · intro j hj
      have : ¬ j < FLOPPY_DMA_LENGTH := by omega
      simp [this]
    · simp [List.filter_append, is_write]
  · rw [floppy_read_buffer_high index s h]
    exact ⟨rfl, fun _ _ => rfl, rfl⟩

/-- What `print_file_command` leaves alone: the medium, the memory behind the
buffer, and the list of writes issued. -/
theorem print_file_frame (argv : List (List Byte)) (s : Fs) :
    (print_file_command argv s).2.medium = s.medium ∧
    (∀ j, FLOPPY_DMA_LENGTH ≤ j →
      (print_file_command argv s).2.floppy_dmabuf j = s.floppy_dmabuf j) ∧
    (print_file_command argv s).2.ops.filter is_write = s.ops.filter is_write := by
  match argv with
  | [] => exact ⟨rfl, fun _ _ => rfl, rfl⟩
  | [_] => exact ⟨rfl, fun _ _ => rfl, rfl⟩
  | cmd :: filename :: rest =>
    cases h : (find filename s).1 with
    | some track =>
      rw [print_file_found cmd filename rest s track h]
      obtain ⟨a1, a2, a3⟩ := floppy_read_buffer_frame 0 s
      obtain ⟨b1, b2, b3⟩ := floppy_read_buffer_frame track (floppy_read_buffer 0 s)
      refine ⟨?_, ?_, ?_⟩
      · show (floppy_read_buffer track (floppy_read_buffer 0 s)).medium = s.medium
        rw [b1, a1]
      · intro j hj
        show (floppy_read_buffer track (floppy_read_buffer 0 s)).floppy_dmabuf j
          = s.floppy_dmabuf j
        rw [b2 j hj, a2 j hj]
      · show (floppy_read_buffer track (floppy_read_buffer 0 s)).ops.filter is_write
          = s.ops.filter is_write
        rw [b3, a3]
    | none =>
      have hs : find filename s = (none, floppy_read_buffer 0 s) := by
        rw [← h, ← find_state filename s]
      simp only [print_file_command, hs]
      obtain ⟨a1, a2, a3⟩ := floppy_read_buffer_frame 0 s
      exact ⟨a1, a2, a3⟩

theorem find_congr (q : List Byte) (s t : Fs) (hm : t.medium = s.medium)
    (hb : ∀ j, FLOPPY_DMA_LENGTH ≤ j → t.floppy_dmabuf j = s.floppy_dmabuf j) :
    (find q t).1 = (find q s).1 := by
  have : (floppy_read_buffer 0 t).floppy_dmabuf = (floppy_read_buffer 0 s).floppy_dmabuf := by
    funext j
    by_cases h : j < FLOPPY_DMA_LENGTH
    · simp [floppy_read_buffer_low, hm, h]
    · simp [floppy_read_buffer_low, h, hb j (by omega)]
  simp only [find, FILES_RECORD_INDEX, this]

/-- C4: `print_file_command` never writes to the medium: for every state and
every argument list all tracks are the same after the call as before and no
write transfer is issued.  When the name matches none of the first
`file_count` slots of the loaded record the call returns 0 after printing the
not-found message.  A lookup gives the same result before and after a
`print_file_command` call, and before and after another lookup. -/
theorem print_file_readonly :
    (∀ (argv : List (List Byte)) (s : Fs),
      (print_file_command argv s).2.medium = s.medium ∧
      (print_file_command argv s).2.ops.filter is_write = s.ops.filter is_write) ∧
    (∀ (cmd filename : List Byte) (rest : List (List Byte)) (s : Fs),
      (∀ i, i < file_count (s.medium 0) →
        string_equals (floppy_read_buffer 0 s).floppy_dmabuf (file_names i) filename = false) →
      (print_file_command (cmd :: filename :: rest) s).1 = 0 ∧
      (print_file_command (cmd :: filename :: rest) s).2.screen
        = s.screen ++ ascii "File: " ++ [39] ++ cstr filename ++ [39] ++ ascii " not found\n") ∧
    (∀ (q : List Byte) (argv : List (List Byte)) (s : Fs),
      (find q (print_file_command argv s).2).1 = (find q s).1) ∧
    (∀ (q q2 : List Byte) (s : Fs), (find q (find q2 s).2).1 = (find q s).1) := by
  refine ⟨fun argv s => ⟨(print_file_frame argv s).1, (print_file_frame argv s).2.2⟩, ?_, ?_, ?_⟩
  · intro cmd filename rest s hno
    have hnone : (find filename s).1 = none := by
      simp only [find, FILES_RECORD_INDEX, file_count_read]
      rw [find_slot_none _ _ _ _ (fun t _ ht => hno t (by omega))]
      rfl
    have hs : find filename s = (none, floppy_read_buffer 0 s) := by
      rw [← hnone, ← find_state filename s]
    have h1 : cstr (ascii "File: " ++ [39]) = ascii "File: " ++ [39] := by decide
    have h2 : cstr ([39] ++ ascii " not found\n") = [39] ++ ascii " not found\n" := by decide
    simp only [print_file_command, hs, print, h1, h2]
    simp [floppy_read_buffer_low]
  · intro q argv s
    exact find_congr q s _ (print_file_frame argv s).1 (print_file_frame argv s).2.1
  · intro q q2 s
    refine find_congr q s (find q2 s).2 rfl ?_
    intro j hj
    have : ¬ j < FLOPPY_DMA_LENGTH := by omega
    simp [find, floppy_read_buffer_low, FILES_RECORD_INDEX, this]

set_option maxRecDepth 4096 in
/-- C4 witness: on a zero-filled medium `print nofile` returns 0 and prints the
not-found message. -/
theorem print_file_readonly_witness :
    (print_file_command (ascii "print" :: ascii "nofile" :: []) blank).1 = 0 ∧
    (print_file_command (ascii "print" :: ascii "nofile" :: []) blank).2.screen
      = blank.screen ++ ascii "File: " ++ [39] ++ cstr (ascii "nofile") ++ [39]
        ++ ascii " not found\n" :=
  print_file_readonly.2.1 (ascii "print") (ascii "nofile") [] blank
    (fun i hi => absurd hi (Nat.not_lt_zero i))

/-- C10: on a Directory Record holding `k < 119` files `create_file` issues,
after the read of track 0, exactly two writes, first track 0 and then track
`k + 1`, and every other track of the medium keeps its content, whatever the
name and the content are. -/
theorem create_file_writes (filename data : List Byte) (s : Fs) (k : Nat)
    (hk : file_count (s.medium 0) = k) (hlt : k < MAX_FILE_COUNT) :
    (create_file filename data s).ops
      = s.ops ++ [TrackOp.read 0, TrackOp.write 0, TrackOp.write (k + 1)] ∧
    ∀ t, t ≠ 0 → t ≠ k + 1 → (create_file filename data s).medium t = s.medium t := by
  have hlt2 : k < 119 := hlt
  have hc : (file_count (s.medium 0) + 1) % 65536 = k + 1 := by rw [hk]; omega
  refine ⟨by rw [create_file_ops _ _ _ (by rw [hc]; omega), hc], ?_⟩
  intro t h0 h1
  exact create_file_other filename data s t h0 (by rw [hc]; exact h1)

set_option maxRecDepth 4096 in
/-- C10 witness: creating a file whose name is already registered on a medium
with one file writes track 0 and track 2 and leaves track 1 alone. -/
theorem create_file_writes_witness :
    (create_file (ascii "a") (ascii "2") (create_file (ascii "a") (ascii "1") blank)).ops
      = (create_file (ascii "a") (ascii "1") blank).ops
        ++ [TrackOp.read 0, TrackOp.write 0, TrackOp.write (1 + 1)] ∧
    ∀ t, t ≠ 0 → t ≠ 1 + 1 →
      (create_file (ascii "a") (ascii "2") (create_file (ascii "a") (ascii "1") blank)).medium t
        = (create_file (ascii "a") (ascii "1") blank).medium t :=
  create_file_writes (ascii "a") (ascii "2") (create_file (ascii "a") (ascii "1") blank) 1
    (by decide) (by decide)

/-! ## Lemmas on the controller driver -/

theorem quiet_append (a b : List IoEvent) : quiet (a ++ b) = quiet a ++ quiet b := by
  simp [quiet]

theorem quiet_poll (v : Nat) : quiet [IoEvent.inb (FLOPPY_BASE + FLOPPY_MSR) v] = [] := by
  simp [quiet, is_poll, is_inb]

theorem reads_append (p : Nat) (a b : List IoEvent) :
    reads p (a ++ b) = reads p a + reads p b := by
  simp [reads]

theorem reads_quiet (p : Nat) (h : p ≠ FLOPPY_BASE + FLOPPY_MSR) (t : List IoEvent) :
    reads p (quiet t) = reads p t := by
  induction t with
  | nil => rfl
  | cons e es ih =>
    have hsplit : ∀ l : List IoEvent, reads p (e :: l) = reads p [e] + reads p l :=
      fun l => reads_append p [e] l
    cases e with
    | inb q v =>
      by_cases hq : q = FLOPPY_BASE + FLOPPY_MSR
      · subst hq
        have e1 : quiet (IoEvent.inb (FLOPPY_BASE + FLOPPY_MSR) v :: es) = quiet es := by
          simp [quiet, is_poll, is_inb]
        have e2 : reads p [IoEvent.inb (FLOPPY_BASE + FLOPPY_MSR) v] = 0 := by
          simp [reads, is_inb, Ne.symm h]
        rw [e1, ih, hsplit es, e2, Nat.zero_add]
      · have e1 : quiet (IoEvent.inb q v :: es) = IoEvent.inb q v :: quiet es := by
          simp [quiet, is_poll, is_inb, hq]
        rw [e1, hsplit (quiet es), hsplit es, ih]
    | outb q v =>
      have e1 : quiet (IoEvent.outb q v :: es) = IoEvent.outb q v :: quiet es := by
        simp [quiet, is_poll, is_inb]
      rw [e1, hsplit (quiet es), hsplit es, ih]
    | sleep n =>
      have e1 : quiet (IoEvent.sleep n :: es) = IoEvent.sleep n :: quiet es := by
        simp [quiet, is_poll, is_inb]
      rw [e1, hsplit (quiet es), hsplit es, ih]
    | print m =>
      have e1 : quiet (IoEvent.print m :: es) = IoEvent.print m :: quiet es := by
        simp [quiet, is_poll, is_inb]
      rw [e1, hsplit (quiet es), hsplit es, ih]

theorem reaches_trans (s t u : Floppy) (m m2 : Nat) (e1 e2 : List IoEvent)
    (h1 : Reaches s t m e1) (h2 : Reaches t u m2 e2) : Reaches s u m2 (e1 ++ e2) := by
  refine ⟨h2.1, ?_⟩
  rw [h2.2, h1.2, List.append_assoc]

theorem reaches_fifo_reads (s t : Floppy) (m : Nat) (evs : List IoEvent)
    (h : Reaches s t m evs) :
    fifo_reads t = fifo_reads s + reads (FLOPPY_BASE + FLOPPY_FIFO) evs := by
  have hne : FLOPPY_BASE + FLOPPY_FIFO ≠ FLOPPY_BASE + FLOPPY_MSR := by decide
  simp only [fifo_reads]
  rw [← reads_quiet _ hne t.trace, h.2, reads_append, reads_quiet _ hne]

/-- The poll loop ends when the ready bit shows up within the fuel. -/
theorem wait_floppy_ready_steps (hw : Controller) (j : Nat) :
    ∀ (fuel : Nat) (s : Floppy), j < fuel →
      ready hw (reads (FLOPPY_BASE + FLOPPY_MSR) s.trace + j) →
      ∃ t, wait_floppy_ready hw fuel s = some t ∧ Reaches s t s.floppy_motor_state [] := by
  induction j with
  | zero =>
    intro fuel s hf hr
    cases fuel with
    | zero => omega
    | succ f =>
      have hr2 : 0x80 &&& (port_byte_in hw (FLOPPY_BASE + FLOPPY_MSR) s).1 ≠ 0 := by
        simpa [ready, port_byte_in] using hr
      refine ⟨(port_byte_in hw (FLOPPY_BASE + FLOPPY_MSR) s).2, ?_, rfl, ?_⟩
      · simp only [wait_floppy_ready, if_pos hr2]
      · simp [port_byte_in, quiet_append, quiet_poll]
  | succ j ih =>
    intro fuel s hf hr
    cases fuel with
    | zero => omega
    | succ f =>
      by_cases hr2 : 0x80 &&& (port_byte_in hw (FLOPPY_BASE + FLOPPY_MSR) s).1 ≠ 0
      · refine ⟨(port_byte_in hw (FLOPPY_BASE + FLOPPY_MSR) s).2, ?_, rfl, ?_⟩
        · simp only [wait_floppy_ready, if_pos hr2]
        · simp [port_byte_in, quiet_append, quiet_poll]
      · have hreads : reads (FLOPPY_BASE + FLOPPY_MSR)
            (port_byte_in hw (FLOPPY_BASE + FLOPPY_MSR) s).2.trace
            = reads (FLOPPY_BASE + FLOPPY_MSR) s.trace + 1 := by
          simp [port_byte_in, reads_append, reads, is_inb]
        obtain ⟨t, ht1, ht2, ht3⟩ := ih f (port_byte_in hw (FLOPPY_BASE + FLOPPY_MSR) s).2
          (by omega) (by rw [hreads]; simpa [Nat.add_assoc, Nat.add_comm 1 j] using hr)
        refine ⟨t, ?_, ht2, ?_⟩
        · simp only [wait_floppy_ready, if_neg hr2]
          exact ht1
        · rw [ht3]
          simp [port_byte_in, quiet_append, quiet_poll]

theorem wait_floppy_ready_spec (hw : Controller) (d fuel : Nat) (s : Floppy)
    (hready : ReadyWithin hw d) (hfuel : d ≤ fuel) :
    ∃ t, wait_floppy_ready hw fuel s = some t ∧ Reaches s t s.floppy_motor_state [] := by
  obtain ⟨j, hj, hr⟩ := hready (reads (FLOPPY_BASE + FLOPPY_MSR) s.trace)
  exact wait_floppy_ready_steps hw j fuel s (by omega) hr

theorem floppy_write_cmd_spec (hw : Controller) (d fuel cmd : Nat) (s : Floppy)
    (hready : ReadyWithin hw d) (hfuel : d ≤ fuel) :
    ∃ t, floppy_write_cmd hw fuel cmd s = some t ∧
      Reaches s t s.floppy_motor_state [IoEvent.outb (FLOPPY_BASE + FLOPPY_FIFO) (cmd % 256)] := by
  obtain ⟨t, ht1, ht2, ht3⟩ := wait_floppy_ready_spec hw d fuel s hready hfuel
  refine ⟨port_byte_out (FLOPPY_BASE + FLOPPY_FIFO) cmd t, ?_, ht2, ?_⟩
  · simp [floppy_write_cmd, ht1]
  · simp only [port_byte_out, quiet_append, ht3]
    simp [quiet, is_poll, is_inb]

theorem floppy_read_data_spec (hw : Controller) (d fuel : Nat) (s : Floppy)
    (hready : ReadyWithin hw d) (hfuel : d ≤ fuel) :
    ∃ t, floppy_read_data hw fuel s
        = some (hw.answer (FLOPPY_BASE + FLOPPY_FIFO) (fifo_reads s) % 256, t) ∧
      Reaches s t s.floppy_motor_state [IoEvent.inb (FLOPPY_BASE + FLOPPY_FIFO)
        (hw.answer (FLOPPY_BASE + FLOPPY_FIFO) (fifo_reads s) % 256)] := by
  obtain ⟨t, ht1, ht2, ht3⟩ := wait_floppy_ready_spec hw d fuel s hready hfuel
  have hr : fifo_reads t = fifo_reads s := by
    rw [reaches_fifo_reads s t _ [] ⟨ht2, ht3⟩]
    simp [reads]
  simp only [fifo_reads] at hr
  refine ⟨(port_byte_in hw (FLOPPY_BASE + FLOPPY_FIFO) t).2, ?_, ht2, ?_⟩
  · simp [floppy_read_data, ht1, port_byte_in, hr, fifo_reads]
  · simp only [port_byte_in, quiet_append, ht3, hr, fifo_reads]
    simp [quiet, is_poll, is_inb, FLOPPY_BASE, FLOPPY_FIFO, FLOPPY_MSR]

theorem reaches_of_append (s t : Floppy) (m : Nat) (evs : List IoEvent)
    (htrace : t.trace = s.trace ++ evs) (hq : quiet evs = evs) (hm : t.floppy_motor_state = m) :
    Reaches s t m evs := by
  refine ⟨hm, ?_⟩
  rw [htrace, quiet_append, hq]

theorem fifo_reads_write (s t : Floppy) (m v : Nat)
    (h : Reaches s t m [IoEvent.outb (FLOPPY_BASE + FLOPPY_FIFO) v]) :
    fifo_reads t = fifo_reads s := by
  rw [reaches_fifo_reads s t m _ h]
  simp [reads, is_inb]

theorem fifo_reads_read (s t : Floppy) (m v : Nat)
    (h : Reaches s t m [IoEvent.inb (FLOPPY_BASE + FLOPPY_FIFO) v]) :
    fifo_reads t = fifo_reads s + 1 := by
  rw [reaches_fifo_reads s t m _ h]
  simp [reads, is_inb]

theorem wait_for_interrupt_spec (s : Floppy) :
    Reaches s (wait_for_interrupt s) s.floppy_motor_state [IoEvent.sleep 50] ∧
    fifo_reads (wait_for_interrupt s) = fifo_reads s := by
  have h : Reaches s (wait_for_interrupt s) s.floppy_motor_state [IoEvent.sleep 50] :=
    reaches_of_append s _ _ _ rfl (by simp [quiet, is_poll, is_inb]) rfl
  refine ⟨h, ?_⟩
  rw [reaches_fifo_reads s _ _ _ h]
  simp [reads, is_inb]

theorem floppy_check_interrupt_spec (hw : Controller) (d fuel : Nat) (s : Floppy)
    (hready : ReadyWithin hw d) (hfuel : d ≤ fuel) :
    ∃ t, floppy_check_interrupt hw fuel s
        = some ((hw.answer (FLOPPY_BASE + FLOPPY_FIFO) (fifo_reads s) % 256,
            hw.answer (FLOPPY_BASE + FLOPPY_FIFO) (fifo_reads s + 1) % 256), t) ∧
      Reaches s t s.floppy_motor_state
        [IoEvent.outb (FLOPPY_BASE + FLOPPY_FIFO) CMD_SENSE_INTERRUPT,
         IoEvent.inb (FLOPPY_BASE + FLOPPY_FIFO)
           (hw.answer (FLOPPY_BASE + FLOPPY_FIFO) (fifo_reads s) % 256),
         IoEvent.inb (FLOPPY_BASE + FLOPPY_FIFO)
           (hw.answer (FLOPPY_BASE + FLOPPY_FIFO) (fifo_reads s + 1) % 256)] := by
  obtain ⟨t1, e1, r1⟩ := floppy_write_cmd_spec hw d fuel CMD_SENSE_INTERRUPT s hready hfuel
  have f1 := fifo_reads_write s t1 _ _ r1
  obtain ⟨t2, e2, r2⟩ := floppy_read_data_spec hw d fuel t1 hready hfuel
  have f2 := fifo_reads_read t1 t2 _ _ r2
  obtain ⟨t3, e3, r3⟩ := floppy_read_data_spec hw d fuel t2 hready hfuel
  rw [f1] at e2 r2 f2
  rw [f2] at e3 r3
  rw [r1.1] at r2
  rw [r2.1] at r3
  refine ⟨t3, ?_, ?_⟩
  · simp [floppy_check_interrupt, e1, e2, e3]
  · have := reaches_trans _ _ _ _ _ _ _ (reaches_trans _ _ _ _ _ _ _ r1 r2) r3
    simpa [CMD_SENSE_INTERRUPT] using this

theorem seek_attempt_spec (hw : Controller) (d fuel cyli head : Nat) (s : Floppy)
    (hready : ReadyWithin hw d) (hfuel : d ≤ fuel) :
    ∃ t, seek_attempt hw fuel cyli head s
        = some (hw.answer (FLOPPY_BASE + FLOPPY_FIFO) (fifo_reads s + 1) % 256, t) ∧
      Reaches s t s.floppy_motor_state (seek_events hw cyli head (fifo_reads s)) ∧
      fifo_reads t = fifo_reads s + 2 := by
  obtain ⟨t1, e1, r1⟩ := floppy_write_cmd_spec hw d fuel CMD_SEEK s hready hfuel
  have f1 := fifo_reads_write s t1 _ _ r1
  obtain ⟨t2, e2, r2⟩ := floppy_write_cmd_spec hw d fuel (head <<< 2) t1 hready hfuel
  have f2 := fifo_reads_write t1 t2 _ _ r2
  obtain ⟨t3, e3, r3⟩ := floppy_write_cmd_spec hw d fuel cyli t2 hready hfuel
  have f3 := fifo_reads_write t2 t3 _ _ r3
  obtain ⟨r4, f4⟩ := wait_for_interrupt_spec t3
  obtain ⟨t5, e5, r5⟩ := floppy_check_interrupt_spec hw d fuel (wait_for_interrupt t3) hready hfuel
  have f5 : fifo_reads (wait_for_interrupt t3) = fifo_reads s := by rw [f4, f3, f2, f1]
  rw [f5] at e5 r5
  rw [r1.1] at r2
  rw [r2.1] at r3
  rw [r3.1] at r4
  rw [r4.1] at r5
  have hall := reaches_trans _ _ _ _ _ _ _ (reaches_trans _ _ _ _ _ _ _
    (reaches_trans _ _ _ _ _ _ _ (reaches_trans _ _ _ _ _ _ _ r1 r2) r3) r4) r5
  refine ⟨t5, ?_, ?_, ?_⟩
  · simp [seek_attempt, e1, e2, e3, e5]
  · simpa [seek_events, CMD_SEEK, CMD_SENSE_INTERRUPT] using hall
  · rw [reaches_fifo_reads s t5 _ _ hall]
    simp [reads, is_inb]

theorem calibrate_attempt_spec (hw : Controller) (d fuel : Nat) (s : Floppy)
    (hready : ReadyWithin hw d) (hfuel : d ≤ fuel) :
    ∃ t, calibrate_attempt hw fuel s
        = some (hw.answer (FLOPPY_BASE + FLOPPY_FIFO) (fifo_reads s + 1) % 256, t) ∧
      Reaches s t s.floppy_motor_state (calibrate_events hw (fifo_reads s)) ∧
      fifo_reads t = fifo_reads s + 2 := by
  obtain ⟨t1, e1, r1⟩ := floppy_write_cmd_spec hw d fuel CMD_RECALIBRATE s hready hfuel
  have f1 := fifo_reads_write s t1 _ _ r1
  obtain ⟨t2, e2, r2⟩ := floppy_write_cmd_spec hw d fuel 0 t1 hready hfuel
  have f2 := fifo_reads_write t1 t2 _ _ r2
  obtain ⟨r4, f4⟩ := wait_for_interrupt_spec t2
  obtain ⟨t5, e5, r5⟩ := floppy_check_interrupt_spec hw d fuel (wait_for_interrupt t2) hready hfuel
  have f5 : fifo_reads (wait_for_interrupt t2) = fifo_reads s := by rw [f4, f2, f1]
  rw [f5] at e5 r5
  rw [r1.1] at r2
  rw [r2.1] at r4
  rw [r4.1] at r5
  have hall := reaches_trans _ _ _ _ _ _ _ (reaches_trans _ _ _ _ _ _ _
    (reaches_trans _ _ _ _ _ _ _ r1 r2) r4) r5
  refine ⟨t5, ?_, ?_, ?_⟩
  · simp [calibrate_attempt, e1, e2, e5]
  · simpa [calibrate_events, CMD_RECALIBRATE, CMD_SENSE_INTERRUPT] using hall
  · rw [reaches_fifo_reads s t5 _ _ hall]
    simp [reads, is_inb]

theorem floppy_motor_on_spec (s : Floppy) :
    Reaches s (floppy_motor FLOPPY_MOTOR_ON s) 1 (motor_on_events s.floppy_motor_state) ∧
    fifo_reads (floppy_motor FLOPPY_MOTOR_ON s) = fifo_reads s := by
  by_cases h : s.floppy_motor_state = 0
  · refine ⟨⟨?_, ?_⟩, ?_⟩
    · simp [floppy_motor, FLOPPY_MOTOR_ON]
    · simp [floppy_motor, FLOPPY_MOTOR_ON, h, motor_on_events, timer_sleep, port_byte_out,
        quiet, is_poll, is_inb]
    · simp [floppy_motor, FLOPPY_MOTOR_ON, h, timer_sleep, port_byte_out, fifo_reads, reads,
        is_inb]
  · refine ⟨⟨?_, ?_⟩, ?_⟩
    · simp [floppy_motor, FLOPPY_MOTOR_ON]
    · simp [floppy_motor, FLOPPY_MOTOR_ON, h, motor_on_events]
    · simp [floppy_motor, FLOPPY_MOTOR_ON, h, fifo_reads]

theorem floppy_motor_off_spec (s : Floppy) :
    Reaches s (floppy_motor FLOPPY_MOTOR_OFF s) 0 [] ∧
    fifo_reads (floppy_motor FLOPPY_MOTOR_OFF s) = fifo_reads s := by
  refine ⟨⟨?_, ?_⟩, ?_⟩ <;> simp [floppy_motor, FLOPPY_MOTOR_OFF, fifo_reads]

theorem floppy_print_spec (m : String) (s : Floppy) :
    Reaches s (floppy_print m s) s.floppy_motor_state [IoEvent.print m] ∧
    fifo_reads (floppy_print m s) = fifo_reads s := by
  refine ⟨⟨rfl, ?_⟩, ?_⟩
  · simp [floppy_print, quiet, is_poll, is_inb]
  · simp [floppy_print, fifo_reads, reads, is_inb]

/-- The loop of `floppy_seek` when every pass reads back a wrong cylinder. -/
theorem seek_loop_exhaust (hw : Controller) (d fuel cyli head : Nat)
    (hready : ReadyWithin hw d) (hfuel : d ≤ fuel) (n : Nat) :
    ∀ s : Floppy,
      (∀ j, j < n → hw.answer (FLOPPY_BASE + FLOPPY_FIFO) (fifo_reads s + 2 * j + 1) % 256 ≠ cyli) →
      ∃ t, seek_loop hw fuel cyli head n s = some (-1, t) ∧
        Reaches s t 0 (seek_trace hw cyli head n (fifo_reads s)
          ++ [IoEvent.print "floppy_seek: 10 retries exhausted\n"]) ∧
        fifo_reads t = fifo_reads s + 2 * n := by
  induction n with
  | zero =>
    intro s _
    obtain ⟨p1, p2⟩ := floppy_print_spec "floppy_seek: 10 retries exhausted\n" s
    obtain ⟨m1, m2⟩ := floppy_motor_off_spec
      (floppy_print "floppy_seek: 10 retries exhausted\n" s)
    refine ⟨_, rfl, ?_, by rw [m2, p2]; rfl⟩
    simpa [seek_trace] using reaches_trans _ _ _ _ _ _ _ p1 m1
  | succ n ih =>
    intro s hwrong
    obtain ⟨t1, e1, r1, f1⟩ := seek_attempt_spec hw d fuel cyli head s hready hfuel
    have h0 := hwrong 0 (by omega)
    obtain ⟨t, e2, r2, f2⟩ := ih t1 (by
      intro j hj
      have := hwrong (j + 1) (by omega)
      rw [f1]
      have e : fifo_reads s + 2 + 2 * j + 1 = fifo_reads s + 2 * (j + 1) + 1 := by omega
      rw [e]
      exact this)
    refine ⟨t, ?_, ?_, by rw [f2, f1]; omega⟩
    · simp only [seek_loop, e1, Option.some_bind]
      simp only [Nat.mul_zero, Nat.add_zero] at h0
      rw [if_neg h0]
      exact e2
    · have := reaches_trans _ _ _ _ _ _ _ r1 r2
      rw [f1] at this
      simpa [seek_trace, List.append_assoc] using this

/-- The loop of `floppy_seek` when pass `k` (from 0) is the first to read back
the requested cylinder. -/
theorem seek_loop_found (hw : Controller) (d fuel cyli head : Nat)
    (hready : ReadyWithin hw d) (hfuel : d ≤ fuel) (k : Nat) :
    ∀ (n : Nat) (s : Floppy), k < n →
      (∀ j, j < k → hw.answer (FLOPPY_BASE + FLOPPY_FIFO) (fifo_reads s + 2 * j + 1) % 256 ≠ cyli) →
      hw.answer (FLOPPY_BASE + FLOPPY_FIFO) (fifo_reads s + 2 * k + 1) % 256 = cyli →
      ∃ t, seek_loop hw fuel cyli head n s = some (0, t) ∧
        Reaches s t 0 (seek_trace hw cyli head (k + 1) (fifo_reads s)) ∧
        fifo_reads t = fifo_reads s + 2 * (k + 1) := by
  induction k with
  | zero =>
    intro n s hn _ hright
    obtain ⟨t1, e1, r1, f1⟩ := seek_attempt_spec hw d fuel cyli head s hready hfuel
    obtain ⟨m1, m2⟩ := floppy_motor_off_spec t1
    cases n with
    | zero => omega
    | succ n =>
      refine ⟨floppy_motor FLOPPY_MOTOR_OFF t1, ?_, ?_, by rw [m2, f1]⟩
      · simp only [seek_loop, e1, Option.some_bind]
        simp only [Nat.mul_zero, Nat.add_zero] at hright
        rw [if_pos hright]
      · simpa [seek_trace] using reaches_trans _ _ _ _ _ _ _ r1 m1
  | succ k ih =>
    intro n s hn hwrong hright
    obtain ⟨t1, e1, r1, f1⟩ := seek_attempt_spec hw d fuel cyli head s hready hfuel
    have h0 := hwrong 0 (by omega)
    cases n with
    | zero => omega
    | succ n =>
      obtain ⟨t, e2, r2, f2⟩ := ih n t1 (by omega) (by
        intro j hj
        have := hwrong (j + 1) (by omega)
        rw [f1]
        have e : fifo_reads s + 2 + 2 * j + 1 = fifo_reads s + 2 * (j + 1) + 1 := by omega
        rw [e]
        exact this) (by
        rw [f1]
        have e : fifo_reads s + 2 + 2 * k + 1 = fifo_reads s + 2 * (k + 1) + 1 := by omega
        rw [e]
        exact hright)
      refine ⟨t, ?_, ?_, by rw [f2, f1]; omega⟩
      · simp only [seek_loop, e1, Option.some_bind]
        simp only [Nat.mul_zero, Nat.add_zero] at h0
        rw [if_neg h0]
        exact e2
      · have := reaches_trans _ _ _ _ _ _ _ r1 r2
        rw [f1] at this
        rw [seek_trace]
        simpa [List.append_assoc] using this

/-- The loop of `floppy_calibrate` when every pass reads back a cylinder other than 0. -/
theorem calibrate_loop_exhaust (hw : Controller) (d fuel : Nat)
    (hready : ReadyWithin hw d) (hfuel : d ≤ fuel) (n : Nat) :
    ∀ s : Floppy,
      (∀ j, j < n → hw.answer (FLOPPY_BASE + FLOPPY_FIFO) (fifo_reads s + 2 * j + 1) % 256 ≠ 0) →
      ∃ t, calibrate_loop hw fuel n s = some (-1, t) ∧
        Reaches s t 0 (calibrate_trace hw n (fifo_reads s)
          ++ [IoEvent.print "floppy_calibrate: 10 retries exhausted\n"]) ∧
        fifo_reads t = fifo_reads s + 2 * n := by
  induction n with
  | zero =>
    intro s _
    obtain ⟨p1, p2⟩ := floppy_print_spec "floppy_calibrate: 10 retries exhausted\n" s
    obtain ⟨m1, m2⟩ := floppy_motor_off_spec
      (floppy_print "floppy_calibrate: 10 retries exhausted\n" s)
    refine ⟨_, rfl, ?_, by rw [m2, p2]; rfl⟩
    simpa [calibrate_trace] using reaches_trans _ _ _ _ _ _ _ p1 m1
  | succ n ih =>
    intro s hwrong
    obtain ⟨t1, e1, r1, f1⟩ := calibrate_attempt_spec hw d fuel s hready hfuel
    have h0 := hwrong 0 (by omega)
    obtain ⟨t, e2, r2, f2⟩ := ih t1 (by
      intro j hj
      have := hwrong (j + 1) (by omega)
      rw [f1]
      have e : fifo_reads s + 2 + 2 * j + 1 = fifo_reads s + 2 * (j + 1) + 1 := by omega
      rw [e]
      exact this)
    refine ⟨t, ?_, ?_, by rw [f2, f1]; omega⟩
    · simp only [calibrate_loop, e1, Option.some_bind]
      simp only [Nat.mul_zero, Nat.add_zero] at h0
      rw [if_neg h0]
      exact e2
    · have := reaches_trans _ _ _ _ _ _ _ r1 r2
      rw [f1] at this
      simpa [calibrate_trace, List.append_assoc] using this

/-- The loop of `floppy_calibrate` when pass `k` (from 0) is the first to read
back cylinder 0. -/
theorem calibrate_loop_found (hw : Controller) (d fuel : Nat)
    (hready : ReadyWithin hw d) (hfuel : d ≤ fuel) (k : Nat) :
    ∀ (n : Nat) (s : Floppy), k < n →
      (∀ j, j < k → hw.answer (FLOPPY_BASE + FLOPPY_FIFO) (fifo_reads s + 2 * j + 1) % 256 ≠ 0) →
      hw.answer (FLOPPY_BASE + FLOPPY_FIFO) (fifo_reads s + 2 * k + 1) % 256 = 0 →
      ∃ t, calibrate_loop hw fuel n s = some (0, t) ∧
        Reaches s t 0 (calibrate_trace hw (k + 1) (fifo_reads s)) ∧
        fifo_reads t = fifo_reads s + 2 * (k + 1) := by
  induction k with
  | zero =>
    intro n s hn _ hright
    obtain ⟨t1, e1, r1, f1⟩ := calibrate_attempt_spec hw d fuel s hready hfuel
    obtain ⟨m1, m2⟩ := floppy_motor_off_spec t1
    cases n with
    | zero => omega
    | succ n =>
      refine ⟨floppy_motor FLOPPY_MOTOR_OFF t1, ?_, ?_, by rw [m2, f1]⟩
      · simp only [calibrate_loop, e1, Option.some_bind]
        simp only [Nat.mul_zero, Nat.add_zero] at hright
        rw [if_pos hright]
      · simpa [calibrate_trace] using reaches_trans _ _ _ _ _ _ _ r1 m1
  | succ k ih =>
    intro n s hn hwrong hright
    obtain ⟨t1, e1, r1, f1⟩ := calibrate_attempt_spec hw d fuel s hready hfuel
    have h0 := hwrong 0 (by omega)
    cases n with
    | zero => omega
    | succ n =>
      obtain ⟨t, e2, r2, f2⟩ := ih n t1 (by omega) (by
        intro j hj
        have := hwrong (j + 1) (by omega)
        rw [f1]
        have e : fifo_reads s + 2 + 2 * j + 1 = fifo_reads s + 2 * (j + 1) + 1 := by omega
        rw [e]
        exact this) (by
        rw [f1]
        have e : fifo_reads s + 2 + 2 * k + 1 = fifo_reads s + 2 * (k + 1) + 1 := by omega
        rw [e]
        exact hright)
      refine ⟨t, ?_, ?_, by rw [f2, f1]; omega⟩
      · simp only [calibrate_loop, e1, Option.some_bind]
        simp only [Nat.mul_zero, Nat.add_zero] at h0
        rw [if_neg h0]
        exact e2
      · have := reaches_trans _ _ _ _ _ _ _ r1 r2
        rw [f1] at this
        rw [calibrate_trace]
        simpa [List.append_assoc] using this


theorem fifo_writes_append (a b : List IoEvent) :
    fifo_writes (a ++ b) = fifo_writes a ++ fifo_writes b := by
  simp [fifo_writes]

theorem dma_writes_append (a b : List IoEvent) :
    dma_writes (a ++ b) = dma_writes a ++ dma_writes b := by
  simp [dma_writes]

theorem fifo_writes_quiet (t : List IoEvent) : fifo_writes (quiet t) = fifo_writes t := by
  induction t with
  | nil => rfl
  | cons e es ih =>
    have hsplit : ∀ l : List IoEvent, fifo_writes (e :: l) = fifo_writes [e] ++ fifo_writes l :=
      fun l => fifo_writes_append [e] l
    by_cases hp : is_poll e = true
    · have e1 : quiet (e :: es) = quiet es := by simp [quiet, hp]
      have e2 : fifo_writes [e] = [] := by
        cases e with
        | inb q v => rfl
        | outb q v => simp [is_poll, is_inb] at hp
        | sleep n => rfl
        | print m => rfl
      rw [e1, ih, hsplit es, e2, List.nil_append]
    · have e1 : quiet (e :: es) = e :: quiet es := by simp [quiet, hp]
      rw [e1, hsplit (quiet es), hsplit es, ih]

theorem dma_writes_quiet (t : List IoEvent) : dma_writes (quiet t) = dma_writes t := by
  induction t with
  | nil => rfl
  | cons e es ih =>
    have hsplit : ∀ l : List IoEvent, dma_writes (e :: l) = dma_writes [e] ++ dma_writes l :=
      fun l => dma_writes_append [e] l
    by_cases hp : is_poll e = true
    · have e1 : quiet (e :: es) = quiet es := by simp [quiet, hp]
      have e2 : dma_writes [e] = [] := by
        cases e with
        | inb q v => rfl
        | outb q v => simp [is_poll, is_inb] at hp
        | sleep n => rfl
        | print m => rfl
      rw [e1, ih, hsplit es, e2, List.nil_append]
    · have e1 : quiet (e :: es) = e :: quiet es := by simp [quiet, hp]
      rw [e1, hsplit (quiet es), hsplit es, ih]

theorem reaches_fifo_writes (s t : Floppy) (m : Nat) (evs : List IoEvent)
    (h : Reaches s t m evs) : fifo_writes t.trace = fifo_writes s.trace ++ fifo_writes evs := by
  rw [← fifo_writes_quiet t.trace, h.2, fifo_writes_append, fifo_writes_quiet]

theorem reaches_dma_writes (s t : Floppy) (m : Nat) (evs : List IoEvent)
    (h : Reaches s t m evs) : dma_writes t.trace = dma_writes s.trace ++ dma_writes evs := by
  rw [← dma_writes_quiet t.trace, h.2, dma_writes_append, dma_writes_quiet]

theorem fifo_writes_seek_trace (hw : Controller) (cyli head n r : Nat) :
    fifo_writes (seek_trace hw cyli head n r)
      = (List.replicate n [CMD_SEEK, head <<< 2 % 256, cyli % 256, CMD_SENSE_INTERRUPT]).flatten := by
  induction n generalizing r with
  | zero => rfl
  | succ n ih =>
    rw [seek_trace, fifo_writes_append, ih, List.replicate_succ, List.flatten_cons]
    rfl

theorem fifo_writes_calibrate_trace (hw : Controller) (n r : Nat) :
    fifo_writes (calibrate_trace hw n r)
      = (List.replicate n [CMD_RECALIBRATE, 0, CMD_SENSE_INTERRUPT]).flatten := by
  induction n generalizing r with
  | zero => rfl
  | succ n ih =>
    rw [calibrate_trace, fifo_writes_append, ih, List.replicate_succ, List.flatten_cons]
    rfl

theorem dma_writes_seek_trace (hw : Controller) (cyli head n r : Nat) :
    dma_writes (seek_trace hw cyli head n r) = [] := by
  induction n generalizing r with
  | zero => rfl
  | succ n ih =>
    rw [seek_trace, dma_writes_append, ih]
    rfl

theorem writes_motor_on_events (m : Nat) :
    fifo_writes (motor_on_events m) = [] ∧ dma_writes (motor_on_events m) = [] := by
  by_cases h : m = 0
  · simp only [motor_on_events, if_pos h]
    exact ⟨rfl, rfl⟩
  · simp only [motor_on_events, if_neg h]
    exact ⟨rfl, rfl⟩

/-- `floppy_seek` when every pass reads back a wrong cylinder. -/
theorem floppy_seek_exhaust (hw : Controller) (d fuel cyli head : Nat) (s : Floppy)
    (hready : ReadyWithin hw d) (hfuel : d ≤ fuel)
    (hwrong : ∀ j, j < 10 →
      hw.answer (FLOPPY_BASE + FLOPPY_FIFO) (fifo_reads s + 2 * j + 1) % 256 ≠ cyli) :
    ∃ t, floppy_seek hw fuel cyli head s = some (-1, t) ∧
      Reaches s t 0 (motor_on_events s.floppy_motor_state
        ++ (seek_trace hw cyli head 10 (fifo_reads s)
          ++ [IoEvent.print "floppy_seek: 10 retries exhausted\n"])) ∧
      fifo_reads t = fifo_reads s + 20 := by
  obtain ⟨m1, m2⟩ := floppy_motor_on_spec s
  obtain ⟨t, e, r, f⟩ := seek_loop_exhaust hw d fuel cyli head hready hfuel 10
    (floppy_motor FLOPPY_MOTOR_ON s) (by rw [m2]; exact hwrong)
  rw [m2] at r f
  exact ⟨t, e, reaches_trans _ _ _ _ _ _ _ m1 r, f⟩

/-- `floppy_seek` when pass `k` (from 0) is the first to read back the
requested cylinder. -/
theorem floppy_seek_found (hw : Controller) (d fuel cyli head k : Nat) (s : Floppy)
    (hready : ReadyWithin hw d) (hfuel : d ≤ fuel) (hk : k < 10)
    (hwrong : ∀ j, j < k →
      hw.answer (FLOPPY_BASE + FLOPPY_FIFO) (fifo_reads s + 2 * j + 1) % 256 ≠ cyli)
    (hright : hw.answer (FLOPPY_BASE + FLOPPY_FIFO) (fifo_reads s + 2 * k + 1) % 256 = cyli) :
    ∃ t, floppy_seek hw fuel cyli head s = some (0, t) ∧
      Reaches s t 0 (motor_on_events s.floppy_motor_state
        ++ seek_trace hw cyli head (k + 1) (fifo_reads s)) ∧
      fifo_reads t = fifo_reads s + 2 * (k + 1) := by
  obtain ⟨m1, m2⟩ := floppy_motor_on_spec s
  obtain ⟨t, e, r, f⟩ := seek_loop_found hw d fuel cyli head hready hfuel k 10
    (floppy_motor FLOPPY_MOTOR_ON s) hk (by rw [m2]; exact hwrong) (by rw [m2]; exact hright)
  rw [m2] at r f
  exact ⟨t, e, reaches_trans _ _ _ _ _ _ _ m1 r, f⟩

/-- `floppy_calibrate` when every pass reads back a cylinder other than 0. -/
theorem floppy_calibrate_exhaust (hw : Controller) (d fuel : Nat) (s : Floppy)
    (hready : ReadyWithin hw d) (hfuel : d ≤ fuel)
    (hwrong : ∀ j, j < 10 →
      hw.answer (FLOPPY_BASE + FLOPPY_FIFO) (fifo_reads s + 2 * j + 1) % 256 ≠ 0) :
    ∃ t, floppy_calibrate hw fuel s = some (-1, t) ∧
      Reaches s t 0 (motor_on_events s.floppy_motor_state
        ++ (calibrate_trace hw 10 (fifo_reads s)
          ++ [IoEvent.print "floppy_calibrate: 10 retries exhausted\n"])) ∧
      fifo_reads t = fifo_reads s + 20 := by
  obtain ⟨m1, m2⟩ := floppy_motor_on_spec s
  obtain ⟨t, e, r, f⟩ := calibrate_loop_exhaust hw d fuel hready hfuel 10
    (floppy_motor FLOPPY_MOTOR_ON s) (by rw [m2]; exact hwrong)
  rw [m2] at r f
  exact ⟨t, e, reaches_trans _ _ _ _ _ _ _ m1 r, f⟩

/-- `floppy_calibrate` when pass `k` (from 0) is the first to read back
cylinder 0. -/
theorem floppy_calibrate_found (hw : Controller) (d fuel k : Nat) (s : Floppy)
    (hready : ReadyWithin hw d) (hfuel : d ≤ fuel) (hk : k < 10)
    (hwrong : ∀ j, j < k →
      hw.answer (FLOPPY_BASE + FLOPPY_FIFO) (fifo_reads s + 2 * j + 1) % 256 ≠ 0)
    (hright : hw.answer (FLOPPY_BASE + FLOPPY_FIFO) (fifo_reads s + 2 * k + 1) % 256 = 0) :
    ∃ t, floppy_calibrate hw fuel s = some (0, t) ∧
      Reaches s t 0 (motor_on_events s.floppy_motor_state
        ++ calibrate_trace hw (k + 1) (fifo_reads s)) ∧
      fifo_reads t = fifo_reads s + 2 * (k + 1) := by
  obtain ⟨m1, m2⟩ := floppy_motor_on_spec s
  obtain ⟨t, e, r, f⟩ := calibrate_loop_found hw d fuel hready hfuel k 10
    (floppy_motor FLOPPY_MOTOR_ON s) hk (by rw [m2]; exact hwrong) (by rw [m2]; exact hright)
  rw [m2] at r f
  exact ⟨t, e, reaches_trans _ _ _ _ _ _ _ m1 r, f⟩

theorem steady_ready (c : Nat) : ReadyWithin (steady c) 1 := by
  intro n
  exact ⟨0, by decide, by simp [ready, steady, FLOPPY_BASE, FLOPPY_MSR]⟩

theorem sample_ready : ReadyWithin sample 2 := by
  intro n
  rcases Nat.mod_two_eq_zero_or_one n with h | h
  · refine ⟨1, by decide, ?_⟩
    have : (n + 1) % 2 = 1 := by omega
    simp [ready, sample, FLOPPY_BASE, FLOPPY_MSR, this]
  · refine ⟨0, by decide, ?_⟩
    simp [ready, sample, FLOPPY_BASE, FLOPPY_MSR, h]

/-! ### What a returning call has done, for any controller -/

theorem wait_floppy_ready_inv (hw : Controller) (fuel : Nat) :
    ∀ (s t : Floppy), wait_floppy_ready hw fuel s = some t →
      Reaches s t s.floppy_motor_state [] := by
  induction fuel with
  | zero =>
    intro s t h
    simp [wait_floppy_ready] at h
  | succ f ih =>
    intro s t h
    simp only [wait_floppy_ready] at h
    have hq : quiet (port_byte_in hw (FLOPPY_BASE + FLOPPY_MSR) s).2.trace = quiet s.trace := by
      simp [port_byte_in, quiet_append, quiet_poll]
    split at h
    · have ht : t = (port_byte_in hw (FLOPPY_BASE + FLOPPY_MSR) s).2 := by
        simpa using h.symm
      subst ht
      exact ⟨rfl, by rw [hq]; simp⟩
    · obtain ⟨h1, h2⟩ := ih _ t h
      refine ⟨h1, ?_⟩
      rw [h2, hq]

theorem floppy_write_cmd_inv (hw : Controller) (fuel cmd : Nat) (s t : Floppy)
    (h : floppy_write_cmd hw fuel cmd s = some t) :
    Reaches s t s.floppy_motor_state [IoEvent.outb (FLOPPY_BASE + FLOPPY_FIFO) (cmd % 256)] := by
  simp only [floppy_write_cmd, Option.map_eq_some'] at h
  obtain ⟨u, hu, rfl⟩ := h
  obtain ⟨h1, h2⟩ := wait_floppy_ready_inv hw fuel s u hu
  refine ⟨h1, ?_⟩
  simp only [port_byte_out, quiet_append, h2]
  simp [quiet, is_poll, is_inb]

theorem floppy_read_data_inv (hw : Controller) (fuel : Nat) (s t : Floppy) (v : Nat)
    (h : floppy_read_data hw fuel s = some (v, t)) :
    v = hw.answer (FLOPPY_BASE + FLOPPY_FIFO) (fifo_reads s) % 256 ∧
    Reaches s t s.floppy_motor_state [IoEvent.inb (FLOPPY_BASE + FLOPPY_FIFO) v] := by
  simp only [floppy_read_data, Option.map_eq_some'] at h
  obtain ⟨u, hu, hvt⟩ := h
  obtain ⟨h1, h2⟩ := wait_floppy_ready_inv hw fuel s u hu
  have hr : fifo_reads u = fifo_reads s := by
    rw [reaches_fifo_reads s u _ [] ⟨h1, h2⟩]
    simp [reads]
  simp only [fifo_reads] at hr
  have hv : v = hw.answer (FLOPPY_BASE + FLOPPY_FIFO) (fifo_reads s) % 256 := by
    have := congrArg Prod.fst hvt
    simp only [port_byte_in, hr] at this
    exact this.symm
  have ht : t = (port_byte_in hw (FLOPPY_BASE + FLOPPY_FIFO) u).2 := (congrArg Prod.snd hvt).symm
  refine ⟨hv, ?_, ?_⟩
  · rw [ht]; exact h1
  · rw [ht, hv]
    simp only [port_byte_in, quiet_append, h2, hr, fifo_reads]
    simp [quiet, is_poll, is_inb, FLOPPY_BASE, FLOPPY_FIFO, FLOPPY_MSR]

theorem floppy_check_interrupt_inv (hw : Controller) (fuel : Nat) (s t : Floppy) (st0 cyl : Nat)
    (h : floppy_check_interrupt hw fuel s = some ((st0, cyl), t)) :
    cyl = hw.answer (FLOPPY_BASE + FLOPPY_FIFO) (fifo_reads s + 1) % 256 ∧
    Reaches s t s.floppy_motor_state
      [IoEvent.outb (FLOPPY_BASE + FLOPPY_FIFO) CMD_SENSE_INTERRUPT,
       IoEvent.inb (FLOPPY_BASE + FLOPPY_FIFO)
         (hw.answer (FLOPPY_BASE + FLOPPY_FIFO) (fifo_reads s) % 256),
       IoEvent.inb (FLOPPY_BASE + FLOPPY_FIFO)
         (hw.answer (FLOPPY_BASE + FLOPPY_FIFO) (fifo_reads s + 1) % 256)] := by
  simp only [floppy_check_interrupt, Option.bind_eq_some] at h
  obtain ⟨t1, e1, ⟨v2, t2⟩, e2, ⟨v3, t3⟩, e3, h4⟩ := h
  simp only [Option.some.injEq, Prod.mk.injEq] at h4
  obtain ⟨⟨rfl, rfl⟩, rfl⟩ := h4
  have r1 := floppy_write_cmd_inv hw fuel _ s t1 e1
  have f1 := fifo_reads_write s t1 _ _ r1
  obtain ⟨hv2, r2⟩ := floppy_read_data_inv hw fuel t1 t2 v2 e2
  have f2 := fifo_reads_read t1 t2 _ _ r2
  obtain ⟨hv3, r3⟩ := floppy_read_data_inv hw fuel t2 t3 v3 e3
  rw [f1] at hv2 f2
  rw [f2] at hv3
  rw [r1.1] at r2
  rw [r2.1] at r3
  refine ⟨hv3, ?_⟩
  have := reaches_trans _ _ _ _ _ _ _ (reaches_trans _ _ _ _ _ _ _ r1 r2) r3
  rw [hv2, hv3] at this
  simpa [CMD_SENSE_INTERRUPT] using this

theorem seek_attempt_inv (hw : Controller) (fuel cyli head : Nat) (s t : Floppy) (cyl : Nat)
    (h : seek_attempt hw fuel cyli head s = some (cyl, t)) :
    cyl = hw.answer (FLOPPY_BASE + FLOPPY_FIFO) (fifo_reads s + 1) % 256 ∧
    Reaches s t s.floppy_motor_state (seek_events hw cyli head (fifo_reads s)) ∧
    fifo_reads t = fifo_reads s + 2 := by
  simp only [seek_attempt, Option.bind_eq_some] at h
  obtain ⟨t1, e1, t2, e2, t3, e3, ⟨⟨st0, c⟩, t5⟩, e5, h6⟩ := h
  simp only [Option.some.injEq, Prod.mk.injEq] at h6
  obtain ⟨rfl, rfl⟩ := h6
  have r1 := floppy_write_cmd_inv hw fuel _ s t1 e1
  have f1 := fifo_reads_write s t1 _ _ r1
  have r2 := floppy_write_cmd_inv hw fuel _ t1 t2 e2
  have f2 := fifo_reads_write t1 t2 _ _ r2
  have r3 := floppy_write_cmd_inv hw fuel _ t2 t3 e3
  have f3 := fifo_reads_write t2 t3 _ _ r3
  obtain ⟨r4, f4⟩ := wait_for_interrupt_spec t3
  obtain ⟨hc, r5⟩ := floppy_check_interrupt_inv hw fuel _ _ _ _ e5
  have f5 : fifo_reads (wait_for_interrupt t3) = fifo_reads s := by rw [f4, f3, f2, f1]
  rw [f5] at hc r5
  rw [r1.1] at r2
  rw [r2.1] at r3
  rw [r3.1] at r4
  rw [r4.1] at r5
  have hall := reaches_trans _ _ _ _ _ _ _ (reaches_trans _ _ _ _ _ _ _
    (reaches_trans _ _ _ _ _ _ _ (reaches_trans _ _ _ _ _ _ _ r1 r2) r3) r4) r5
  refine ⟨hc, ?_, ?_⟩
  · simpa [seek_events, CMD_SEEK, CMD_SENSE_INTERRUPT] using hall
  · rw [reaches_fifo_reads s _ _ _ hall]
    simp [reads, is_inb]

/-- A returning `floppy_seek` loop has made some passes and nothing else, apart
from the message when it fails. -/
theorem seek_loop_inv (hw : Controller) (fuel cyli head n : Nat) :
    ∀ (s t : Floppy) (res : Int), seek_loop hw fuel cyli head n s = some (res, t) →
      ∃ k, ((res = 0 ∧ 1 ≤ k ∧ k ≤ n) ∨ (res = -1 ∧ k = n)) ∧
        Reaches s t 0 (seek_trace hw cyli head k (fifo_reads s)
          ++ (if res = 0 then [] else [IoEvent.print "floppy_seek: 10 retries exhausted\n"])) := by
  induction n with
  | zero =>
    intro s t res h
    simp only [seek_loop, Option.some.injEq, Prod.mk.injEq] at h
    obtain ⟨rfl, rfl⟩ := h
    obtain ⟨p1, _⟩ := floppy_print_spec "floppy_seek: 10 retries exhausted\n" s
    obtain ⟨m1, _⟩ := floppy_motor_off_spec
      (floppy_print "floppy_seek: 10 retries exhausted\n" s)
    refine ⟨0, Or.inr ⟨rfl, rfl⟩, ?_⟩
    simpa [seek_trace] using reaches_trans _ _ _ _ _ _ _ p1 m1
  | succ n ih =>
    intro s t res h
    simp only [seek_loop, Option.bind_eq_some] at h
    obtain ⟨⟨cyl, t1⟩, e1, h2⟩ := h
    obtain ⟨_, r1, f1⟩ := seek_attempt_inv hw fuel cyli head s t1 cyl e1
    by_cases hc : cyl = cyli
    · simp only [hc, if_true, Option.some.injEq, Prod.mk.injEq] at h2
      obtain ⟨rfl, rfl⟩ := h2
      obtain ⟨m1, _⟩ := floppy_motor_off_spec t1
      refine ⟨1, Or.inl ⟨rfl, Nat.le_refl 1, by omega⟩, ?_⟩
      simpa [seek_trace] using reaches_trans _ _ _ _ _ _ _ r1 m1
    · simp only [hc, if_false] at h2
      obtain ⟨k, hres, r2⟩ := ih t1 t res h2
      refine ⟨k + 1, by omega, ?_⟩
      have := reaches_trans _ _ _ _ _ _ _ r1 r2
      rw [f1] at this
      rw [seek_trace]
      simpa [List.append_assoc] using this

/-- A returning `floppy_seek` has written to the FIFO only seek and sense
interrupt commands, ten of each when it fails, and nothing to the DMA
controller. -/
theorem floppy_seek_inv (hw : Controller) (fuel cyli head : Nat) (s t : Floppy) (res : Int)
    (h : floppy_seek hw fuel cyli head s = some (res, t)) :
    t.floppy_motor_state = 0 ∧
    dma_writes t.trace = dma_writes s.trace ∧
    ∃ k, ((res = 0 ∧ 1 ≤ k ∧ k ≤ 10) ∨ (res = -1 ∧ k = 10)) ∧
      fifo_writes t.trace = fifo_writes s.trace ++ (List.replicate k
        [CMD_SEEK, head <<< 2 % 256, cyli % 256, CMD_SENSE_INTERRUPT]).flatten := by
  obtain ⟨m1, m2⟩ := floppy_motor_on_spec s
  obtain ⟨k, hres, r⟩ := seek_loop_inv hw fuel cyli head 10 _ t res h
  have hall := reaches_trans _ _ _ _ _ _ _ m1 r
  refine ⟨r.1, ?_, k, hres, ?_⟩
  · rw [reaches_dma_writes s t _ _ hall, dma_writes_append, dma_writes_append,
      (writes_motor_on_events _).2, dma_writes_seek_trace]
    split <;> simp [dma_writes]
  · rw [reaches_fifo_writes s t _ _ hall, fifo_writes_append, fifo_writes_append,
      (writes_motor_on_events _).1, fifo_writes_seek_trace]
    split <;> simp [fifo_writes]

/-! ### The transfer attempt -/

theorem prints_append (a b : List IoEvent) : prints (a ++ b) = prints a ++ prints b := by
  simp [prints]

theorem prints_quiet (t : List IoEvent) : prints (quiet t) = prints t := by
  induction t with
  | nil => rfl
  | cons e es ih =>
    have hsplit : ∀ l : List IoEvent, prints (e :: l) = prints [e] ++ prints l :=
      fun l => prints_append [e] l
    by_cases hp : is_poll e = true
    · have e1 : quiet (e :: es) = quiet es := by simp [quiet, hp]
      have e2 : prints [e] = [] := by
        cases e with
        | inb q v => rfl
        | outb q v => rfl
        | sleep n => rfl
        | print m => simp [is_poll, is_inb] at hp
      rw [e1, ih, hsplit es, e2, List.nil_append]
    · have e1 : quiet (e :: es) = e :: quiet es := by simp [quiet, hp]
      rw [e1, hsplit (quiet es), hsplit es, ih]

theorem reaches_prints (s t : Floppy) (m : Nat) (evs : List IoEvent)
    (h : Reaches s t m evs) : prints t.trace = prints s.trace ++ prints evs := by
  rw [← prints_quiet t.trace, h.2, prints_append, prints_quiet]

theorem write_cmds_spec (hw : Controller) (d fuel : Nat) (hready : ReadyWithin hw d)
    (hfuel : d ≤ fuel) (cmds : List Nat) :
    ∀ s : Floppy, ∃ t, write_cmds hw fuel cmds s = some t ∧
      Reaches s t s.floppy_motor_state
        (cmds.map (fun c => IoEvent.outb (FLOPPY_BASE + FLOPPY_FIFO) (c % 256))) ∧
      fifo_reads t = fifo_reads s := by
  induction cmds with
  | nil =>
    intro s
    exact ⟨s, rfl, ⟨rfl, by simp⟩, rfl⟩
  | cons c cs ih =>
    intro s
    obtain ⟨t1, e1, r1⟩ := floppy_write_cmd_spec hw d fuel c s hready hfuel
    have f1 := fifo_reads_write s t1 _ _ r1
    obtain ⟨t, e2, r2, f2⟩ := ih t1
    rw [r1.1] at r2
    refine ⟨t, ?_, ?_, by rw [f2, f1]⟩
    · simp [write_cmds, e1, e2]
    · simpa using reaches_trans _ _ _ _ _ _ _ r1 r2

theorem read_results_spec (hw : Controller) (d fuel : Nat) (hready : ReadyWithin hw d)
    (hfuel : d ≤ fuel) (n : Nat) :
    ∀ s : Floppy, ∃ vs t, read_results hw fuel n s = some (vs, t) ∧ vs.length = n ∧
      Reaches s t s.floppy_motor_state (vs.map (IoEvent.inb (FLOPPY_BASE + FLOPPY_FIFO))) ∧
      fifo_reads t = fifo_reads s + n := by
  induction n with
  | zero =>
    intro s
    exact ⟨[], s, rfl, rfl, ⟨rfl, by simp⟩, rfl⟩
  | succ n ih =>
    intro s
    obtain ⟨t1, e1, r1⟩ := floppy_read_data_spec hw d fuel s hready hfuel
    have f1 := fifo_reads_read s t1 _ _ r1
    obtain ⟨vs, t, e2, hl, r2, f2⟩ := ih t1
    rw [r1.1] at r2
    refine ⟨hw.answer (FLOPPY_BASE + FLOPPY_FIFO) (fifo_reads s) % 256 :: vs, t, ?_,
      by simp [hl], ?_, by rw [f2, f1]; omega⟩
    · simp [read_results, e1, e2]
    · simpa using reaches_trans _ _ _ _ _ _ _ r1 r2

theorem floppy_dma_init_spec (addr dir : Nat) (s : Floppy)
    (hdir : dir = floppy_dir_read ∨ dir = floppy_dir_write) :
    Reaches s (floppy_dma_init addr dir s) s.floppy_motor_state (dma_init_events addr dir) ∧
    fifo_reads (floppy_dma_init addr dir s) = fifo_reads s := by
  have ht : (floppy_dma_init addr dir s).trace = s.trace ++ dma_init_events addr dir := by
    simp only [floppy_dma_init, if_pos hdir, port_byte_out, dma_init_events, FLOPPY_DMA_LENGTH]
    simp
    split <;> decide
  have hm : (floppy_dma_init addr dir s).floppy_motor_state = s.floppy_motor_state := by
    simp only [floppy_dma_init, if_pos hdir, port_byte_out]
  have h : Reaches s (floppy_dma_init addr dir s) s.floppy_motor_state
      (dma_init_events addr dir) :=
    reaches_of_append s _ _ _ ht (by simp [quiet, is_poll, is_inb, dma_init_events]) hm
  refine ⟨h, ?_⟩
  rw [reaches_fifo_reads s _ _ _ h]
  simp [reads, is_inb, dma_init_events]

theorem timer_sleep_spec (n : Nat) (s : Floppy) :
    Reaches s (timer_sleep n s) s.floppy_motor_state [IoEvent.sleep n] ∧
    fifo_reads (timer_sleep n s) = fifo_reads s := by
  have h : Reaches s (timer_sleep n s) s.floppy_motor_state [IoEvent.sleep n] :=
    reaches_of_append s _ _ _ rfl (by simp [quiet, is_poll, is_inb]) rfl
  refine ⟨h, ?_⟩
  rw [reaches_fifo_reads s _ _ _ h]
  simp [reads, is_inb]

/-- One pass of the loop of `floppy_do_track` returns 0 with the motor off. -/
theorem track_attempt_spec (hw : Controller) (d fuel addr cyl dir cmd : Nat) (s : Floppy)
    (hready : ReadyWithin hw d) (hfuel : d ≤ fuel)
    (hdir : dir = floppy_dir_read ∨ dir = floppy_dir_write) :
    ∃ vs t, track_attempt hw fuel addr cyl dir cmd s = some (0, t) ∧ vs.length = 7 ∧
      Reaches s t 0 (track_events addr cyl dir cmd s.floppy_motor_state vs) ∧
      fifo_reads t = fifo_reads s + 7 := by
  obtain ⟨m1, g1⟩ := floppy_motor_on_spec s
  obtain ⟨m2, g2⟩ := floppy_dma_init_spec addr dir (floppy_motor FLOPPY_MOTOR_ON s) hdir
  obtain ⟨m3, g3⟩ := timer_sleep_spec 10
    (floppy_dma_init addr dir (floppy_motor FLOPPY_MOTOR_ON s))
  obtain ⟨t4, e4, m4, g4⟩ := write_cmds_spec hw d fuel hready hfuel
    [cmd, 0, cyl, 0, 1, 2, 18, 0x1b, 0xff]
    (timer_sleep 10 (floppy_dma_init addr dir (floppy_motor FLOPPY_MOTOR_ON s)))
  obtain ⟨m5, g5⟩ := wait_for_interrupt_spec t4
  obtain ⟨vs, t6, e6, hl, m6, g6⟩ := read_results_spec hw d fuel hready hfuel 7
    (wait_for_interrupt t4)
  obtain ⟨m7, g7⟩ := floppy_motor_off_spec t6
  rw [m1.1] at m2
  rw [m2.1] at m3
  rw [m3.1] at m4
  rw [m4.1] at m5
  rw [m5.1] at m6
  have hall := reaches_trans _ _ _ _ _ _ _ (reaches_trans _ _ _ _ _ _ _
    (reaches_trans _ _ _ _ _ _ _ (reaches_trans _ _ _ _ _ _ _
    (reaches_trans _ _ _ _ _ _ _ (reaches_trans _ _ _ _ _ _ _ m1 m2) m3) m4) m5) m6) m7
  refine ⟨vs, floppy_motor FLOPPY_MOTOR_OFF t6, ?_, hl, ?_, ?_⟩
  · simp [track_attempt, e4, e6]
  · simpa [track_events, List.append_assoc] using hall
  · rw [g7, g6, g5, g4, g3, g2, g1]

theorem writes_track_events (addr cyl dir cmd m : Nat) (vs : List Nat) :
    fifo_writes (track_events addr cyl dir cmd m vs)
      = [cmd % 256, 0, cyl % 256, 0, 1, 2, 18, 0x1b, 0xff] ∧
    prints (track_events addr cyl dir cmd m vs) = [] ∧
    dma_writes (track_events addr cyl dir cmd m vs)
      = [(0x0a, 0x06), (0x0c, 0xff), (0x04, addr % 256), (0x04, addr / 256 % 256),
         (0x81, addr / 65536 % 256), (0x0c, 0xff), (0x05, 0xff), (0x05, 0x3f),
         (0x0b, if dir = floppy_dir_read then 0x46 else 0x4a), (0x0a, 0x02)] := by
  have hin : ∀ l : List Nat,
      fifo_writes (l.map (IoEvent.inb (FLOPPY_BASE + FLOPPY_FIFO))) = [] ∧
      prints (l.map (IoEvent.inb (FLOPPY_BASE + FLOPPY_FIFO))) = [] ∧
      dma_writes (l.map (IoEvent.inb (FLOPPY_BASE + FLOPPY_FIFO))) = [] := by
    intro l
    induction l with
    | nil => exact ⟨rfl, rfl, rfl⟩
    | cons x xs ih =>
      refine ⟨?_, ?_, ?_⟩
      · rw [List.map_cons, ← List.singleton_append, fifo_writes_append, ih.1]; rfl
      · rw [List.map_cons, ← List.singleton_append, prints_append, ih.2.1]; rfl
      · rw [List.map_cons, ← List.singleton_append, dma_writes_append, ih.2.2]; rfl
  have hm : prints (motor_on_events m) = [] := by
    by_cases h : m = 0
    · simp only [motor_on_events, if_pos h]; rfl
    · simp only [motor_on_events, if_neg h]; rfl
  refine ⟨?_, ?_, ?_⟩
  · simp only [track_events, fifo_writes_append, (writes_motor_on_events m).1, (hin vs).1]
    simp [fifo_writes, dma_init_events, FLOPPY_BASE, FLOPPY_FIFO]
  · simp only [track_events, prints_append, hm, (hin vs).2.1]
    simp [prints, dma_init_events]
  · simp only [track_events, dma_writes_append, (writes_motor_on_events m).2, (hin vs).2.2]
    simp [dma_writes, dma_init_events, FLOPPY_BASE, FLOPPY_FIFO]

theorem prints_seek_trace (hw : Controller) (cyli head n r : Nat) :
    prints (seek_trace hw cyli head n r) = [] := by
  induction n generalizing r with
  | zero => rfl
  | succ n ih =>
    rw [seek_trace, prints_append, ih]
    rfl

theorem prints_motor_on_events (m : Nat) : prints (motor_on_events m) = [] := by
  by_cases h : m = 0
  · simp only [motor_on_events, if_pos h]; rfl
  · simp only [motor_on_events, if_neg h]; rfl

/-- `floppy_do_track` when both seeks find the cylinder, in pass `k0` and `k1`
(from 0): the events of the whole call. -/
theorem floppy_do_track_ok (hw : Controller) (d fuel addr cyl dir k0 k1 : Nat) (s : Floppy)
    (hdir : dir = floppy_dir_read ∨ dir = floppy_dir_write)
    (hready : ReadyWithin hw d) (hfuel : d ≤ fuel)
    (hk0 : k0 < 10)
    (hwrong0 : ∀ j, j < k0 →
      hw.answer (FLOPPY_BASE + FLOPPY_FIFO) (fifo_reads s + 2 * j + 1) % 256 ≠ cyl)
    (hright0 : hw.answer (FLOPPY_BASE + FLOPPY_FIFO) (fifo_reads s + 2 * k0 + 1) % 256 = cyl)
    (hk1 : k1 < 10)
    (hwrong1 : ∀ j, j < k1 →
      hw.answer (FLOPPY_BASE + FLOPPY_FIFO) (fifo_reads s + 2 * (k0 + 1) + 2 * j + 1) % 256 ≠ cyl)
    (hright1 :
      hw.answer (FLOPPY_BASE + FLOPPY_FIFO) (fifo_reads s + 2 * (k0 + 1) + 2 * k1 + 1) % 256 = cyl) :
    ∃ vs t, floppy_do_track hw fuel addr cyl dir s = some (0, t) ∧ vs.length = 7 ∧
      Reaches s t 0 ((motor_on_events s.floppy_motor_state
          ++ seek_trace hw cyl 0 (k0 + 1) (fifo_reads s))
        ++ (motor_on_events 0 ++ seek_trace hw cyl 1 (k1 + 1) (fifo_reads s + 2 * (k0 + 1)))
        ++ track_events addr cyl dir
          (if dir = floppy_dir_read then CMD_READ_DATA ||| 0xC0 else CMD_WRITE_DATA ||| 0xC0)
          0 vs) ∧
      fifo_reads t = fifo_reads s + 2 * (k0 + 1) + 2 * (k1 + 1) + 7 := by
  obtain ⟨t0, e0, r0, f0⟩ := floppy_seek_found hw d fuel cyl 0 k0 s hready hfuel hk0
    hwrong0 hright0
  obtain ⟨t1, e1, r1, f1⟩ := floppy_seek_found hw d fuel cyl 1 k1 t0 hready hfuel hk1
    (by rw [f0]; exact hwrong1) (by rw [f0]; exact hright1)
  obtain ⟨vs, t, e2, hl, r2, f2⟩ := track_attempt_spec hw d fuel addr cyl dir
    (if dir = floppy_dir_read then CMD_READ_DATA ||| 0xC0 else CMD_WRITE_DATA ||| 0xC0)
    t1 hready hfuel hdir
  rw [r0.1, f0] at r1
  rw [r1.1] at r2
  refine ⟨vs, t, ?_, hl, reaches_trans _ _ _ _ _ _ _ (reaches_trans _ _ _ _ _ _ _ r0 r1) r2,
    by rw [f2, f1, f0]⟩
  simp only [floppy_do_track, if_pos hdir, e0, e1, Option.some_bind]
  simp [track_loop, e2]

/-- A cylinder above 255 is never reported by the controller, whose answer is
one byte: `floppy_do_track` gives up in its first seek after ten passes,
returns -1, programs no DMA transfer and prints the message of the exhausted
seek. -/
theorem floppy_do_track_beyond_byte (hw : Controller) (d fuel addr cyl dir : Nat) (s : Floppy)
    (hdir : dir = floppy_dir_read ∨ dir = floppy_dir_write)
    (hready : ReadyWithin hw d) (hfuel : d ≤ fuel) (hcyl : 256 ≤ cyl) :
    ∃ t, floppy_do_track hw fuel addr cyl dir s = some (-1, t) ∧
      dma_writes t.trace = dma_writes s.trace ∧
      prints t.trace = prints s.trace ++ ["floppy_seek: 10 retries exhausted\n"] := by
  obtain ⟨t, e, r, _⟩ := floppy_seek_exhaust hw d fuel cyl 0 s hready hfuel (fun j _ => by
    have := Nat.mod_lt (hw.answer (FLOPPY_BASE + FLOPPY_FIFO) (fifo_reads s + 2 * j + 1))
      (by decide : 0 < 256)
    omega)
  refine ⟨t, ?_, ?_, ?_⟩
  · simp only [floppy_do_track, if_pos hdir, e, Option.some_bind]
    rfl
  · rw [reaches_dma_writes s t _ _ r, dma_writes_append, dma_writes_append,
      (writes_motor_on_events _).2, dma_writes_seek_trace]
    simp [dma_writes]
  · rw [reaches_prints s t _ _ r, prints_append, prints_append, prints_motor_on_events,
      prints_seek_trace]
    simp [prints]

/-! ## Controller driver claims -/

/-- C5: with a controller that sets the ready bit within `d <= fuel` polls.
If the sense-interrupt answer reports a non-zero cylinder in each of the ten
passes, `floppy_calibrate` returns -1 with the motor state off, after writing
exactly ten recalibrate commands to the FIFO, each followed by one
sense-interrupt command, and reading the twenty result bytes.  If the answer
reports a cylinder different from `cyli` in each of the ten passes,
`floppy_seek(cyli, head)` returns -1 with the motor state off, after writing
exactly ten seek commands, each followed by one sense-interrupt command, and
reading the twenty result bytes.  Neither half needs the condition of the
other. -/
theorem calibrate_seek_exhaust (hw : Controller) (d fuel cyli head : Nat) (s : Floppy)
    (hready : ReadyWithin hw d) (hfuel : d ≤ fuel) :
    ((∀ j, j < 10 →
        hw.answer (FLOPPY_BASE + FLOPPY_FIFO) (fifo_reads s + 2 * j + 1) % 256 ≠ 0) →
      ∃ t, floppy_calibrate hw fuel s = some (-1, t) ∧
        t.floppy_motor_state = FLOPPY_MOTOR_OFF ∧
        fifo_writes t.trace = fifo_writes s.trace
          ++ (List.replicate 10 [CMD_RECALIBRATE, 0, CMD_SENSE_INTERRUPT]).flatten ∧
        fifo_reads t = fifo_reads s + 20) ∧
    ((∀ j, j < 10 →
        hw.answer (FLOPPY_BASE + FLOPPY_FIFO) (fifo_reads s + 2 * j + 1) % 256 ≠ cyli) →
      ∃ t, floppy_seek hw fuel cyli head s = some (-1, t) ∧
        t.floppy_motor_state = FLOPPY_MOTOR_OFF ∧
        fifo_writes t.trace = fifo_writes s.trace
          ++ (List.replicate 10
            [CMD_SEEK, head <<< 2 % 256, cyli % 256, CMD_SENSE_INTERRUPT]).flatten ∧
        fifo_reads t = fifo_reads s + 20) := by
  constructor
  · intro hcal
    obtain ⟨t, e, r, f⟩ := floppy_calibrate_exhaust hw d fuel s hready hfuel hcal
    refine ⟨t, e, r.1, ?_, f⟩
    rw [reaches_fifo_writes s t _ _ r, fifo_writes_append, fifo_writes_append,
      (writes_motor_on_events _).1, fifo_writes_calibrate_trace]
    simp [fifo_writes]
  · intro hseek
    obtain ⟨t, e, r, f⟩ := floppy_seek_exhaust hw d fuel cyli head s hready hfuel hseek
    refine ⟨t, e, r.1, ?_, f⟩
    rw [reaches_fifo_writes s t _ _ r, fifo_writes_append, fifo_writes_append,
      (writes_motor_on_events _).1, fifo_writes_seek_trace]
    simp [fifo_writes]

/-- C5 witness: a controller that is always ready and always reports cylinder
3 makes `floppy_calibrate` fail after ten passes, and one that always reports
cylinder 0 (a drive stuck on cylinder 0, for which a calibrate would succeed)
makes `floppy_seek(5, 1)` fail after ten passes. -/
theorem calibrate_seek_exhaust_witness :
    (∃ t, floppy_calibrate (steady 3) 1 idle = some (-1, t) ∧
      t.floppy_motor_state = FLOPPY_MOTOR_OFF ∧
      fifo_writes t.trace = fifo_writes idle.trace
        ++ (List.replicate 10 [CMD_RECALIBRATE, 0, CMD_SENSE_INTERRUPT]).flatten ∧
      fifo_reads t = fifo_reads idle + 20) ∧
    (∃ t, floppy_seek (steady 0) 1 5 1 idle = some (-1, t) ∧
      t.floppy_motor_state = FLOPPY_MOTOR_OFF ∧
      fifo_writes t.trace = fifo_writes idle.trace
        ++ (List.replicate 10
          [CMD_SEEK, 1 <<< 2 % 256, 5 % 256, CMD_SENSE_INTERRUPT]).flatten ∧
      fifo_reads t = fifo_reads idle + 20) :=
  ⟨(calibrate_seek_exhaust (steady 3) 1 1 4 1 idle (steady_ready 3) (Nat.le_refl 1)).1
      (fun j _ => by simp [steady, FLOPPY_BASE, FLOPPY_FIFO]),
   (calibrate_seek_exhaust (steady 0) 1 1 5 1 idle (steady_ready 0) (Nat.le_refl 1)).2
      (fun j _ => by simp [steady, FLOPPY_BASE, FLOPPY_FIFO])⟩

/-- C6: with a controller that sets the ready bit within `d <= fuel` polls.
If the sense-interrupt answer reports the requested cylinder `c <= 255` for
the first time in pass `k` (1 to 10), `floppy_seek(c, h)` returns 0 with the
motor state off after writing exactly `k` seek commands, each the FIFO bytes
15, `h << 2` (as a byte), `c`, followed by the sense-interrupt command 8.  If
the answer reports cylinder 0 for the first time in pass `kc` (1 to 10),
`floppy_calibrate` returns 0 with the motor state off after writing exactly
`kc` recalibrate commands (bytes 7, 0), each followed by the sense-interrupt
command.  Neither half needs the condition of the other. -/
theorem seek_calibrate_found (hw : Controller) (d fuel c h : Nat) (s : Floppy)
    (hready : ReadyWithin hw d) (hfuel : d ≤ fuel) :
    (∀ k, c ≤ 255 → 1 ≤ k → k ≤ 10 →
      (∀ j, j + 1 < k →
        hw.answer (FLOPPY_BASE + FLOPPY_FIFO) (fifo_reads s + 2 * j + 1) % 256 ≠ c) →
      hw.answer (FLOPPY_BASE + FLOPPY_FIFO) (fifo_reads s + 2 * (k - 1) + 1) % 256 = c →
      ∃ t, floppy_seek hw fuel c h s = some (0, t) ∧
        t.floppy_motor_state = FLOPPY_MOTOR_OFF ∧
        fifo_writes t.trace = fifo_writes s.trace
          ++ (List.replicate k [15, h <<< 2 % 256, c, 8]).flatten) ∧
    (∀ kc, 1 ≤ kc → kc ≤ 10 →
      (∀ j, j + 1 < kc →
        hw.answer (FLOPPY_BASE + FLOPPY_FIFO) (fifo_reads s + 2 * j + 1) % 256 ≠ 0) →
      hw.answer (FLOPPY_BASE + FLOPPY_FIFO) (fifo_reads s + 2 * (kc - 1) + 1) % 256 = 0 →
      ∃ t, floppy_calibrate hw fuel s = some (0, t) ∧
        t.floppy_motor_state = FLOPPY_MOTOR_OFF ∧
        fifo_writes t.trace = fifo_writes s.trace
          ++ (List.replicate kc [7, 0, 8]).flatten) := by
  constructor
  · intro k hc hk1 hk10 hwrong hright
    obtain ⟨t, e, r, _⟩ := floppy_seek_found hw d fuel c h (k - 1) s hready hfuel (by omega)
      (fun j hj => hwrong j (by omega)) hright
    refine ⟨t, e, r.1, ?_⟩
    have hk : k - 1 + 1 = k := by omega
    have hc2 : c % 256 = c := by omega
    rw [reaches_fifo_writes s t _ _ r, fifo_writes_append, (writes_motor_on_events _).1,
      fifo_writes_seek_trace, hk, hc2]
    simp [CMD_SEEK, CMD_SENSE_INTERRUPT]
  · intro kc hkc1 hkc10 hwrong0 hright0
    obtain ⟨t, e, r, _⟩ := floppy_calibrate_found hw d fuel (kc - 1) s hready hfuel (by omega)
      (fun j hj => hwrong0 j (by omega)) hright0
    refine ⟨t, e, r.1, ?_⟩
    have hk : kc - 1 + 1 = kc := by omega
    rw [reaches_fifo_writes s t _ _ r, fifo_writes_append, (writes_motor_on_events _).1,
      fifo_writes_calibrate_trace, hk]
    simp [CMD_RECALIBRATE, CMD_SENSE_INTERRUPT]

/-- C6 witness: the controller `steady 5`, which always reports cylinder 5 and
never cylinder 0, lets `floppy_seek(5, 1)` succeed in the first pass; the
controller `sample` reports cylinder 5 in the second pass and cylinder 0 in
the third. -/
theorem seek_calibrate_found_witness :
    (∃ t, floppy_seek (steady 5) 1 5 1 idle = some (0, t) ∧
      t.floppy_motor_state = FLOPPY_MOTOR_OFF ∧
      fifo_writes t.trace = fifo_writes idle.trace
        ++ (List.replicate 1 [15, 1 <<< 2 % 256, 5, 8]).flatten) ∧
    (∃ t, floppy_seek sample 2 5 1 idle = some (0, t) ∧
      t.floppy_motor_state = FLOPPY_MOTOR_OFF ∧
      fifo_writes t.trace = fifo_writes idle.trace
        ++ (List.replicate 2 [15, 1 <<< 2 % 256, 5, 8]).flatten) ∧
    (∃ t, floppy_calibrate sample 2 idle = some (0, t) ∧
      t.floppy_motor_state = FLOPPY_MOTOR_OFF ∧
      fifo_writes t.trace = fifo_writes idle.trace
        ++ (List.replicate 3 [7, 0, 8]).flatten) :=
  ⟨(seek_calibrate_found (steady 5) 1 1 5 1 idle (steady_ready 5) (Nat.le_refl 1)).1 1
      (by decide) (by decide) (by decide)
      (fun j hj => absurd hj (by omega))
      (by simp [steady, FLOPPY_BASE, FLOPPY_FIFO]),
   (seek_calibrate_found sample 2 2 5 1 idle sample_ready (Nat.le_refl 2)).1 2
      (by decide) (by decide) (by decide)
      (fun j hj => by
        have : j = 0 := by omega
        subst this
        decide)
      (by decide),
   (seek_calibrate_found sample 2 2 5 1 idle sample_ready (Nat.le_refl 2)).2 3
      (by decide) (by decide)
      (fun j hj => by
        have : j = 0 ∨ j = 1 := by omega
        rcases this with h | h <;> subst h <;> decide)
      (by decide)⟩

/-- C7: `floppy_motor(FLOPPY_MOTOR_ON)` writes 0x1C to port 0x3F2 and sleeps 50
ticks only when the recorded motor state is off, and does nothing but set the
state when it is already on, so that doing it twice is the same as doing it
once; `floppy_motor(FLOPPY_MOTOR_OFF)` only sets the recorded state to off. -/
theorem floppy_motor_edges (s : Floppy) :
    (floppy_motor FLOPPY_MOTOR_ON s).floppy_motor_state = FLOPPY_MOTOR_ON ∧
    (floppy_motor FLOPPY_MOTOR_ON s).trace = s.trace ++
      (if s.floppy_motor_state = FLOPPY_MOTOR_OFF
        then [IoEvent.outb 0x3F2 0x1C, IoEvent.sleep 50] else []) ∧
    floppy_motor FLOPPY_MOTOR_ON (floppy_motor FLOPPY_MOTOR_ON s)
      = floppy_motor FLOPPY_MOTOR_ON s ∧
    floppy_motor FLOPPY_MOTOR_OFF s = { s with floppy_motor_state := FLOPPY_MOTOR_OFF } := by
  by_cases h : s.floppy_motor_state = 0
  · simp [floppy_motor, FLOPPY_MOTOR_ON, FLOPPY_MOTOR_OFF, h, timer_sleep, port_byte_out,
      FLOPPY_BASE, FLOPPY_DOR]
  · simp [floppy_motor, FLOPPY_MOTOR_ON, FLOPPY_MOTOR_OFF, h]

/-- C8: `floppy_do_track` with a valid direction, for any controller.  When
the seek of head 0 returns a failure, `floppy_do_track` returns -1 in the very
state that seek left: the FIFO has received exactly ten seek commands for head
0 (bytes 15, 0, cylinder, then the sense-interrupt command 8), so no seek of
head 1 and no read/write command byte, and the DMA controller has received
nothing.  When the seek of head 0 succeeds and the seek of head 1, which
follows it, returns a failure, `floppy_do_track` returns -1 in the state the
second seek left: the FIFO has received the seek commands of head 0, then ten
seek commands of head 1 (bytes 15, 4, cylinder, 8) and nothing else, and the
DMA controller has received nothing. -/
theorem do_track_seek_failure (hw : Controller) (fuel addr cyl dir : Nat) (s : Floppy)
    (hdir : dir = floppy_dir_read ∨ dir = floppy_dir_write) :
    (∀ (r0 : Int) (t0 : Floppy), floppy_seek hw fuel cyl 0 s = some (r0, t0) → r0 ≠ 0 →
      floppy_do_track hw fuel addr cyl dir s = some (-1, t0) ∧
      dma_writes t0.trace = dma_writes s.trace ∧
      fifo_writes t0.trace = fifo_writes s.trace
        ++ (List.replicate 10 [15, 0, cyl % 256, 8]).flatten) ∧
    (∀ (t0 : Floppy) (r1 : Int) (t1 : Floppy), floppy_seek hw fuel cyl 0 s = some (0, t0) →
      floppy_seek hw fuel cyl 1 t0 = some (r1, t1) → r1 ≠ 0 →
      floppy_do_track hw fuel addr cyl dir s = some (-1, t1) ∧
      dma_writes t1.trace = dma_writes s.trace ∧
      ∃ k, 1 ≤ k ∧ k ≤ 10 ∧ fifo_writes t1.trace = fifo_writes s.trace
        ++ (List.replicate k [15, 0, cyl % 256, 8]).flatten
        ++ (List.replicate 10 [15, 4, cyl % 256, 8]).flatten) := by
  constructor
  · intro r0 t0 h0 hr0
    obtain ⟨_, hd, k, hk, hf⟩ := floppy_seek_inv hw fuel cyl 0 s t0 r0 h0
    have hk10 : k = 10 := by
      rcases hk with ⟨h, _⟩ | ⟨_, h⟩
      · exact absurd h hr0
      · exact h
    subst hk10
    refine ⟨?_, hd, ?_⟩
    · simp only [floppy_do_track, if_pos hdir, h0, Option.some_bind]
      simp [hr0]
    · rw [hf]
      simp [CMD_SEEK, CMD_SENSE_INTERRUPT]
  · intro t0 r1 t1 h0 h1 hr1
    obtain ⟨_, hd0, k0, hk0, hf0⟩ := floppy_seek_inv hw fuel cyl 0 s t0 0 h0
    obtain ⟨_, hd1, k1, hk1, hf1⟩ := floppy_seek_inv hw fuel cyl 1 t0 t1 r1 h1
    have hk10 : k1 = 10 := by
      rcases hk1 with ⟨h, _⟩ | ⟨_, h⟩
      · exact absurd h hr1
      · exact h
    subst hk10
    have hk0b : 1 ≤ k0 ∧ k0 ≤ 10 := by
      rcases hk0 with ⟨_, h⟩ | ⟨h, _⟩
      · exact h
      · exact absurd h (by decide)
    refine ⟨?_, by rw [hd1, hd0], k0, hk0b.1, hk0b.2, ?_⟩
    · simp only [floppy_do_track, if_pos hdir, h0, h1, Option.some_bind]
      simp [hr1]
    · rw [hf1, hf0]
      simp [CMD_SEEK, CMD_SENSE_INTERRUPT]

/-- C8 witness: with the controller `steady 3` the seek of head 0 to cylinder
4 fails; with the controller `once 4` it succeeds at once and the seek of head
1 fails.  In both cases the transfer returns -1 without a command byte and
without a write to the DMA controller. -/
theorem do_track_seek_failure_witness :
    (∃ t0, floppy_do_track (steady 3) 1 0 4 floppy_dir_read idle = some (-1, t0) ∧
      dma_writes t0.trace = dma_writes idle.trace ∧
      fifo_writes t0.trace = fifo_writes idle.trace
        ++ (List.replicate 10 [15, 0, 4 % 256, 8]).flatten) ∧
    (∃ t1, floppy_do_track (once 4) 1 0 4 floppy_dir_write idle = some (-1, t1) ∧
      dma_writes t1.trace = dma_writes idle.trace ∧
      ∃ k, 1 ≤ k ∧ k ≤ 10 ∧ fifo_writes t1.trace = fifo_writes idle.trace
        ++ (List.replicate k [15, 0, 4 % 256, 8]).flatten
        ++ (List.replicate 10 [15, 4, 4 % 256, 8]).flatten) := by
  have hready : ReadyWithin (once 4) 1 := fun n =>
    ⟨0, by decide, by simp [ready, once, FLOPPY_BASE, FLOPPY_MSR]⟩
  obtain ⟨t0, e0, _, _⟩ := floppy_seek_exhaust (steady 3) 1 1 4 0 idle (steady_ready 3)
    (Nat.le_refl 1) (fun j _ => by simp [steady, FLOPPY_BASE, FLOPPY_FIFO])
  obtain ⟨u0, g0, _, f0⟩ := floppy_seek_found (once 4) 1 1 4 0 0 idle hready (Nat.le_refl 1)
    (by decide) (fun j hj => absurd hj (Nat.not_lt_zero j)) (by decide)
  obtain ⟨u1, g1, _, _⟩ := floppy_seek_exhaust (once 4) 1 1 4 1 u0 hready (Nat.le_refl 1)
    (fun j _ => by
      have h2 : fifo_reads u0 + 2 * j + 1 ≠ 1 := by rw [f0]; omega
      simp [once, FLOPPY_BASE, FLOPPY_FIFO, h2])
  exact ⟨⟨t0, (do_track_seek_failure (steady 3) 1 0 4 floppy_dir_read idle
      (Or.inl rfl)).1 (-1) t0 e0 (by decide)⟩,
    ⟨u1, (do_track_seek_failure (once 4) 1 0 4 floppy_dir_write idle
      (Or.inr rfl)).2 u0 (-1) u1 g0 g1 (by decide)⟩⟩

/-- C9: with a controller that sets the ready bit within `d <= fuel` polls and
reports the requested cylinder to the seek of head 0 in pass `k0` and to the
seek of head 1 in pass `k1`, `floppy_do_track` returns 0 with the motor off
after exactly one transfer command of nine bytes and seven result bytes, and
prints nothing.  The same holds, with the same FIFO writes, for every
controller `hw2` that differs from `hw` only in the seven result bytes: result
and final motor state of the two runs are identical.  For any controller at
all, the loop of `floppy_do_track` entered with at least one iteration left
cannot return anything but 0, so the code behind the loop (the message and
`return -1`) is never reached from the 20-iteration loop. -/
theorem do_track_ignores_status (hw hw2 : Controller) (d fuel addr cyl dir k0 k1 : Nat)
    (s : Floppy)
    (hdir : dir = floppy_dir_read ∨ dir = floppy_dir_write)
    (hready : ReadyWithin hw d) (hfuel : d ≤ fuel)
    (hk0 : k0 < 10)
    (hwrong0 : ∀ j, j < k0 →
      hw.answer (FLOPPY_BASE + FLOPPY_FIFO) (fifo_reads s + 2 * j + 1) % 256 ≠ cyl)
    (hright0 : hw.answer (FLOPPY_BASE + FLOPPY_FIFO) (fifo_reads s + 2 * k0 + 1) % 256 = cyl)
    (hk1 : k1 < 10)
    (hwrong1 : ∀ j, j < k1 →
      hw.answer (FLOPPY_BASE + FLOPPY_FIFO) (fifo_reads s + 2 * (k0 + 1) + 2 * j + 1) % 256 ≠ cyl)
    (hright1 :
      hw.answer (FLOPPY_BASE + FLOPPY_FIFO) (fifo_reads s + 2 * (k0 + 1) + 2 * k1 + 1) % 256 = cyl)
    (hmsr : ∀ n, hw2.answer (FLOPPY_BASE + FLOPPY_MSR) n = hw.answer (FLOPPY_BASE + FLOPPY_MSR) n)
    (hfifo : ∀ n, n < fifo_reads s + 2 * (k0 + 1) + 2 * (k1 + 1) ∨
        fifo_reads s + 2 * (k0 + 1) + 2 * (k1 + 1) + 7 ≤ n →
      hw2.answer (FLOPPY_BASE + FLOPPY_FIFO) n = hw.answer (FLOPPY_BASE + FLOPPY_FIFO) n) :
    (∃ t t2, floppy_do_track hw fuel addr cyl dir s = some (0, t) ∧
      floppy_do_track hw2 fuel addr cyl dir s = some (0, t2) ∧
      t.floppy_motor_state = FLOPPY_MOTOR_OFF ∧ t2.floppy_motor_state = FLOPPY_MOTOR_OFF ∧
      fifo_writes t.trace = fifo_writes s.trace
        ++ (List.replicate (k0 + 1) [15, 0, cyl % 256, 8]).flatten
        ++ (List.replicate (k1 + 1) [15, 4, cyl % 256, 8]).flatten
        ++ [if dir = floppy_dir_read then 0xC6 else 0xC5, 0, cyl % 256, 0, 1, 2, 18, 0x1b, 0xff] ∧
      fifo_writes t2.trace = fifo_writes t.trace ∧
      fifo_reads t = fifo_reads s + 2 * (k0 + 1) + 2 * (k1 + 1) + 7 ∧
      fifo_reads t2 = fifo_reads t ∧
      prints t.trace = prints s.trace ∧ prints t2.trace = prints s.trace) ∧
    (∀ (hw3 : Controller) (fuel3 cmd n : Nat) (u t : Floppy) (res : Int),
      track_loop hw3 fuel3 addr cyl dir cmd (n + 1) u = some (res, t) → res = 0) := by
  constructor
  · have hready2 : ReadyWithin hw2 d := by
      intro n
      obtain ⟨j, hj, hr⟩ := hready n
      exact ⟨j, hj, by simpa [ready, hmsr] using hr⟩
    obtain ⟨vs, t, e, _, r, f⟩ := floppy_do_track_ok hw d fuel addr cyl dir k0 k1 s hdir
      hready hfuel hk0 hwrong0 hright0 hk1 hwrong1 hright1
    obtain ⟨vs2, t2, e2, _, r2, f2⟩ := floppy_do_track_ok hw2 d fuel addr cyl dir k0 k1 s hdir
      hready2 hfuel hk0
      (fun j hj => by rw [hfifo _ (Or.inl (by omega))]; exact hwrong0 j hj)
      (by rw [hfifo _ (Or.inl (by omega))]; exact hright0) hk1
      (fun j hj => by rw [hfifo _ (Or.inl (by omega))]; exact hwrong1 j hj)
      (by rw [hfifo _ (Or.inl (by omega))]; exact hright1)
    have hcmd : (if dir = floppy_dir_read then CMD_READ_DATA ||| 0xC0
        else CMD_WRITE_DATA ||| 0xC0) % 256 = if dir = floppy_dir_read then 0xC6 else 0xC5 := by
      split <;> decide
    have hfw : ∀ (h : Controller) (u : Floppy) (ws : List Nat),
        Reaches s u 0 ((motor_on_events s.floppy_motor_state
            ++ seek_trace h cyl 0 (k0 + 1) (fifo_reads s))
          ++ (motor_on_events 0 ++ seek_trace h cyl 1 (k1 + 1) (fifo_reads s + 2 * (k0 + 1)))
          ++ track_events addr cyl dir
            (if dir = floppy_dir_read then CMD_READ_DATA ||| 0xC0 else CMD_WRITE_DATA ||| 0xC0)
            0 ws) →
        fifo_writes u.trace = fifo_writes s.trace
          ++ (List.replicate (k0 + 1) [15, 0, cyl % 256, 8]).flatten
          ++ (List.replicate (k1 + 1) [15, 4, cyl % 256, 8]).flatten
          ++ [if dir = floppy_dir_read then 0xC6 else 0xC5, 0, cyl % 256, 0, 1, 2, 18, 0x1b, 0xff]
        ∧ prints u.trace = prints s.trace := by
      intro h u ws hr
      constructor
      · rw [reaches_fifo_writes s u _ _ hr]
        simp only [fifo_writes_append, (writes_motor_on_events _).1, fifo_writes_seek_trace,
          (writes_track_events _ _ _ _ _ _).1, hcmd]
        simp [CMD_SEEK, CMD_SENSE_INTERRUPT]
      · rw [reaches_prints s u _ _ hr]
        simp only [prints_append, prints_motor_on_events, prints_seek_trace,
          (writes_track_events _ _ _ _ _ _).2.1]
        simp
    refine ⟨t, t2, e, e2, r.1, r2.1, (hfw hw t vs r).1, ?_, f, by rw [f2, f],
      (hfw hw t vs r).2, (hfw hw2 t2 vs2 r2).2⟩
    rw [(hfw hw2 t2 vs2 r2).1, (hfw hw t vs r).1]
  · intro hw3 fuel3 cmd n u t res h
    simp only [track_loop, track_attempt, Option.bind_eq_some] at h
    obtain ⟨_, _, _, _, h⟩ := h
    simp only [Option.some.injEq, Prod.mk.injEq] at h
    exact h.1.symm

/-- C9 witness: the controllers `steady 3` and `noisy` differ only in the
seven result bytes of the transfer (FIFO reads 4 to 10); a read of cylinder 3
returns 0 with the motor off under both. -/
theorem do_track_ignores_status_witness :
    ∃ t t2, floppy_do_track (steady 3) 1 0 3 floppy_dir_read idle = some (0, t) ∧
      floppy_do_track noisy 1 0 3 floppy_dir_read idle = some (0, t2) ∧
      t.floppy_motor_state = FLOPPY_MOTOR_OFF ∧ t2.floppy_motor_state = FLOPPY_MOTOR_OFF ∧
      fifo_writes t2.trace = fifo_writes t.trace := by
  have hidle : fifo_reads idle = 0 := rfl
  obtain ⟨t, t2, h1, h2, h3, h4, _, h6, _⟩ :=
    (do_track_ignores_status (steady 3) noisy 1 1 0 3 floppy_dir_read 0 0 idle (Or.inl rfl)
      (steady_ready 3) (Nat.le_refl 1) (by decide)
      (fun j hj => absurd hj (Nat.not_lt_zero j)) (by decide) (by decide)
      (fun j hj => absurd hj (Nat.not_lt_zero j)) (by decide)
      (fun n => rfl)
      (fun n hn => by
        rw [hidle] at hn
        have h : ¬ (4 ≤ n ∧ n < 11) := by omega
        simp [noisy, steady, FLOPPY_BASE, FLOPPY_FIFO, h])).1
  exact ⟨t, t2, h1, h2, h3, h4, h6⟩

/-! ## File system claims, second part -/

/-- C11: when the lookup maps the name to a track whose index is at most 255
(the drive can seek it: the cylinder number the controller reports back is one
byte) and the `data_length` stored on that track is within the buffer
capacity, `print_file_command` returns 0 and sends to the screen exactly
`data_length` bytes, namely the bytes `data[0 .. data_length)` of that track
in order, followed by the newline; a zero byte among them is sent like any
other byte. -/
theorem print_file_outputs_data (cmd filename : List Byte) (rest : List (List Byte)) (s : Fs)
    (track : Nat) (hfind : (find filename s).1 = some track) (htrack : track ≤ 255)
    (hcap : data_offset + data_length (s.medium track) ≤ FLOPPY_DMA_LENGTH) :
    (print_file_command (cmd :: filename :: rest) s).1 = 0 ∧
    (print_file_command (cmd :: filename :: rest) s).2.screen
      = s.screen ++ (List.range (data_length (s.medium track))).map
          (fun j => s.medium track (data_offset + j)) ++ [10] := by
  have hlt : track < 256 := by omega
  have hbuf : ∀ j, j < FLOPPY_DMA_LENGTH →
      (floppy_read_buffer track (floppy_read_buffer 0 s)).floppy_dmabuf j = s.medium track j := by
    intro j hj
    simp [floppy_read_buffer_low, hlt, hj]
  have hscreen : (floppy_read_buffer track (floppy_read_buffer 0 s)).screen = s.screen := by
    rw [floppy_read_buffer_screen _ _ hlt, floppy_read_buffer_screen _ _ (by decide)]
  have hdl : data_length (floppy_read_buffer track (floppy_read_buffer 0 s)).floppy_dmabuf
      = data_length (s.medium track) := by
    simp only [data_length, hbuf 60 (by decide), hbuf 61 (by decide), hbuf 62 (by decide),
      hbuf 63 (by decide)]
  have hnl : cstr (ascii "\n") = [10] := by decide
  rw [print_file_found cmd filename rest s track hfind, hdl]
  refine ⟨rfl, ?_⟩
  have hmap : (List.range (data_length (s.medium track))).map (fun j =>
      (floppy_read_buffer track (floppy_read_buffer 0 s)).floppy_dmabuf (data_offset + j))
      = (List.range (data_length (s.medium track))).map
          (fun j => s.medium track (data_offset + j)) := by
    apply List.map_congr_left
    intro j hj
    have hj2 : j < data_length (s.medium track) := List.mem_range.1 hj
    exact hbuf _ (by omega)
  simp only [print, hmap, hnl, hscreen]

set_option maxRecDepth 4096 in
/-- C11 witness: the file `f` of the medium `holed` has the data bytes `a`,
zero, `b`; all three are printed. -/
theorem print_file_outputs_data_witness :
    (print_file_command (ascii "print" :: ascii "f" :: []) holed).1 = 0 ∧
    (print_file_command (ascii "print" :: ascii "f" :: []) holed).2.screen
      = holed.screen ++ (List.range (data_length (holed.medium 1))).map
          (fun j => holed.medium 1 (data_offset + j)) ++ [10] ∧
    (print_file_command (ascii "print" :: ascii "f" :: []) holed).2.screen = [97, 0, 98, 10] :=
  ⟨(print_file_outputs_data (ascii "print") (ascii "f") [] holed 1 (by decide) (by decide)
      (by decide)).1,
   (print_file_outputs_data (ascii "print") (ascii "f") [] holed 1 (by decide) (by decide)
      (by decide)).2,
   by decide⟩

/-- On a well-formed record `create_file` changes no slot that is in use. -/
theorem create_file_keeps_slots (filename data : List Byte) (s : Fs)
    (names : List (List Byte)) (hwf : WellFormed (s.medium 0) names)
    (hlen : names.length < MAX_FILE_COUNT) (hn : IsName filename) (i j : Nat)
    (hi : i < names.length) (hj : j < MAX_FILENAME_LENGTH) :
    (create_file filename data s).medium 0 (file_names i + j) = s.medium 0 (file_names i + j) := by
  have hwf1 := create_file_wellformed filename data s names hwf hlen hn
  have hi2 : i < MAX_FILE_COUNT := by omega
  rw [hwf1.2.2 i hi2 j hj, hwf.2.2 i hi2 j hj]
  congr 1
  simp [List.getD_eq_getElem?_getD, List.getElem?_append_left hi]

/-- C12: starting from a medium whose track 0 is zero-filled, after any run of
at most 119 `create_file` calls with names of at most 59 non-zero characters,
`file_count` on track 0 is the number of calls; for every call `i` slot `i`
holds its name followed only by zero bytes and equals the name field of the
file stored on track `i + 1`; every slot from `file_count` on is all zero.  A
further `create_file` (while fewer than 119 files exist) keeps this shape with
its name appended, and changes no slot that was in use. -/
theorem directory_invariant (s : Fs) (files : List (List Byte × List Byte))
    (hempty : ∀ j, j < FLOPPY_DMA_LENGTH → s.medium 0 j = 0)
    (hN : files.length ≤ MAX_FILE_COUNT) (hnames : ∀ f ∈ files, IsName f.1) :
    file_count ((create_all files s).medium 0) = files.length ∧
    (∀ i name data, files[i]? = some (name, data) → ∀ j, j < MAX_FILENAME_LENGTH →
      (create_all files s).medium 0 (file_names i + j) = name.getD j 0 ∧
      (create_all files s).medium 0 (file_names i + j) = (create_all files s).medium (i + 1) j) ∧
    (∀ i, files.length ≤ i → i < MAX_FILE_COUNT → ∀ j, j < MAX_FILENAME_LENGTH →
      (create_all files s).medium 0 (file_names i + j) = 0) ∧
    (∀ name data, IsName name → files.length < MAX_FILE_COUNT →
      WellFormed ((create_file name data (create_all files s)).medium 0)
        (files.map Prod.fst ++ [name]) ∧
      ∀ i, i < files.length → ∀ j, j < MAX_FILENAME_LENGTH →
        (create_file name data (create_all files s)).medium 0 (file_names i + j)
          = (create_all files s).medium 0 (file_names i + j)) := by
  obtain ⟨hwf, _, himg, _⟩ := create_all_spec files s [] (wellFormed_empty _ hempty)
    (by simpa using hN) hnames
  simp only [List.nil_append, List.length_nil, Nat.zero_add] at hwf himg
  have hN2 : files.length ≤ 119 := hN
  refine ⟨by simpa using hwf.1, ?_, ?_, ?_⟩
  · intro i name data hi j hj
    obtain ⟨hlt, hget⟩ := List.getElem?_eq_some.1 hi
    have hlt2 : i < (files.map Prod.fst).length := by simpa using hlt
    have hname : (files.map Prod.fst).getD i [] = name := by
      rw [List.getD_eq_getElem _ _ hlt2, List.getElem_map, hget]
    have hslot : (create_all files s).medium 0 (file_names i + j) = name.getD j 0 := by
      rw [hwf.2.2 i (by simp only [MAX_FILE_COUNT]; omega) j hj, hname]
    have hj2 : j < 60 := hj
    refine ⟨hslot, ?_⟩
    rw [hslot, himg i (name, data) hi j (by simp only [FLOPPY_DMA_LENGTH]; omega),
      file_image_name name data (hnames (name, data) (hget ▸ List.getElem_mem hlt)) j hj]
  · intro i hi hi2 j hj
    have e : (files.map Prod.fst).getD i [] = [] :=
      List.getD_eq_default _ _ (by simpa using hi)
    rw [hwf.2.2 i hi2 j hj, e]
    rfl
  · intro name data hn hlt
    refine ⟨create_file_wellformed name data _ _ hwf (by simpa using hlt) hn, ?_⟩
    intro i hi j hj
    exact create_file_keeps_slots name data _ _ hwf (by simpa using hlt) hn i j
      (by simpa using hi) hj

set_option maxRecDepth 4096 in
/-- C12 witness: the directory after `create("a","1")` and `create("b","2")` on
a zero-filled medium. -/
theorem directory_invariant_witness :
    file_count ((create_all [(ascii "a", ascii "1"), (ascii "b", ascii "2")] blank).medium 0)
      = [(ascii "a", ascii "1"), (ascii "b", ascii "2")].length :=
  (directory_invariant blank [(ascii "a", ascii "1"), (ascii "b", ascii "2")]
    (fun _ _ => rfl) (by decide) (by decide)).1

/-- C13: `create_file` does not check the file count.  On a Directory Record
with `file_count = 119` the call goes through: the name is copied to slot
index 119, which starts at offset 7142, the size of the 119-slot record;
`file_count` becomes 120; the transfers are the read and the write of track 0
and the write of track 120, which receives the file image. -/
theorem create_file_past_capacity (filename data : List Byte) (s : Fs)
    (hfull : file_count (s.medium 0) = MAX_FILE_COUNT) (hn : IsName filename) :
    file_count ((create_file filename data s).medium 0) = 120 ∧
    file_names MAX_FILE_COUNT = 2 + MAX_FILE_COUNT * MAX_FILENAME_LENGTH ∧
    (∀ j, j < filename.length →
      (create_file filename data s).medium 0 (file_names MAX_FILE_COUNT + j)
        = filename.getD j 0) ∧
    (create_file filename data s).ops
      = s.ops ++ [TrackOp.read 0, TrackOp.write 0, TrackOp.write 120] ∧
    (∀ j, j < FLOPPY_DMA_LENGTH →
      (create_file filename data s).medium 120 j = file_image filename data j) := by
  have hk : (file_count (s.medium 0) + 1) % 65536 = 120 := by rw [hfull]; rfl
  have hk0 : (file_count (s.medium 0) + 1) % 65536 ≠ 0 := by rw [hk]; decide
  have hnl : filename.length < 60 := hn.1
  have hlow : (file_count (s.medium 0) + 1) % 65536 < 256 := by rw [hk]; decide
  refine ⟨?_, by simp [file_names, MAX_FILE_COUNT, MAX_FILENAME_LENGTH], ?_,
    by rw [create_file_ops _ _ _ hlow, hk], ?_⟩
  · have e0 := create_file_record filename data s 0 hk0 (by decide)
    have e1 := create_file_record filename data s 1 hk0 (by decide)
    have e : file_count ((create_file filename data s).medium 0)
        = file_count (set_file_count (string_copy filename (file_names (file_count (s.medium 0)))
          (floppy_read_buffer 0 s).floppy_dmabuf) (file_count (s.medium 0) + 1)) := by
      simp only [file_count, e0, e1]
    rw [e, file_count_set, hk]
  · intro j hj
    have hoff : file_names MAX_FILE_COUNT + j < FLOPPY_DMA_LENGTH := by
      simp only [file_names, MAX_FILENAME_LENGTH, MAX_FILE_COUNT, FLOPPY_DMA_LENGTH]; omega
    rw [create_file_record _ _ _ _ hk0 hoff,
      set_file_count_apply _ _ _ (by simp only [file_names]; omega),
      string_copy_apply filename hn.2, hfull]
    have h1 : file_names MAX_FILE_COUNT ≤ file_names MAX_FILE_COUNT + j
        ∧ file_names MAX_FILE_COUNT + j < file_names MAX_FILE_COUNT + filename.length := by
      omega
    have e : file_names MAX_FILE_COUNT + j - file_names MAX_FILE_COUNT = j := by omega
    rw [if_pos h1, e]
  · intro j hj
    have := create_file_track filename data s j hj hlow
    rw [hk] at this
    exact this

set_option maxRecDepth 4096 in
/-- C13 witness: `create("x","1")` on the medium `full`, whose count is 119. -/
theorem create_file_past_capacity_witness :
    file_count ((create_file (ascii "x") (ascii "1") full).medium 0) = 120 ∧
    (create_file (ascii "x") (ascii "1") full).ops
      = full.ops ++ [TrackOp.read 0, TrackOp.write 0, TrackOp.write 120] :=
  ⟨(create_file_past_capacity (ascii "x") (ascii "1") full (by decide) (by decide)).1,
   (create_file_past_capacity (ascii "x") (ascii "1") full (by decide) (by decide)).2.2.2.1⟩

/-- Beyond the bound of C18: on a Directory Record with 255 or more files (and
a count that does not wrap) the content track of `create_file` has an index
above 255; the track keeps its old content and the message of the exhausted
seek is printed. -/
theorem create_file_beyond_byte (filename data : List Byte) (s : Fs)
    (hcount : 255 ≤ file_count (s.medium 0)) (hwrap : file_count (s.medium 0) < 65535) :
    (create_file filename data s).medium (file_count (s.medium 0) + 1)
      = s.medium (file_count (s.medium 0) + 1) ∧
    (create_file filename data s).screen
      = s.screen ++ ascii "floppy_seek: 10 retries exhausted\n" := by
  have hk : (file_count (s.medium 0) + 1) % 65536 = file_count (s.medium 0) + 1 := by omega
  have hhigh : ¬ (file_count (s.medium 0) + 1) % 65536 < 256 := by omega
  have h0 : file_count (s.medium 0) + 1 ≠ 0 := by omega
  have hmsg : cstr (ascii "floppy_seek: 10 retries exhausted\n")
      = ascii "floppy_seek: 10 retries exhausted\n" := by decide
  simp only [create_file, FILES_RECORD_INDEX, file_count_set, file_count_copy, file_count_read]
  rw [floppy_write_buffer_low 0 _ (by decide), floppy_write_buffer_high _ _ hhigh]
  constructor
  · simp [seek_failure, print, floppy_clear_buffer, floppy_read_buffer_low 0 s (by decide), h0]
  · simp [seek_failure, print, floppy_clear_buffer, floppy_read_buffer_low 0 s (by decide), hmsg]

/-- C18: the Directory Record holds fewer than 255 files, so that the index
`file_count + 1` of the content track is at most 255 and the drive can seek it.
Then after `create_file` with a name of at most 59 non-zero characters and a
content without zero bytes (within the capacity or not), the 16384 bytes of
the content track are: the name at bytes 0..59 padded with zeros,
`len(content) + 1` as a little-endian 32-bit value at bytes 60..63, the content
from byte 64 on, and zero in every remaining byte. -/
theorem create_file_track_layout (filename data : List Byte) (s : Fs)
    (hn : IsName filename) (hd : ∀ c ∈ data, c ≠ 0)
    (hcount : file_count (s.medium 0) < 255) (j : Nat) (hj : j < FLOPPY_DMA_LENGTH) :
    (create_file filename data s).medium (file_count (s.medium 0) + 1) j =
      if j < 60 then filename.getD j 0
      else if j = 60 then byte (data.length + 1)
      else if j = 61 then byte ((data.length + 1) / 256)
      else if j = 62 then byte ((data.length + 1) / 65536)
      else if j = 63 then byte ((data.length + 1) / 16777216)
      else if j < 64 + data.length then data.getD (j - 64) 0
      else 0 := by
  have hk : (file_count (s.medium 0) + 1) % 65536 = file_count (s.medium 0) + 1 := by omega
  have htr := create_file_track filename data s j hj (by omega)
  rw [hk] at htr
  rw [htr]
  exact file_image_layout filename data hn hd j

set_option maxRecDepth 4096 in
/-- C18 witness: byte 60 of the content track after `create("log","hello")` on
a zero-filled medium is 6. -/
theorem create_file_track_layout_witness :
    (create_file (ascii "log") (ascii "hello") blank).medium
        (file_count (blank.medium 0) + 1) 60 = 6 :=
  create_file_track_layout (ascii "log") (ascii "hello") blank (by decide) (by decide)
    (by decide) 60 (by decide)

/-! ## Controller driver claims, second part -/

/-- C19: with a controller that sets the ready bit within `d <= fuel` polls,
one pass of the loop of `floppy_do_track` (entered with the command byte that
`floppy_do_track` computes) writes exactly nine bytes to the data FIFO, in this
order: 0xC6 for a read or 0xC5 for a write, 0, the low eight bits of the
cylinder, 0, 1, 2, 18, 0x1B, 0xFF; these follow the motor, DMA and settle
events and are followed by the completion wait and then by exactly seven reads
of the FIFO. -/
theorem transfer_command_bytes (hw : Controller) (d fuel addr cyl dir : Nat) (s : Floppy)
    (hdir : dir = floppy_dir_read ∨ dir = floppy_dir_write)
    (hready : ReadyWithin hw d) (hfuel : d ≤ fuel) :
    ∃ (vs : List Nat) (t : Floppy), track_attempt hw fuel addr cyl dir
        (if dir = floppy_dir_read then CMD_READ_DATA ||| 0xC0 else CMD_WRITE_DATA ||| 0xC0) s
        = some (0, t) ∧
      vs.length = 7 ∧
      fifo_writes t.trace = fifo_writes s.trace
        ++ [if dir = floppy_dir_read then 0xC6 else 0xC5, 0, cyl % 256, 0, 1, 2, 18, 0x1B, 0xFF] ∧
      fifo_reads t = fifo_reads s + 7 ∧
      quiet t.trace = quiet s.trace
        ++ (motor_on_events s.floppy_motor_state ++ dma_init_events addr dir
          ++ [IoEvent.sleep 10])
        ++ [if dir = floppy_dir_read then 0xC6 else 0xC5, 0, cyl % 256, 0, 1, 2, 18, 0x1B,
            0xFF].map (IoEvent.outb 0x3F5)
        ++ [IoEvent.sleep 50]
        ++ vs.map (IoEvent.inb 0x3F5) := by
  obtain ⟨vs, t, e, hl, r, f⟩ := track_attempt_spec hw d fuel addr cyl dir
    (if dir = floppy_dir_read then CMD_READ_DATA ||| 0xC0 else CMD_WRITE_DATA ||| 0xC0)
    s hready hfuel hdir
  have hcmd : (if dir = floppy_dir_read then CMD_READ_DATA ||| 0xC0
      else CMD_WRITE_DATA ||| 0xC0) % 256 = if dir = floppy_dir_read then 0xC6 else 0xC5 := by
    split <;> decide
  refine ⟨vs, t, e, hl, ?_, f, ?_⟩
  · rw [reaches_fifo_writes s t _ _ r, (writes_track_events _ _ _ _ _ _).1, hcmd]
  · rw [r.2]
    simp only [track_events, List.map_cons, List.map_nil, hcmd, List.append_assoc]
    simp [FLOPPY_BASE, FLOPPY_FIFO]

/-- C19 witness: a read of cylinder 3 with the controller `steady 3`. -/
theorem transfer_command_bytes_witness :
    ∃ (vs : List Nat) (t : Floppy), track_attempt (steady 3) 1 0 3 floppy_dir_read
        (if floppy_dir_read = floppy_dir_read then CMD_READ_DATA ||| 0xC0
          else CMD_WRITE_DATA ||| 0xC0) idle = some (0, t) ∧
      vs.length = 7 ∧
      fifo_writes t.trace = fifo_writes idle.trace
        ++ [if floppy_dir_read = floppy_dir_read then 0xC6 else 0xC5, 0, 3 % 256, 0, 1, 2, 18,
            0x1B, 0xFF] ∧
      fifo_reads t = fifo_reads idle + 7 := by
  obtain ⟨vs, t, h1, h2, h3, h4, _⟩ := transfer_command_bytes (steady 3) 1 1 0 3 floppy_dir_read
    idle (Or.inl rfl) (steady_ready 3) (Nat.le_refl 1)
  exact ⟨vs, t, h1, h2, h3, h4⟩

/-- C20: `floppy_dma_init` for a read or a write masks channel 2 (0x06 to port
0x0A), resets the flip-flop (0xFF to port 0x0C), writes address byte 0 and
byte 1 to port 0x04 and byte 2 to the page register 0x81, resets the flip-flop
again, writes the count `FLOPPY_DMA_LENGTH - 1 = 0x3FFF` to port 0x05 as 0xFF
then 0x3F, writes the mode (0x46 for a read, 0x4A for a write) to port 0x0B
and unmasks channel 2 (0x02 to port 0x0A), in this order and nothing else.
For any other direction it writes to no port and only prints a message. -/
theorem floppy_dma_init_ports (addr dir : Nat) (s : Floppy) :
    (floppy_dma_init addr dir s).floppy_motor_state = s.floppy_motor_state ∧
    (floppy_dma_init addr dir s).trace = s.trace ++
      (if dir = floppy_dir_read ∨ dir = floppy_dir_write then
        [IoEvent.outb 0x0a 0x06,
         IoEvent.outb 0x0c 0xff,
         IoEvent.outb 0x04 (addr % 256), IoEvent.outb 0x04 (addr / 256 % 256),
         IoEvent.outb 0x81 (addr / 65536 % 256),
         IoEvent.outb 0x0c 0xff,
         IoEvent.outb 0x05 0xff, IoEvent.outb 0x05 0x3f,
         IoEvent.outb 0x0b (if dir = floppy_dir_read then 0x46 else 0x4a),
         IoEvent.outb 0x0a 0x02]
      else [IoEvent.print "floppy_dma_init: invalid direction"]) ∧
    FLOPPY_DMA_LENGTH - 1 = 0x3FFF ∧
    (FLOPPY_DMA_LENGTH - 1) % 256 = 0xFF ∧ (FLOPPY_DMA_LENGTH - 1) / 256 % 256 = 0x3F := by
  refine ⟨?_, ?_, by decide, by decide, by decide⟩
  · by_cases hdir : dir = floppy_dir_read ∨ dir = floppy_dir_write
    · simp only [floppy_dma_init, if_pos hdir, port_byte_out]
    · simp only [floppy_dma_init, if_neg hdir, floppy_print]
  · by_cases hdir : dir = floppy_dir_read ∨ dir = floppy_dir_write
    · simp only [floppy_dma_init, if_pos hdir, port_byte_out, FLOPPY_DMA_LENGTH]
      simp
      split <;> decide
    · simp only [floppy_dma_init, if_neg hdir, floppy_print]

/-! ## Memory and string claims -/

theorem memcpy_pointer (mem : Nat → Byte) (destination source count : Nat) :
    (memcpy mem destination source count).1 = destination + count := by
  induction count generalizing mem destination source with
  | zero => rfl
  | succ n ih =>
    simp only [memcpy]
    rw [ih]
    omega

/-- A forward copy to a lower address moves the source bytes as they were. -/
theorem memcpy_down (mem : Nat → Byte) (destination source count : Nat)
    (h : destination < source) (a : Nat) :
    (memcpy mem destination source count).2 a =
      if destination ≤ a ∧ a < destination + count then mem (source + (a - destination))
      else mem a := by
  induction count generalizing mem destination source with
  | zero =>
    have h1 : ¬ (destination ≤ a ∧ a < destination + 0) := by omega
    simp only [memcpy, if_neg h1]
  | succ n ih =>
    simp only [memcpy]
    rw [ih _ _ _ (by omega)]
    by_cases h1 : destination + 1 ≤ a ∧ a < destination + 1 + n
    · have h2 : destination ≤ a ∧ a < destination + (n + 1) := by omega
      have h3 : source + 1 + (a - (destination + 1)) ≠ destination := by omega
      have h4 : source + 1 + (a - (destination + 1)) = source + (a - destination) := by omega
      rw [if_pos h1, if_pos h2]
      simp only [poke, if_neg h3]
      rw [h4]
    · rw [if_neg h1]
      by_cases h5 : a = destination
      · subst h5
        have h2 : a ≤ a ∧ a < a + (n + 1) := by omega
        rw [if_pos h2]
        simp [poke]
      · have h2 : ¬ (destination ≤ a ∧ a < destination + (n + 1)) := by omega
        rw [if_neg h2]
        simp [poke, h5]

/-- A non-overlapping copy leaves the source bytes in the destination. -/
theorem memcpy_disjoint (mem : Nat → Byte) (destination source count : Nat)
    (h : destination + count ≤ source ∨ source + count ≤ destination) (j : Nat)
    (hj : j < count) :
    (memcpy mem destination source count).2 (destination + j) = mem (source + j) := by
  induction count generalizing mem destination source j with
  | zero => omega
  | succ n ih =>
    simp only [memcpy]
    cases j with
    | zero =>
      have hfix : ∀ (m : Nat → Byte) (d s k : Nat) (a : Nat), a < d →
          (memcpy m d s k).2 a = m a := by
        intro m d s k
        induction k generalizing m d s with
        | zero => intro a _; rfl
        | succ k ihk =>
          intro a ha
          simp only [memcpy]
          rw [ihk _ _ _ a (by omega)]
          have : a ≠ d := by omega
          simp [poke, this]
      rw [Nat.add_zero, hfix _ _ _ _ _ (by omega)]
      simp [poke]
    | succ j =>
      have e1 : destination + (j + 1) = destination + 1 + j := by omega
      have e2 : source + (j + 1) = source + 1 + j := by omega
      rw [e1, e2, ih _ _ _ (by omega) j (by omega)]
      have : source + 1 + j ≠ destination := by omega
      simp [poke, this]

theorem strlen_at_spec (mem : Nat → Byte) (p : Nat) (s : List Byte)
    (hs : ∀ x ∈ s, x ≠ 0) (hmem : ∀ j, j ≤ s.length → mem (p + j) = s.getD j 0)
    (gap : Nat) :
    ∀ (fuel count : Nat), count + gap = s.length → gap < fuel →
      strlen_at mem p fuel count = some s.length := by
  induction gap with
  | zero =>
    intro fuel count hc hf
    cases fuel with
    | zero => omega
    | succ f =>
      have h0 : mem (p + count) = 0 := by
        rw [hmem count (by omega), List.getD_eq_default _ _ (by omega)]
      simp only [strlen_at, h0, ne_eq, not_true_eq_false, if_false]
      rw [← hc, Nat.add_zero]
  | succ g ih =>
    intro fuel count hc hf
    cases fuel with
    | zero => omega
    | succ f =>
      have hlt : count < s.length := by omega
      have h0 : mem (p + count) ≠ 0 := by
        rw [hmem count (by omega), List.getD_eq_getElem _ _ hlt]
        exact hs _ (List.getElem_mem hlt)
      simp only [strlen_at, h0, ne_eq, not_false_eq_true, if_true]
      exact ih f (count + 1) (by omega) (by omega)

theorem collapse_runs_length_le (c : Byte) (prev : Option Byte) (l : List Byte) :
    (collapse_runs c prev l).length ≤ l.length := by
  induction l generalizing prev with
  | nil => simp [collapse_runs]
  | cons x r ih =>
    simp only [collapse_runs]
    split
    · have := ih (some x)
      simp only [List.length_cons]
      omega
    · have := ih (some x)
      simp only [List.length_cons]
      omega

/-- The loop of `reduce_consecutive_occurrences` standing at a character `x`
that is followed by `rest` and the terminator. -/
theorem reduce_loop_spec (c : Byte) (p : Nat) (rest : List Byte) :
    ∀ (x : Byte) (fuel : Nat) (mem : Nat → Byte) (i : Nat),
      x ≠ 0 → (∀ y ∈ rest, y ≠ 0) → mem (p + i) = x →
      (∀ j, j ≤ rest.length → mem (p + i + 1 + j) = rest.getD j 0) →
      rest.length + 2 ≤ fuel →
      reduce_loop c p fuel mem i (i + 1 + rest.length) = some (fun a =>
        if p + i + 1 ≤ a ∧ a ≤ p + i + 1 + rest.length then
          (collapse_runs c (some x) rest).getD (a - (p + i + 1)) 0
        else mem a) := by
  induction rest with
  | nil =>
    intro x fuel mem i hx _ hmx hmem hfuel
    have hterm : mem (p + i + 1) = 0 := by simpa using hmem 0 (Nat.le_refl _)
    obtain ⟨f, rfl⟩ : ∃ f, fuel = f + 2 := ⟨fuel - 2, by simp at hfuel; omega⟩
    have hcond : ¬ (mem (p + i) = c ∧ mem (p + i + 1) = c) := by
      rintro ⟨h1, h2⟩
      rw [hmx] at h1
      rw [hterm] at h2
      exact hx (h1.trans h2.symm)
    have hx2 : mem (p + i) ≠ 0 := by rw [hmx]; exact hx
    have hterm2 : mem (p + (i + 1)) = 0 := hterm
    simp only [reduce_loop, hx2, ne_eq, not_false_eq_true, if_true, hcond, if_false, hterm2,
      not_true_eq_false]
    congr 1
    funext a
    by_cases h : p + i + 1 ≤ a ∧ a ≤ p + i + 1 + ([] : List Byte).length
    · have ha : a = p + i + 1 := by simp at h; omega
      rw [if_pos h, ha, hterm]
      simp [collapse_runs]
    · rw [if_neg h]
  | cons y r ih =>
    intro x fuel mem i hx hrest hmx hmem hfuel
    have hy : y ≠ 0 := hrest y (List.mem_cons_self _ _)
    have hr : ∀ z ∈ r, z ≠ 0 := fun z hz => hrest z (List.mem_cons_of_mem _ hz)
    obtain ⟨f, rfl⟩ : ∃ f, fuel = f + 1 := ⟨fuel - 1, by simp at hfuel; omega⟩
    have hfuel2 : r.length + 2 ≤ f := by simp at hfuel; omega
    have hmy : mem (p + i + 1) = y := by simpa using hmem 0 (Nat.zero_le _)
    have hx2 : mem (p + i) ≠ 0 := by rw [hmx]; exact hx
    have hnext : ∀ j, j ≤ r.length → mem (p + i + 2 + j) = r.getD j 0 := by
      intro j hj
      have := hmem (j + 1) (by simp; omega)
      rw [List.getD_cons_succ] at this
      rw [← this]
      congr 1
      omega
    by_cases hcond : x = c ∧ y = c
    · have hcode : mem (p + i) = c ∧ mem (p + i + 1) = c := by
        rw [hmx, hmy]; exact hcond
      have hcount : i + 1 + (y :: r).length - i - 1 = r.length + 1 := by
        simp only [List.length_cons]; omega
      have hlast : i + 1 + (y :: r).length - 1 = i + 1 + r.length := by
        simp only [List.length_cons]; omega
      simp only [reduce_loop]
      rw [if_pos hx2, if_pos hcode, hcount, hlast]
      have hm1 : ∀ a, (memcpy mem (p + i + 1) (p + i + 2) (r.length + 1)).2 a =
          if p + i + 1 ≤ a ∧ a < p + i + 1 + (r.length + 1) then mem (p + i + 2 + (a - (p + i + 1)))
          else mem a := fun a => memcpy_down mem _ _ _ (by omega) a
      rw [ih x f _ i hx hr (by
          rw [hm1]
          have : ¬ (p + i + 1 ≤ p + i ∧ p + i < p + i + 1 + (r.length + 1)) := by omega
          rw [if_neg this, hmx]) (by
          intro j hj
          rw [hm1]
          have h1 : p + i + 1 ≤ p + i + 1 + j ∧ p + i + 1 + j < p + i + 1 + (r.length + 1) := by
            omega
          have h2 : p + i + 1 + j - (p + i + 1) = j := by omega
          rw [if_pos h1, h2]
          exact hnext j hj) hfuel2]
      congr 1
      funext a
      have hcol : collapse_runs c (some x) (y :: r) = collapse_runs c (some x) r := by
        have hxy : x = y := hcond.1.trans hcond.2.symm
        simp only [collapse_runs]
        rw [if_pos ⟨hcond.2, by rw [hcond.1]⟩, hxy]
      rw [hcol]
      by_cases h1 : p + i + 1 ≤ a ∧ a ≤ p + i + 1 + r.length
      · have h2 : p + i + 1 ≤ a ∧ a ≤ p + i + 1 + (y :: r).length := by
          simp only [List.length_cons]; omega
        rw [if_pos h1, if_pos h2]
      · rw [if_neg h1, hm1]
        by_cases h3 : a = p + i + 1 + r.length + 1
        · have h2 : p + i + 1 ≤ a ∧ a ≤ p + i + 1 + (y :: r).length := by
            simp only [List.length_cons]; omega
          have h4 : ¬ (p + i + 1 ≤ a ∧ a < p + i + 1 + (r.length + 1)) := by omega
          have hlen := collapse_runs_length_le c (some x) r
          rw [if_pos h2, if_neg h4, List.getD_eq_default _ _ (by omega), h3]
          have := hmem (r.length + 1) (by simp)
          rw [List.getD_eq_default _ _ (by simp)] at this
          rw [← this]
          congr 1
        · have h2 : ¬ (p + i + 1 ≤ a ∧ a ≤ p + i + 1 + (y :: r).length) := by
            simp only [List.length_cons]; omega
          have h4 : ¬ (p + i + 1 ≤ a ∧ a < p + i + 1 + (r.length + 1)) := by omega
          rw [if_neg h2, if_neg h4]
    · have hcode : ¬ (mem (p + i) = c ∧ mem (p + i + 1) = c) := by
        rw [hmx, hmy]; exact hcond
      simp only [reduce_loop]
      rw [if_pos hx2, if_neg hcode]
      have hL : i + 1 + (y :: r).length = i + 1 + 1 + r.length := by
        simp only [List.length_cons]; omega
      rw [hL, ih y f mem (i + 1) hy hr hmy (by
          intro j hj
          exact hnext j hj) hfuel2]
      congr 1
      funext a
      have hcol : collapse_runs c (some x) (y :: r) = y :: collapse_runs c (some y) r := by
        simp only [collapse_runs]
        rw [if_neg (by
          rintro ⟨h1, h2⟩
          exact hcond ⟨(Option.some.inj h2), h1⟩)]
      rw [hcol]
      by_cases h1 : p + (i + 1) + 1 ≤ a ∧ a ≤ p + (i + 1) + 1 + r.length
      · have h2 : p + i + 1 ≤ a ∧ a ≤ p + i + 1 + (y :: r).length := by
          simp only [List.length_cons]; omega
        have h3 : a - (p + i + 1) = (a - (p + (i + 1) + 1)) + 1 := by omega
        rw [if_pos h1, if_pos h2, h3, List.getD_cons_succ]
      · rw [if_neg h1]
        by_cases h3 : a = p + i + 1
        · have h2 : p + i + 1 ≤ a ∧ a ≤ p + i + 1 + (y :: r).length := by
            simp only [List.length_cons]; omega
          rw [if_pos h2, h3, hmy]
          simp
        · have h2 : ¬ (p + i + 1 ≤ a ∧ a ≤ p + i + 1 + (y :: r).length) := by
            simp only [List.length_cons]; omega
          rw [if_neg h2]

/-- `reduce_consecutive_occurrences` on a string `s` lying at address `p`. -/
theorem reduce_spec (c : Byte) (p fuel : Nat) (mem : Nat → Byte) (s : List Byte)
    (hs : ∀ x ∈ s, x ≠ 0) (hmem : ∀ j, j ≤ s.length → mem (p + j) = s.getD j 0)
    (hfuel : s.length < fuel) :
    reduce_consecutive_occurrences fuel mem p c = some (fun a =>
      if p ≤ a ∧ a ≤ p + s.length then (collapse_runs c none s).getD (a - p) 0 else mem a) := by
  have hlen := strlen_at_spec mem p s hs hmem s.length fuel 0 (by omega) hfuel
  simp only [reduce_consecutive_occurrences, hlen, Option.some_bind]
  cases s with
  | nil =>
    obtain ⟨f, rfl⟩ : ∃ f, fuel = f + 1 := ⟨fuel - 1, by simp at hfuel; omega⟩
    have h0 : mem (p + 0) = 0 := by simpa using hmem 0 (Nat.le_refl _)
    simp only [reduce_loop, List.length_nil]
    rw [if_neg (by rw [h0]; simp)]
    congr 1
    funext a
    by_cases h : p ≤ a ∧ a ≤ p + 0
    · have ha : a = p + 0 := by omega
      rw [if_pos h, ha, h0]
      simp [collapse_runs]
    · rw [if_neg h]
  | cons x rest =>
    have hx : x ≠ 0 := hs x (List.mem_cons_self _ _)
    have hrest : ∀ y ∈ rest, y ≠ 0 := fun y hy => hs y (List.mem_cons_of_mem _ hy)
    have hmx : mem (p + 0) = x := by simpa using hmem 0 (Nat.zero_le _)
    have hL : (x :: rest).length = 0 + 1 + rest.length := by
      simp only [List.length_cons]; omega
    rw [hL, reduce_loop_spec c p rest x fuel mem 0 hx hrest hmx (by
        intro j hj
        have := hmem (j + 1) (by simp; omega)
        rw [List.getD_cons_succ] at this
        rw [← this]
        congr 1
        omega) (by simp only [List.length_cons] at hfuel; omega)]
    congr 1
    funext a
    have hcol : collapse_runs c none (x :: rest) = x :: collapse_runs c (some x) rest := by
      simp [collapse_runs]
    rw [hcol]
    by_cases h1 : p + 0 + 1 ≤ a ∧ a ≤ p + 0 + 1 + rest.length
    · have h2 : p ≤ a ∧ a ≤ p + (0 + 1 + rest.length) := by omega
      have h3 : a - p = (a - (p + 0 + 1)) + 1 := by omega
      rw [if_pos h1, if_pos h2, h3, List.getD_cons_succ]
    · rw [if_neg h1]
      by_cases h3 : a = p
      · have h2 : p ≤ a ∧ a ≤ p + (0 + 1 + rest.length) := by omega
        rw [if_pos h2, h3]
        simpa using hmx
      · have h2 : ¬ (p ≤ a ∧ a ≤ p + (0 + 1 + rest.length)) := by omega
        rw [if_neg h2]

theorem collapse_runs_chain (c : Byte) (prev : Option Byte) (l : List Byte) :
    List.Chain' (fun a b => ¬ (a = c ∧ b = c)) (collapse_runs c prev l) ∧
    (prev = some c → ∀ h ∈ (collapse_runs c prev l).head?, h ≠ c) := by
  induction l generalizing prev with
  | nil => simp [collapse_runs]
  | cons x r ih =>
    obtain ⟨ih1, ih2⟩ := ih (some x)
    simp only [collapse_runs]
    by_cases hcond : x = c ∧ prev = some c
    · rw [if_pos hcond]
      exact ⟨ih1, fun _ => ih2 (by rw [hcond.1])⟩
    · rw [if_neg hcond]
      refine ⟨?_, ?_⟩
      · rw [List.chain'_cons']
        refine ⟨?_, ih1⟩
        rintro h hh ⟨hxc, hhc⟩
        exact ih2 (by rw [hxc]) h hh hhc
      · intro hp h hh hhc
        simp only [List.head?_cons, Option.mem_def, Option.some.injEq] at hh
        exact hcond ⟨hh.trans hhc, hp⟩

theorem collapse_runs_sublist (c : Byte) (prev : Option Byte) (l : List Byte) :
    (collapse_runs c prev l).Sublist l := by
  induction l generalizing prev with
  | nil => simp [collapse_runs]
  | cons x r ih =>
    simp only [collapse_runs]
    split
    · exact List.Sublist.cons x (ih (some x))
    · exact List.Sublist.cons₂ x (ih (some x))

theorem collapse_runs_filter (c : Byte) (prev : Option Byte) (l : List Byte) :
    (collapse_runs c prev l).filter (fun a => a ≠ c) = l.filter (fun a => a ≠ c) := by
  induction l generalizing prev with
  | nil => simp [collapse_runs]
  | cons x r ih =>
    simp only [collapse_runs]
    by_cases hcond : x = c ∧ prev = some c
    · rw [if_pos hcond, ih (some x)]
      simp [hcond.1]
    · rw [if_neg hcond]
      simp only [List.filter_cons, ih (some x)]

theorem collapse_runs_length (c : Byte) (prev : Option Byte) (l : List Byte) :
    (collapse_runs c prev l).length + dropped c prev l = l.length := by
  induction l generalizing prev with
  | nil => simp [collapse_runs, dropped]
  | cons x r ih =>
    simp only [collapse_runs, dropped]
    split
    · have := ih (some x)
      simp only [List.length_cons]
      omega
    · have := ih (some x)
      simp only [List.length_cons]
      omega

/-- C15: for a string `s` without zero bytes lying at address `p` and followed
by its terminator, `reduce_consecutive_occurrences(s, c)` returns (given fuel
for more than `len(s)` iterations) and leaves at `p` the string
`collapse_runs c none s`, in which every maximal run of `c` is replaced by a
single `c`: every byte from the new terminator up to the position of the
original terminator is zero and the memory outside the string is unchanged.
The result has no two adjacent `c`, is a subsequence of `s` with the
characters other than `c` unchanged and in order, and its length is the length
of `s` minus the number of dropped characters. -/
theorem reduce_consecutive_occurrences_spec (c : Byte) (p fuel : Nat) (mem : Nat → Byte)
    (s : List Byte) (hs : ∀ x ∈ s, x ≠ 0)
    (hmem : ∀ j, j ≤ s.length → mem (p + j) = s.getD j 0) (hfuel : s.length < fuel) :
    ∃ mem2, reduce_consecutive_occurrences fuel mem p c = some mem2 ∧
      (∀ j, j < (collapse_runs c none s).length →
        mem2 (p + j) = (collapse_runs c none s).getD j 0) ∧
      (∀ j, (collapse_runs c none s).length ≤ j → j ≤ s.length → mem2 (p + j) = 0) ∧
      (∀ a, a < p ∨ p + s.length < a → mem2 a = mem a) ∧
      List.Chain' (fun a b => ¬ (a = c ∧ b = c)) (collapse_runs c none s) ∧
      (collapse_runs c none s).Sublist s ∧
      (collapse_runs c none s).filter (fun a => a ≠ c) = s.filter (fun a => a ≠ c) ∧
      (collapse_runs c none s).length = s.length - dropped c none s := by
  have hlen := collapse_runs_length c none s
  refine ⟨_, reduce_spec c p fuel mem s hs hmem hfuel, ?_, ?_, ?_,
    (collapse_runs_chain c none s).1, collapse_runs_sublist c none s,
    collapse_runs_filter c none s, by omega⟩
  · intro j hj
    have h : p ≤ p + j ∧ p + j ≤ p + s.length := by omega
    have e : p + j - p = j := by omega
    simp only [if_pos h, e]
  · intro j hj hj2
    have h : p ≤ p + j ∧ p + j ≤ p + s.length := by omega
    have e : p + j - p = j := by omega
    simp only [if_pos h, e]
    exact List.getD_eq_default _ _ hj
  · intro a ha
    have h : ¬ (p ≤ a ∧ a ≤ p + s.length) := by omega
    simp only [if_neg h]

set_option maxRecDepth 8192 in
/-- C15 witness: `Helllo Worlld` with `c = l` becomes `Helo World`. -/
theorem reduce_consecutive_occurrences_spec_witness :
    (∃ mem2, reduce_consecutive_occurrences 14 (memory_of (ascii "Helllo Worlld")) 0 108
        = some mem2 ∧
      (∀ j, j < (collapse_runs 108 none (ascii "Helllo Worlld")).length →
        mem2 (0 + j) = (collapse_runs 108 none (ascii "Helllo Worlld")).getD j 0) ∧
      (∀ j, (collapse_runs 108 none (ascii "Helllo Worlld")).length ≤ j →
        j ≤ (ascii "Helllo Worlld").length → mem2 (0 + j) = 0)) ∧
    collapse_runs 108 none (ascii "Helllo Worlld") = ascii "Helo World" := by
  obtain ⟨mem2, h1, h2, h3, _⟩ := reduce_consecutive_occurrences_spec 108 0 14
    (memory_of (ascii "Helllo Worlld")) (ascii "Helllo Worlld") (by decide)
    (fun j _ => by simp [memory_of]) (by decide)
  exact ⟨⟨mem2, h1, h2, h3⟩, by decide⟩

/-- C16 (the code at the failing input): `memcpy` with `count = 1` returns the
pointer behind the byte it wrote, `destination + 1`, and so does `memmove`; in
general both return `destination + count`, which is the pointer they were
given only for `count = 0`. -/
theorem memcpy_returns_end :
    (memcpy (fun _ => 0) 10 20 1).1 = 11 ∧ (memmove (fun _ => 0) 10 20 1).1 = 11 ∧
    ∀ (mem : Nat → Byte) (destination source count : Nat),
      (memcpy mem destination source count).1 = destination + count ∧
      (memmove mem destination source count).1 = destination + count :=
  ⟨rfl, rfl, fun mem d s n => ⟨memcpy_pointer mem d s n, memcpy_pointer mem d s n⟩⟩

/-! ## Lemmas on `fibonacci.c` -/

theorem int_of_unsigned_mod (u : Nat) : int_of_unsigned (u % 4294967296) = int_of_unsigned u := by
  simp only [int_of_unsigned, Nat.mod_mod]

theorem unsigned_of_int_of_unsigned (u : Nat) :
    unsigned_of_int (int_of_unsigned u) = u % 4294967296 := by
  simp only [unsigned_of_int, int_of_unsigned]
  split <;> omega

theorem fib_recursive_fib (n : Nat) :
    ∀ k, fib_recursive (Nat.fib k % 4294967296) (Nat.fib (k + 1) % 4294967296) n
      = int_of_unsigned (Nat.fib (k + n)) := by
  induction n with
  | zero =>
    intro k
    simp only [fib_recursive, Nat.add_zero]
    exact int_of_unsigned_mod _
  | succ n ih =>
    intro k
    have hstep : (Nat.fib k % 4294967296 + Nat.fib (k + 1) % 4294967296) % 4294967296
        = Nat.fib (k + 1 + 1) % 4294967296 := by
      rw [← Nat.add_mod, ← Nat.fib_add_two]
    simp only [fib_recursive]
    rw [hstep, ih (k + 1)]
    congr 2
    omega

theorem digits_value_congr (l : List Byte) :
    ∀ a b : Nat, a % 4294967296 = b % 4294967296 →
      (l.foldl (fun r ch => r * 10 + (ch.val - 48)) a) % 4294967296
        = (l.foldl (fun r ch => r * 10 + (ch.val - 48)) b) % 4294967296 := by
  induction l with
  | nil => intro a b h; exact h
  | cons ch rest ih =>
    intro a b h
    simp only [List.foldl_cons]
    apply ih
    omega

/-- On a string of decimal digits `string_to_unsigned_int` computes the value
of the digits modulo 2^32. -/
theorem string_to_unsigned_int_digits (l : List Byte) :
    ∀ r : Nat, (∀ ch ∈ l, 48 ≤ ch.val ∧ ch.val ≤ 57) →
      string_to_unsigned_int l r
        = int_of_unsigned (l.foldl (fun r ch => r * 10 + (ch.val - 48)) r) := by
  induction l with
  | nil => intro r _; rfl
  | cons ch rest ih =>
    intro r h
    obtain ⟨h1, h2⟩ := h ch (List.mem_cons_self _ _)
    have hne : ch ≠ 0 := by
      intro h0
      rw [h0] at h1
      simp at h1
    have hd : (ch.val + 256 - 48) % 256 = ch.val - 48 := by omega
    have hok : ¬ (128 ≤ ch.val - 48 ∨ 9 < ch.val - 48) := by omega
    simp only [string_to_unsigned_int, hne, ne_eq, not_false_eq_true, if_true, hd, hok, if_false,
      List.foldl_cons]
    rw [ih _ (fun c hc => h c (List.mem_cons_of_mem _ hc)), ← int_of_unsigned_mod,
      digits_value_congr rest _ (r * 10 + (ch.val - 48)) (by omega), int_of_unsigned_mod]

theorem decimal_digits_valid (fuel : Nat) :
    ∀ (n : Nat) (acc : List Byte), (∀ ch ∈ acc, 48 ≤ ch.val ∧ ch.val ≤ 57) →
      ∀ ch ∈ decimal_digits fuel n acc, 48 ≤ ch.val ∧ ch.val ≤ 57 := by
  induction fuel with
  | zero => intro n acc h; exact h
  | succ f ih =>
    intro n acc h
    simp only [decimal_digits]
    split
    · intro ch hch
      rcases List.mem_cons.1 hch with rfl | hch
      · simp only [byte_val]; omega
      · exact h ch hch
    · apply ih
      intro ch hch
      rcases List.mem_cons.1 hch with rfl | hch
      · simp only [byte_val]; omega
      · exact h ch hch

theorem decimal_digits_value (fuel : Nat) :
    ∀ (n : Nat) (acc : List Byte), n < fuel →
      (decimal_digits fuel n acc).foldl (fun r ch => r * 10 + (ch.val - 48)) 0
        = acc.foldl (fun r ch => r * 10 + (ch.val - 48)) n := by
  induction fuel with
  | zero => intro n acc h; omega
  | succ f ih =>
    intro n acc h
    simp only [decimal_digits]
    split
    · simp only [List.foldl_cons, byte_val]
      congr 1
      omega
    · rw [ih (n / 10) _ (by omega)]
      simp only [List.foldl_cons, byte_val]
      congr 1
      omega

theorem string_to_unsigned_int_decimal (n : Nat) :
    string_to_unsigned_int (decimal n) 0 = int_of_unsigned n := by
  rw [decimal, string_to_unsigned_int_digits _ 0
    (decimal_digits_valid _ _ _ (by simp)), decimal_digits_value _ _ _ (by omega)]
  rfl

theorem fib_mod_two (n : Nat) :
    Nat.fib (3 * n) % 2 = 0 ∧ Nat.fib (3 * n + 1) % 2 = 1 ∧ Nat.fib (3 * n + 2) % 2 = 1 := by
  induction n with
  | zero => exact ⟨rfl, rfl, rfl⟩
  | succ n ih =>
    obtain ⟨h0, h1, h2⟩ := ih
    have e3 : Nat.fib (3 * n + 1 + 2) = Nat.fib (3 * n + 1) + Nat.fib (3 * n + 2) :=
      Nat.fib_add_two
    have e4 : Nat.fib (3 * n + 2 + 2) = Nat.fib (3 * n + 2) + Nat.fib (3 * n + 1 + 2) :=
      Nat.fib_add_two
    have e5 : Nat.fib (3 * n + 1 + 2 + 2) = Nat.fib (3 * n + 1 + 2) + Nat.fib (3 * n + 2 + 2) :=
      Nat.fib_add_two
    have a3 : 3 * (n + 1) = 3 * n + 1 + 2 := by omega
    have a4 : 3 * n + 1 + 2 + 1 = 3 * n + 2 + 2 := by omega
    rw [a3, a4]
    refine ⟨by omega, by omega, by omega⟩

/-- The Fibonacci number of index 2^32 is odd. -/
theorem fib_two_pow_odd : Nat.fib 4294967296 % 4294967296 ≠ 0 := by
  have h := (fib_mod_two 1431655765).2.1
  have e : 3 * 1431655765 + 1 = 4294967296 := rfl
  rw [e] at h
  generalize Nat.fib 4294967296 = F at h
  omega

/-! ## Claim on `fibonacci.c` -/

/-- C17 (as stated, refuted): `fib_recursive(0, 1, 47)` returns the negative
`int` -1323752223 and not a number reduced modulo 2^32; and the program called
with the decimal digit string of 2^32 runs with index 0 and exits with 0, while
the Fibonacci number of index 2^32 is not 0 modulo 2^32. -/
theorem fibonacci_counterexample :
    fib_recursive 0 1 47 = -1323752223 ∧
    fib_recursive 0 1 47 ≠ ((Nat.fib 47 % 4294967296 : Nat) : Int) ∧
    decimal 4294967296 = ascii "4294967296" ∧
    function_main [ascii "fibonacci", decimal 4294967296] = 0 ∧
    Nat.fib 4294967296 % 4294967296 ≠ 0 := by
  have h47 : fib_recursive 0 1 47 = -1323752223 := by decide
  refine ⟨h47, ?_, by decide, by decide, fib_two_pow_odd⟩
  rw [h47]
  generalize Nat.fib 47 % 4294967296 = v
  omega

/-- C17 (amended): for every `n`, `fib_recursive(0, 1, n)` returns the `int`
that has the 32 bits of the `n`-th Fibonacci number modulo 2^32 (that number
itself when it is below 2^31, that number minus 2^32 otherwise); the program
called with the decimal digit string of `n` as `argv[1]` exits with this value
for the index `n mod 2^32`; called with fewer than 2 arguments it returns -1. -/
theorem fibonacci_spec (n : Nat) (prog : List Byte) :
    fib_recursive 0 1 n = int_of_unsigned (Nat.fib n) ∧
    int_of_unsigned (Nat.fib n) =
      (if Nat.fib n % 4294967296 < 2147483648 then ((Nat.fib n % 4294967296 : Nat) : Int)
       else ((Nat.fib n % 4294967296 : Nat) : Int) - 4294967296) ∧
    function_main [prog, decimal n] = int_of_unsigned (Nat.fib (n % 4294967296)) ∧
    function_main [] = -1 ∧ function_main [prog] = -1 := by
  have hfib : ∀ m, fib_recursive 0 1 m = int_of_unsigned (Nat.fib m) := by
    intro m
    have := fib_recursive_fib m 0
    simpa using this
  refine ⟨hfib n, rfl, ?_, rfl, rfl⟩
  simp only [function_main, string_to_unsigned_int_decimal, unsigned_of_int_of_unsigned]
  exact hfib _

/-! ## Lemmas on the shell -/

theorem collapse_runs_prev (c : Byte) (prev : Option Byte) (l : List Byte)
    (h : prev ≠ some c) : collapse_runs c prev l = collapse_runs c none l := by
  cases l with
  | nil => simp [collapse_runs]
  | cons x r =>
    simp only [collapse_runs]
    rw [if_neg (fun hh => h hh.2), if_neg (fun hh => by simp at hh)]

theorem collapse_runs_free_append (c : Byte) (u v : List Byte) (prev : Option Byte)
    (hne : u ≠ []) (hu : ∀ x ∈ u, x ≠ c) :
    collapse_runs c prev (u ++ v) = u ++ collapse_runs c none v := by
  induction u generalizing prev with
  | nil => exact absurd rfl hne
  | cons x r ih =>
    have hx : x ≠ c := hu x (List.mem_cons_self _ _)
    simp only [List.cons_append, collapse_runs]
    rw [if_neg (fun hh => hx hh.1)]
    congr 1
    by_cases hr : r = []
    · subst hr
      simp only [List.nil_append]
      exact collapse_runs_prev c (some x) v (fun hh => hx (Option.some.inj hh))
    · exact ih (some x) hr (fun y hy => hu y (List.mem_cons_of_mem _ hy))

theorem collapse_runs_run (c : Byte) (k : Nat) (v : List Byte) :
    collapse_runs c (some c) (List.replicate k c ++ v) = collapse_runs c (some c) v := by
  induction k with
  | zero => simp
  | succ k ih =>
    have e : List.replicate (k + 1) c ++ v = c :: (List.replicate k c ++ v) := by
      simp [List.replicate_succ]
    rw [e, collapse_runs, if_pos ⟨rfl, rfl⟩]
    exact ih

/-- Collapsing the runs of spaces of a line leaves its words separated by
single spaces. -/
theorem collapse_runs_spaced (ws : List (List Byte)) :
    ∀ (w : List Byte) (seps : List Nat) (prev : Option Byte),
      (∀ v ∈ w :: ws, v ≠ [] ∧ ∀ x ∈ v, x ≠ 32) →
      collapse_runs 32 prev (spaced (w :: ws) seps) = spaced (w :: ws) [] := by
  induction ws with
  | nil =>
    intro w seps prev h
    obtain ⟨hne, hfree⟩ := h w (List.mem_cons_self _ _)
    have := collapse_runs_free_append 32 w [] prev hne hfree
    simpa [spaced, collapse_runs] using this
  | cons v ws ih =>
    intro w seps prev h
    obtain ⟨hne, hfree⟩ := h w (List.mem_cons_self _ _)
    have hrest := ih v seps.tail (some 32) (fun u hu => h u (List.mem_cons_of_mem _ hu))
    have e1 : spaced (w :: v :: ws) seps
        = w ++ (32 :: (List.replicate (seps.headD 0) 32 ++ spaced (v :: ws) seps.tail)) := by
      simp [spaced, List.replicate_succ]
    have e2 : spaced (w :: v :: ws) [] = w ++ (32 :: spaced (v :: ws) []) := by
      simp [spaced]
    rw [e1, e2, collapse_runs_free_append 32 w _ prev hne hfree, collapse_runs,
      if_neg (fun hh => by simp at hh), collapse_runs_run, hrest]

theorem spaced_nonzero (ws : List (List Byte)) :
    ∀ (w : List Byte) (seps : List Nat), (∀ v ∈ w :: ws, ∀ x ∈ v, x ≠ 0) →
      ∀ x ∈ spaced (w :: ws) seps, x ≠ 0 := by
  induction ws with
  | nil =>
    intro w seps h x hx
    exact h w (List.mem_cons_self _ _) x (by simpa [spaced] using hx)
  | cons v ws ih =>
    intro w seps h x hx
    simp only [spaced, List.append_assoc, List.mem_append] at hx
    rcases hx with hx | hx | hx
    · exact h w (List.mem_cons_self _ _) x hx
    · rw [(List.mem_replicate.1 hx).2]
      decide
    · exact ih v seps.tail (fun u hu => h u (List.mem_cons_of_mem _ hu)) x hx

theorem string_count_char_spec (mem : Nat → Byte) (p : Nat) (c : Byte) (u : List Byte) :
    ∀ (fuel i count : Nat), (∀ x ∈ u, x ≠ 0) →
      (∀ j, j ≤ u.length → mem (p + i + j) = u.getD j 0) → u.length < fuel →
      string_count_char mem p c fuel i count = some (count + u.count c) := by
  induction u with
  | nil =>
    intro fuel i count _ hmem hfuel
    obtain ⟨f, rfl⟩ : ∃ f, fuel = f + 1 := ⟨fuel - 1, by simp at hfuel; omega⟩
    have h0 : mem (p + i) = 0 := by simpa using hmem 0 (Nat.le_refl _)
    simp only [string_count_char]
    rw [if_neg (by rw [h0]; simp)]
    simp
  | cons x r ih =>
    intro fuel i count hu hmem hfuel
    obtain ⟨f, rfl⟩ : ∃ f, fuel = f + 1 := ⟨fuel - 1, by simp at hfuel; omega⟩
    have hx : x ≠ 0 := hu x (List.mem_cons_self _ _)
    have hmx : mem (p + i) = x := by simpa using hmem 0 (Nat.zero_le _)
    simp only [string_count_char]
    rw [if_pos (by rw [hmx]; exact hx), hmx,
      ih f (i + 1) _ (fun y hy => hu y (List.mem_cons_of_mem _ hy)) (by
        intro j hj
        have := hmem (j + 1) (by simp; omega)
        rw [List.getD_cons_succ] at this
        rw [← this]
        congr 1
        omega) (by simp only [List.length_cons] at hfuel; omega)]
    congr 1
    by_cases hxc : x = c
    · subst hxc
      simp
      omega
    · rw [if_neg hxc, List.count_cons_of_ne (fun h => hxc h.symm)]

/-- The splitting loop of `execute_command` standing in front of a string `u`
that is followed by the terminator: every space of `u` becomes a zero byte and
contributes the address behind it. -/
theorem split_loop_spec (args : Nat) (u : List Byte) :
    ∀ (fuel : Nat) (mem : Nat → Byte) (i : Nat) (argv : List Nat),
      (∀ x ∈ u, x ≠ 0) → (∀ j, j ≤ u.length → mem (args + i + j) = u.getD j 0) →
      u.length < fuel →
      split_loop args fuel mem i argv = some
        (fun a => if args + i ≤ a ∧ a < args + i + u.length ∧ mem a = 32 then 0 else mem a,
         argv ++ arg_pointers (args + i) u) := by
  induction u with
  | nil =>
    intro fuel mem i argv _ hmem hfuel
    obtain ⟨f, rfl⟩ : ∃ f, fuel = f + 1 := ⟨fuel - 1, by simp at hfuel; omega⟩
    have h0 : mem (args + i) = 0 := by simpa using hmem 0 (Nat.le_refl _)
    simp only [split_loop]
    rw [if_neg (by rw [h0]; simp)]
    congr 2
    · funext a
      have h : ¬ (args + i ≤ a ∧ a < args + i + ([] : List Byte).length ∧ mem a = 32) := by
        simp only [List.length_nil]
        omega
      rw [if_neg h]
    · simp [arg_pointers]
  | cons x r ih =>
    intro fuel mem i argv hu hmem hfuel
    obtain ⟨f, rfl⟩ : ∃ f, fuel = f + 1 := ⟨fuel - 1, by simp at hfuel; omega⟩
    have hx : x ≠ 0 := hu x (List.mem_cons_self _ _)
    have hr : ∀ y ∈ r, y ≠ 0 := fun y hy => hu y (List.mem_cons_of_mem _ hy)
    have hmx : mem (args + i) = x := by simpa using hmem 0 (Nat.zero_le _)
    have hnext : ∀ j, j ≤ r.length → mem (args + (i + 1) + j) = r.getD j 0 := by
      intro j hj
      have := hmem (j + 1) (by simp; omega)
      rw [List.getD_cons_succ] at this
      rw [← this]
      congr 1
      omega
    have hf : r.length < f := by simp only [List.length_cons] at hfuel; omega
    simp only [split_loop]
    rw [if_pos (by rw [hmx]; exact hx)]
    by_cases hsp : x = 32
    · rw [if_pos (by rw [hmx]; exact hsp),
        ih f (poke mem (args + i) 0) (i + 1) _ hr (by
          intro j hj
          have : args + (i + 1) + j ≠ args + i := by omega
          simp only [poke, if_neg this]
          exact hnext j hj) hf]
      congr 2
      · funext a
        by_cases ha : a = args + i
        · subst ha
          have h1 : ¬ (args + (i + 1) ≤ args + i ∧ args + i < args + (i + 1) + r.length ∧
              poke mem (args + i) 0 (args + i) = 32) := by omega
          have h2 : args + i ≤ args + i ∧ args + i < args + i + (x :: r).length ∧
              mem (args + i) = 32 := by
            refine ⟨Nat.le_refl _, by simp, by rw [hmx]; exact hsp⟩
          rw [if_neg h1, if_pos h2]
          simp [poke]
        · have hp : poke mem (args + i) 0 a = mem a := by simp [poke, ha]
          rw [hp]
          by_cases h1 : args + (i + 1) ≤ a ∧ a < args + (i + 1) + r.length ∧ mem a = 32
          · have h2 : args + i ≤ a ∧ a < args + i + (x :: r).length ∧ mem a = 32 := by
              refine ⟨by omega, by simp only [List.length_cons]; omega, h1.2.2⟩
            rw [if_pos h1, if_pos h2]
          · have h2 : ¬ (args + i ≤ a ∧ a < args + i + (x :: r).length ∧ mem a = 32) := by
              rintro ⟨h3, h4, h5⟩
              simp only [List.length_cons] at h4
              exact h1 ⟨by omega, by omega, h5⟩
            rw [if_neg h1, if_neg h2]
      · simp only [arg_pointers, if_pos hsp, List.append_assoc, List.singleton_append]
        rfl
    · rw [if_neg (by rw [hmx]; exact hsp), ih f mem (i + 1) argv hr hnext hf]
      congr 2
      · funext a
        by_cases h1 : args + (i + 1) ≤ a ∧ a < args + (i + 1) + r.length ∧ mem a = 32
        · have h2 : args + i ≤ a ∧ a < args + i + (x :: r).length ∧ mem a = 32 := by
            refine ⟨by omega, by simp only [List.length_cons]; omega, h1.2.2⟩
          rw [if_pos h1, if_pos h2]
        · have h2 : ¬ (args + i ≤ a ∧ a < args + i + (x :: r).length ∧ mem a = 32) := by
            rintro ⟨h3, h4, h5⟩
            simp only [List.length_cons] at h4
            by_cases ha : a = args + i
            · rw [ha, hmx] at h5
              exact hsp h5
            · exact h1 ⟨by omega, by omega, h5⟩
          rw [if_neg h1, if_neg h2]
      · simp only [arg_pointers, if_neg hsp]
        rfl


theorem arg_pointers_append (u v : List Byte) :
    ∀ q : Nat, arg_pointers q (u ++ v) = arg_pointers q u ++ arg_pointers (q + u.length) v := by
  induction u with
  | nil => intro q; simp [arg_pointers]
  | cons x r ih =>
    intro q
    have e : q + (x :: r).length = q + 1 + r.length := by simp only [List.length_cons]; omega
    by_cases hx : x = 32
    · rw [List.cons_append, arg_pointers, if_pos hx, ih (q + 1), e, arg_pointers, if_pos hx]
      rfl
    · rw [List.cons_append, arg_pointers, if_neg hx, ih (q + 1), e, arg_pointers, if_neg hx]

theorem arg_pointers_free (u : List Byte) (hu : ∀ x ∈ u, x ≠ 32) :
    ∀ q : Nat, arg_pointers q u = [] := by
  induction u with
  | nil => intro q; simp [arg_pointers]
  | cons x r ih =>
    intro q
    simp only [arg_pointers, if_neg (hu x (List.mem_cons_self _ _))]
    exact ih (fun y hy => hu y (List.mem_cons_of_mem _ hy)) (q + 1)

theorem arg_pointers_pos (u : List Byte) :
    ∀ (q p : Nat), p ∈ arg_pointers q u → q < p := by
  induction u with
  | nil => intro q p hp; simp [arg_pointers] at hp
  | cons x r ih =>
    intro q p hp
    by_cases hx : x = 32
    · simp only [arg_pointers, if_pos hx, List.mem_cons] at hp
      rcases hp with hp | hp
      · omega
      · have := ih (q + 1) p hp
        omega
    · simp only [arg_pointers, if_neg hx] at hp
      have := ih (q + 1) p hp
      omega

/-- A line of words separated by single spaces has one space per word after
the first. -/
theorem arg_pointers_spaced (ws : List (List Byte)) :
    ∀ (w : List Byte) (q : Nat), (∀ v ∈ w :: ws, ∀ x ∈ v, x ≠ 32) →
      (arg_pointers q (spaced (w :: ws) [])).length = ws.length := by
  induction ws with
  | nil =>
    intro w q h
    have := arg_pointers_free w (h w (List.mem_cons_self _ _)) q
    simp [spaced, this]
  | cons v ws ih =>
    intro w q h
    have e : spaced (w :: v :: ws) [] = w ++ (32 :: spaced (v :: ws) []) := by
      simp [spaced]
    rw [e, arg_pointers_append, arg_pointers_free w (h w (List.mem_cons_self _ _)) q]
    simp only [arg_pointers, if_true, List.nil_append, List.length_cons]
    rw [ih v _ (fun u hu => h u (List.mem_cons_of_mem _ hu))]

theorem arg_pointers_length (u : List Byte) :
    ∀ q : Nat, (arg_pointers q u).length = u.count 32 := by
  induction u with
  | nil => intro q; simp [arg_pointers]
  | cons x r ih =>
    intro q
    by_cases hx : x = 32
    · subst hx
      simp [arg_pointers, ih (q + 1)]
    · rw [arg_pointers, if_neg hx, ih (q + 1), List.count_cons_of_ne (fun h => hx h.symm)]

theorem getD_last_mem (l : List Nat) (h : l ≠ []) : l.getD (l.length - 1) 0 ∈ l := by
  have hpos : 0 < l.length := List.length_pos.2 h
  have hlt : l.length - 1 < l.length := by omega
  rw [List.getD_eq_getElem l 0 hlt]
  exact List.getElem_mem hlt

/-- What `execute_command` hands over for a line of words `w :: ws` separated by
runs of spaces, lying at `args`: one argument per word, the spaces between the
words turned into zero bytes, the rest of every run of spaces removed. -/
theorem execute_command_spaced (fuel command args : Nat) (mem : Nat → Byte)
    (w : List Byte) (ws : List (List Byte)) (seps : List Nat) (line t : List Byte)
    (hline : line = spaced (w :: ws) seps) (ht : t = spaced (w :: ws) [])
    (hwords : ∀ v ∈ w :: ws, v ≠ [] ∧ ∀ x ∈ v, x ≠ 0 ∧ x ≠ 32)
    (hc : command ≠ 0 ∨ ws ≠ [])
    (hmem : ∀ j, j ≤ line.length → mem (args + j) = line.getD j 0)
    (hfuel : line.length < fuel) :
    execute_command fuel command args mem = some
      { mem := fun a => if args ≤ a ∧ a ≤ args + line.length then
          (if t.getD (a - args) 0 = 32 then 0 else t.getD (a - args) 0) else mem a,
        argv_length := ws.length + 1,
        argv := command :: arg_pointers args t,
        argc := ws.length + 1 } := by
  have h0 : ∀ v ∈ w :: ws, ∀ x ∈ v, x ≠ 0 := fun v hv x hx => ((hwords v hv).2 x hx).1
  have h32 : ∀ v ∈ w :: ws, v ≠ [] ∧ ∀ x ∈ v, x ≠ 32 :=
    fun v hv => ⟨(hwords v hv).1, fun x hx => ((hwords v hv).2 x hx).2⟩
  have hline0 : ∀ x ∈ line, x ≠ 0 := by rw [hline]; exact spaced_nonzero ws w seps h0
  have ht0 : ∀ x ∈ t, x ≠ 0 := by rw [ht]; exact spaced_nonzero ws w [] h0
  have hcol : collapse_runs 32 none line = t := by
    rw [hline, ht]; exact collapse_runs_spaced ws w seps none h32
  have hlen : t.length ≤ line.length := by
    rw [← hcol]; exact collapse_runs_length_le _ _ _
  obtain ⟨mem1, hm1⟩ : ∃ m : Nat → Byte, m = fun a =>
      if args ≤ a ∧ a ≤ args + line.length then t.getD (a - args) 0 else mem a := ⟨_, rfl⟩
  have hred := reduce_spec 32 args fuel mem line hline0 hmem hfuel
  rw [hcol, ← hm1] at hred
  have hmem1 : ∀ j, j ≤ t.length → mem1 (args + 0 + j) = t.getD j 0 := by
    intro j hj
    have h1 : args ≤ args + 0 + j ∧ args + 0 + j ≤ args + line.length := by omega
    have h2 : args + 0 + j - args = j := by omega
    rw [hm1]
    simp only [if_pos h1, h2]
  have hcount := string_count_char_spec mem1 args 32 t fuel 0 0 ht0 hmem1 (by omega)
  have hsplit := split_loop_spec args t fuel mem1 0 [command] ht0 hmem1 (by omega)
  have hP : (arg_pointers args t).length = ws.length := by
    rw [ht]; exact arg_pointers_spaced ws w args (fun v hv => (h32 v hv).2)
  have hcnt : t.count 32 = ws.length := by rw [← arg_pointers_length t args]; exact hP
  have hlast : (command :: arg_pointers args t).getD (ws.length + 1 - 1) 0 ≠ 0 := by
    have hl : ws.length + 1 - 1 = (command :: arg_pointers args t).length - 1 := by
      simp only [List.length_cons, hP]
    rw [hl]
    have hm := getD_last_mem (command :: arg_pointers args t) (List.cons_ne_nil _ _)
    by_cases hws : ws = []
    · have hc0 : command ≠ 0 := hc.resolve_right (fun h => h hws)
      have hnil : arg_pointers args t = [] := by
        apply List.eq_nil_of_length_eq_zero
        rw [hP, hws]
        rfl
      rw [hnil]
      simpa using hc0
    · have e : (command :: arg_pointers args t).length - 1
          = (arg_pointers args t).length - 1 + 1 := by
        have : 0 < ws.length := List.length_pos.2 hws
        simp only [List.length_cons, hP]
        omega
      rw [e, List.getD_cons_succ]
      have hne : arg_pointers args t ≠ [] := by
        intro h
        rw [h] at hP
        exact hws (List.eq_nil_of_length_eq_zero hP.symm)
      have := arg_pointers_pos t args _ (getD_last_mem _ hne)
      omega
  simp only [Nat.add_zero, Nat.zero_add] at hcount hsplit
  simp only [execute_command, hred, Option.some_bind, hcount, hsplit, List.singleton_append,
    List.length_cons, hP, if_neg hlast, hcnt]
  congr 2
  · funext a
    rw [hm1]
    by_cases h1 : args ≤ a ∧ a ≤ args + line.length
    · simp only [if_pos h1]
      by_cases h2 : t.getD (a - args) 0 = 32
      · have h3 : a - args < t.length := by
          by_contra hge
          rw [List.getD_eq_default _ _ (by omega)] at h2
          exact absurd h2 (by decide)
        have h4 : args ≤ a ∧ a < args + t.length ∧ t.getD (a - args) 0 = 32 := by
          refine ⟨h1.1, by omega, h2⟩
        rw [if_pos h4, if_pos h2]
      · have h4 : ¬ (args ≤ a ∧ a < args + t.length ∧ t.getD (a - args) 0 = 32) :=
          fun h => h2 h.2.2
        rw [if_neg h4, if_neg h2]
    · simp only [if_neg h1]
      have h4 : ¬ (args ≤ a ∧ a < args + t.length ∧ mem a = 32) := by
        rintro ⟨h5, h6, _⟩
        exact h1 ⟨h5, by omega⟩
      rw [if_neg h4]
  · rw [List.take_of_length_le]
    simp only [List.length_cons, hP]
    omega


/-! ## Claim on the create command -/

theorem guarded_snoc (l : List IoEvent) :
    ∀ (prev : Option IoEvent) (e : IoEvent),
      guarded prev (l ++ [e])
        = (guarded prev l && (!is_fifo e || after_ready (last_event prev l))) := by
  induction l with
  | nil => intro prev e; simp [guarded, last_event]
  | cons x r ih =>
    intro prev e
    rw [List.cons_append, guarded, guarded, ih, Bool.and_assoc, last_event]

theorem last_event_snoc (l : List IoEvent) :
    ∀ (prev : Option IoEvent) (e : IoEvent), last_event prev (l ++ [e]) = some e := by
  induction l with
  | nil => intro prev e; rfl
  | cons x r ih => intro prev e; rw [List.cons_append, last_event, ih]

/-- What `guarded` says about the positions of a trace. -/
theorem guarded_index (l : List IoEvent) :
    ∀ (prev : Option IoEvent), guarded prev l = true →
      ∀ (i : Nat) (e : IoEvent), l[i]? = some e → is_fifo e = true →
        (i = 0 ∧ after_ready prev = true) ∨
        (0 < i ∧ ∃ p, l[i - 1]? = some p ∧ is_ready_poll p = true) := by
  induction l with
  | nil => intro prev _ i e h; simp at h
  | cons x r ih =>
    intro prev hg i e hi hf
    simp only [guarded, Bool.and_eq_true, Bool.or_eq_true, Bool.not_eq_true'] at hg
    cases i with
    | zero =>
      simp only [List.getElem?_cons_zero, Option.some.injEq] at hi
      subst hi
      rcases hg.1 with h | h
      · rw [hf] at h; exact absurd h (by decide)
      · exact Or.inl ⟨rfl, h⟩
    | succ i =>
      simp only [List.getElem?_cons_succ] at hi
      rcases ih (some x) hg.2 i e hi hf with ⟨h0, h1⟩ | ⟨h0, p, h1, h2⟩
      · subst h0
        exact Or.inr ⟨Nat.succ_pos _, x, by simp, h1⟩
      · refine Or.inr ⟨Nat.succ_pos _, p, ?_, h2⟩
        obtain ⟨j, rfl⟩ : ∃ j, i = j + 1 := ⟨i - 1, by omega⟩
        simpa using h1

theorem is_ready_poll_iff (p : IoEvent) :
    is_ready_poll p = true ↔
      ∃ v, p = IoEvent.inb (FLOPPY_BASE + FLOPPY_MSR) v ∧ 0x80 &&& v ≠ 0 := by
  cases p with
  | inb q v =>
    simp only [is_ready_poll, Bool.and_eq_true, beq_iff_eq, bne_iff_ne, IoEvent.inb.injEq]
    constructor
    · rintro ⟨h1, h2⟩
      exact ⟨v, ⟨h1, rfl⟩, h2⟩
    · rintro ⟨w, ⟨h1, h2⟩, h3⟩
      subst h2
      exact ⟨h1, h3⟩
  | outb q v => simp [is_ready_poll]
  | sleep n => simp [is_ready_poll]
  | print m => simp [is_ready_poll]

/-- The executable check decides the property. -/
theorem guarded_iff (l : List IoEvent) : guarded none l = true ↔ Guarded l := by
  constructor
  · intro hg i e hi hf
    rcases guarded_index l none hg i e hi hf with ⟨_, h⟩ | ⟨h0, p, h1, h2⟩
    · exact absurd h (by simp [after_ready])
    · obtain ⟨v, rfl, hv⟩ := (is_ready_poll_iff p).1 h2
      exact ⟨v, h0, h1, hv⟩
  · intro h
    have key : ∀ (l : List IoEvent) (prev : Option IoEvent),
        (∀ (i : Nat) (e : IoEvent), l[i]? = some e → is_fifo e = true →
          (i = 0 ∧ after_ready prev = true) ∨
          (0 < i ∧ ∃ p, l[i - 1]? = some p ∧ is_ready_poll p = true)) →
        guarded prev l = true := by
      intro l
      induction l with
      | nil => intro prev _; rfl
      | cons x r ih =>
        intro prev hp
        simp only [guarded, Bool.and_eq_true, Bool.or_eq_true, Bool.not_eq_true']
        constructor
        · by_cases hx : is_fifo x = true
          · rcases hp 0 x (by simp) hx with ⟨_, h1⟩ | ⟨h0, _⟩
            · exact Or.inr h1
            · omega
          · exact Or.inl (by simpa using hx)
        · apply ih
          intro i e hi hf
          rcases hp (i + 1) e (by simpa using hi) hf with ⟨h0, _⟩ | ⟨_, p, h1, h2⟩
          · omega
          · cases i with
            | zero =>
              simp only [Nat.zero_add, Nat.sub_self, List.getElem?_cons_zero,
                Option.some.injEq] at h1
              subst h1
              exact Or.inl ⟨rfl, h2⟩
            | succ j =>
              refine Or.inr ⟨Nat.succ_pos _, p, ?_, h2⟩
              simpa using h1
    apply key
    intro i e hi hf
    obtain ⟨v, h0, h1, hv⟩ := h i e hi hf
    exact Or.inr ⟨h0, _, h1, (is_ready_poll_iff _).2 ⟨v, rfl, hv⟩⟩

theorem guarded_other (l : List IoEvent) (e : IoEvent) (he : is_fifo e = false)
    (h : guarded none l = true) : guarded none (l ++ [e]) = true := by
  rw [guarded_snoc, h, he]
  rfl

theorem guarded_fifo (l : List IoEvent) (e : IoEvent) (h : guarded none l = true)
    (hr : after_ready (last_event none l) = true) : guarded none (l ++ [e]) = true := by
  rw [guarded_snoc, h, hr]
  simp

theorem port_byte_out_guarded (port data : Nat) (s : Floppy)
    (hp : port ≠ FLOPPY_BASE + FLOPPY_FIFO) (h : guarded none s.trace = true) :
    guarded none (port_byte_out port data s).trace = true :=
  guarded_other _ _ (by simpa [is_fifo] using hp) h

theorem timer_sleep_guarded (ticks : Nat) (s : Floppy) (h : guarded none s.trace = true) :
    guarded none (timer_sleep ticks s).trace = true :=
  guarded_other _ _ rfl h

theorem floppy_print_guarded (message : String) (s : Floppy)
    (h : guarded none s.trace = true) : guarded none (floppy_print message s).trace = true :=
  guarded_other _ _ rfl h

theorem floppy_motor_guarded (onoff : Nat) (s : Floppy) (h : guarded none s.trace = true) :
    guarded none (floppy_motor onoff s).trace = true := by
  unfold floppy_motor
  by_cases h1 : onoff ≠ 0
  · rw [if_pos h1]
    by_cases h2 : s.floppy_motor_state = 0
    · simp only [if_pos h2]
      exact timer_sleep_guarded _ _ (port_byte_out_guarded _ _ _ (by decide) h)
    · simp only [if_neg h2]
      exact h
  · rw [if_neg h1]
    exact h

theorem floppy_dma_init_guarded (addr dir : Nat) (s : Floppy)
    (h : guarded none s.trace = true) : guarded none (floppy_dma_init addr dir s).trace = true := by
  unfold floppy_dma_init
  by_cases hd : dir = floppy_dir_read ∨ dir = floppy_dir_write
  · simp only [if_pos hd]
    exact port_byte_out_guarded _ _ _ (by decide) (port_byte_out_guarded _ _ _ (by decide)
      (port_byte_out_guarded _ _ _ (by decide) (port_byte_out_guarded _ _ _ (by decide)
      (port_byte_out_guarded _ _ _ (by decide) (port_byte_out_guarded _ _ _ (by decide)
      (port_byte_out_guarded _ _ _ (by decide) (port_byte_out_guarded _ _ _ (by decide)
      (port_byte_out_guarded _ _ _ (by decide) (port_byte_out_guarded _ _ _ (by decide)
      h)))))))))
  · simp only [if_neg hd]
    exact floppy_print_guarded _ _ h

/-- A returning `wait_floppy_ready` has appended polls only, the last of which
found the ready bit set. -/
theorem wait_floppy_ready_guarded (hw : Controller) (fuel : Nat) :
    ∀ (s t : Floppy), guarded none s.trace = true → wait_floppy_ready hw fuel s = some t →
      guarded none t.trace = true ∧ after_ready (last_event none t.trace) = true := by
  induction fuel with
  | zero =>
    intro s t _ h
    simp [wait_floppy_ready] at h
  | succ f ih =>
    intro s t hs h
    simp only [wait_floppy_ready] at h
    have hg : guarded none (port_byte_in hw (FLOPPY_BASE + FLOPPY_MSR) s).2.trace = true :=
      guarded_other _ _ (by simp [is_fifo, FLOPPY_BASE, FLOPPY_MSR, FLOPPY_FIFO]) hs
    split at h
    · rename_i hr
      have ht : t = (port_byte_in hw (FLOPPY_BASE + FLOPPY_MSR) s).2 := by
        simpa using h.symm
      subst ht
      refine ⟨hg, ?_⟩
      simp only [port_byte_in, last_event_snoc, after_ready, is_ready_poll, beq_self_eq_true,
        Bool.true_and, bne_iff_ne]
      simpa [port_byte_in] using hr
    · exact ih _ t hg h

theorem floppy_write_cmd_guarded (hw : Controller) (fuel cmd : Nat) (s t : Floppy)
    (hs : guarded none s.trace = true) (h : floppy_write_cmd hw fuel cmd s = some t) :
    guarded none t.trace = true := by
  simp only [floppy_write_cmd, Option.map_eq_some'] at h
  obtain ⟨u, hu, rfl⟩ := h
  obtain ⟨h1, h2⟩ := wait_floppy_ready_guarded hw fuel s u hs hu
  exact guarded_fifo _ _ h1 h2

theorem floppy_read_data_guarded (hw : Controller) (fuel : Nat) (s : Floppy)
    (r : Nat × Floppy) (hs : guarded none s.trace = true)
    (h : floppy_read_data hw fuel s = some r) : guarded none r.2.trace = true := by
  simp only [floppy_read_data, Option.map_eq_some'] at h
  obtain ⟨u, hu, rfl⟩ := h
  obtain ⟨h1, h2⟩ := wait_floppy_ready_guarded hw fuel s u hs hu
  exact guarded_fifo _ _ h1 h2

theorem floppy_check_interrupt_guarded (hw : Controller) (fuel : Nat) (s : Floppy)
    (r : (Nat × Nat) × Floppy) (hs : guarded none s.trace = true)
    (h : floppy_check_interrupt hw fuel s = some r) : guarded none r.2.trace = true := by
  simp only [floppy_check_interrupt, Option.bind_eq_some] at h
  obtain ⟨s1, h1, st0, h2, cyl, h3, h4⟩ := h
  have e : r = ((st0.1, cyl.1), cyl.2) := by simpa using h4.symm
  rw [e]
  exact floppy_read_data_guarded hw fuel _ _
    (floppy_read_data_guarded hw fuel _ _ (floppy_write_cmd_guarded hw fuel _ _ _ hs h1) h2) h3

theorem write_cmds_guarded (hw : Controller) (fuel : Nat) (cmds : List Nat) :
    ∀ (s t : Floppy), guarded none s.trace = true → write_cmds hw fuel cmds s = some t →
      guarded none t.trace = true := by
  induction cmds with
  | nil =>
    intro s t hs h
    simp only [write_cmds, Option.some.injEq] at h
    rw [← h]
    exact hs
  | cons c cs ih =>
    intro s t hs h
    simp only [write_cmds, Option.bind_eq_some] at h
    obtain ⟨u, h1, h2⟩ := h
    exact ih u t (floppy_write_cmd_guarded hw fuel c s u hs h1) h2

theorem read_results_guarded (hw : Controller) (fuel n : Nat) :
    ∀ (s : Floppy) (r : List Nat × Floppy), guarded none s.trace = true →
      read_results hw fuel n s = some r → guarded none r.2.trace = true := by
  induction n with
  | zero =>
    intro s r hs h
    simp only [read_results, Option.some.injEq] at h
    rw [← h]
    exact hs
  | succ n ih =>
    intro s r hs h
    simp only [read_results, Option.bind_eq_some, Option.map_eq_some'] at h
    obtain ⟨u, h1, rs, h2, h3⟩ := h
    rw [← h3]
    exact ih u.2 rs (floppy_read_data_guarded hw fuel s u hs h1) h2

theorem calibrate_attempt_guarded (hw : Controller) (fuel : Nat) (s : Floppy)
    (r : Nat × Floppy) (hs : guarded none s.trace = true)
    (h : calibrate_attempt hw fuel s = some r) : guarded none r.2.trace = true := by
  simp only [calibrate_attempt, Option.bind_eq_some] at h
  obtain ⟨s1, h1, s2, h2, c, h3, h4⟩ := h
  have e : r = (c.1.2, c.2) := by simpa using h4.symm
  rw [e]
  exact floppy_check_interrupt_guarded hw fuel _ _
    (timer_sleep_guarded _ _ (floppy_write_cmd_guarded hw fuel _ _ _
      (floppy_write_cmd_guarded hw fuel _ _ _ hs h1) h2)) h3

theorem seek_attempt_guarded (hw : Controller) (fuel cyli head : Nat) (s : Floppy)
    (r : Nat × Floppy) (hs : guarded none s.trace = true)
    (h : seek_attempt hw fuel cyli head s = some r) : guarded none r.2.trace = true := by
  simp only [seek_attempt, Option.bind_eq_some] at h
  obtain ⟨s1, h1, s2, h2, s3, h3, c, h4, h5⟩ := h
  have e : r = (c.1.2, c.2) := by simpa using h5.symm
  rw [e]
  exact floppy_check_interrupt_guarded hw fuel _ _
    (timer_sleep_guarded _ _ (floppy_write_cmd_guarded hw fuel _ _ _
      (floppy_write_cmd_guarded hw fuel _ _ _
        (floppy_write_cmd_guarded hw fuel _ _ _ hs h1) h2) h3)) h4

theorem calibrate_loop_guarded (hw : Controller) (fuel n : Nat) :
    ∀ (s : Floppy) (r : Int × Floppy), guarded none s.trace = true →
      calibrate_loop hw fuel n s = some r → guarded none r.2.trace = true := by
  induction n with
  | zero =>
    intro s r hs h
    simp only [calibrate_loop, Option.some.injEq] at h
    rw [← h]
    exact floppy_motor_guarded _ _ (floppy_print_guarded _ _ hs)
  | succ n ih =>
    intro s r hs h
    simp only [calibrate_loop, Option.bind_eq_some] at h
    obtain ⟨a, h1, h2⟩ := h
    have ha := calibrate_attempt_guarded hw fuel s a hs h1
    split at h2
    · simp only [Option.some.injEq] at h2
      rw [← h2]
      exact floppy_motor_guarded _ _ ha
    · exact ih a.2 r ha h2

theorem seek_loop_guarded (hw : Controller) (fuel cyli head n : Nat) :
    ∀ (s : Floppy) (r : Int × Floppy), guarded none s.trace = true →
      seek_loop hw fuel cyli head n s = some r → guarded none r.2.trace = true := by
  induction n with
  | zero =>
    intro s r hs h
    simp only [seek_loop, Option.some.injEq] at h
    rw [← h]
    exact floppy_motor_guarded _ _ (floppy_print_guarded _ _ hs)
  | succ n ih =>
    intro s r hs h
    simp only [seek_loop, Option.bind_eq_some] at h
    obtain ⟨a, h1, h2⟩ := h
    have ha := seek_attempt_guarded hw fuel cyli head s a hs h1
    split at h2
    · simp only [Option.some.injEq] at h2
      rw [← h2]
      exact floppy_motor_guarded _ _ ha
    · exact ih a.2 r ha h2

theorem floppy_calibrate_guarded (hw : Controller) (fuel : Nat) (s : Floppy) (r : Int × Floppy)
    (hs : guarded none s.trace = true) (h : floppy_calibrate hw fuel s = some r) :
    guarded none r.2.trace = true :=
  calibrate_loop_guarded hw fuel 10 _ r (floppy_motor_guarded _ _ hs) h

theorem floppy_seek_guarded (hw : Controller) (fuel cyli head : Nat) (s : Floppy)
    (r : Int × Floppy) (hs : guarded none s.trace = true)
    (h : floppy_seek hw fuel cyli head s = some r) : guarded none r.2.trace = true :=
  seek_loop_guarded hw fuel cyli head 10 _ r (floppy_motor_guarded _ _ hs) h

theorem track_attempt_guarded (hw : Controller) (fuel addr cyl dir cmd : Nat) (s : Floppy)
    (r : Int × Floppy) (hs : guarded none s.trace = true)
    (h : track_attempt hw fuel addr cyl dir cmd s = some r) : guarded none r.2.trace = true := by
  simp only [track_attempt, Option.bind_eq_some] at h
  obtain ⟨s1, h1, rs, h2, h3⟩ := h
  simp only [Option.some.injEq] at h3
  rw [← h3]
  exact floppy_motor_guarded _ _ (read_results_guarded hw fuel 7 _ rs
    (timer_sleep_guarded _ _ (write_cmds_guarded hw fuel _ _ s1
      (timer_sleep_guarded _ _ (floppy_dma_init_guarded _ _ _ (floppy_motor_guarded _ _ hs)))
      h1)) h2)

theorem floppy_do_track_guarded (hw : Controller) (fuel addr cyl dir : Nat) (s : Floppy)
    (r : Int × Floppy) (hs : guarded none s.trace = true)
    (h : floppy_do_track hw fuel addr cyl dir s = some r) : guarded none r.2.trace = true := by
  unfold floppy_do_track at h
  by_cases hd : dir = floppy_dir_read ∨ dir = floppy_dir_write
  · simp only [if_pos hd, Option.bind_eq_some] at h
    obtain ⟨r0, h0, h⟩ := h
    have g0 := floppy_seek_guarded hw fuel cyl 0 s r0 hs h0
    split at h
    · simp only [Option.some.injEq] at h
      rw [← h]
      exact g0
    · simp only [Option.bind_eq_some] at h
      obtain ⟨r1, h1, h⟩ := h
      have g1 := floppy_seek_guarded hw fuel cyl 1 r0.2 r1 g0 h1
      split at h
      · simp only [Option.some.injEq] at h
        rw [← h]
        exact g1
      · simp only [track_loop] at h
        exact track_attempt_guarded hw fuel addr cyl dir _ r1.2 r g1 h
  · simp only [if_neg hd, Option.some.injEq] at h
    rw [← h]
    exact floppy_print_guarded _ _ hs

theorem floppy_reset_guarded (hw : Controller) (fuel : Nat) (s : Floppy) (r : Int × Floppy)
    (hs : guarded none s.trace = true) (h : floppy_reset hw fuel s = some r) :
    guarded none r.2.trace = true := by
  simp only [floppy_reset, Option.bind_eq_some] at h
  obtain ⟨c, h1, s2, h2, k, h3, h4⟩ := h
  have gk : guarded none k.2.trace = true :=
    floppy_calibrate_guarded hw fuel s2 k (write_cmds_guarded hw fuel _ _ s2
      (port_byte_out_guarded _ _ _ (by decide) (floppy_check_interrupt_guarded hw fuel _ c
        (timer_sleep_guarded _ _ (port_byte_out_guarded _ _ _ (by decide)
          (port_byte_out_guarded _ _ _ (by decide) hs))) h1)) h2) h3
  split at h4
  · simp only [Option.some.injEq] at h4
    rw [← h4]
    exact gk
  · simp only [Option.some.injEq] at h4
    rw [← h4]
    exact gk

theorem guarded_prefix_closed (l l2 : List IoEvent) (h : Guarded (l ++ l2)) : Guarded l := by
  intro i e hi hf
  have hlt : i < l.length := (List.getElem?_eq_some.1 hi).1
  obtain ⟨v, h0, h1, hv⟩ := h i e (by rw [List.getElem?_append_left hlt]; exact hi) hf
  refine ⟨v, h0, ?_, hv⟩
  rw [List.getElem?_append_left (by omega)] at h1
  exact h1

/-- The handshake property is not trivial: a FIFO write directly behind a poll
that found the ready bit clear breaks it. -/
theorem guarded_rejects_clear_poll :
    ¬ Guarded [IoEvent.inb (FLOPPY_BASE + FLOPPY_MSR) 0,
      IoEvent.outb (FLOPPY_BASE + FLOPPY_FIFO) CMD_SENSE_INTERRUPT] := by
  rw [← guarded_iff]
  decide

/-! ## The ready poll: how long it lasts -/

theorem reads_poll (hw : Controller) (s : Floppy) :
    reads (FLOPPY_BASE + FLOPPY_MSR) (port_byte_in hw (FLOPPY_BASE + FLOPPY_MSR) s).2.trace
      = reads (FLOPPY_BASE + FLOPPY_MSR) s.trace + 1 := by
  simp [port_byte_in, reads_append, reads, is_inb]

/-- As long as the ready bit stays clear the poll loop goes on: it is still
polling when the fuel is used up. -/
theorem wait_floppy_ready_stuck (hw : Controller) (fuel : Nat) :
    ∀ s : Floppy, (∀ j, j < fuel → ¬ ready hw (reads (FLOPPY_BASE + FLOPPY_MSR) s.trace + j)) →
      wait_floppy_ready hw fuel s = none := by
  induction fuel with
  | zero => intro s _; rfl
  | succ f ih =>
    intro s h
    have h0 : ¬ (0x80 &&& (port_byte_in hw (FLOPPY_BASE + FLOPPY_MSR) s).1 ≠ 0) := by
      simpa [ready, port_byte_in] using h 0 (Nat.succ_pos f)
    simp only [wait_floppy_ready, if_neg h0]
    apply ih
    intro j hj
    rw [reads_poll]
    have := h (j + 1) (by omega)
    rwa [Nat.add_assoc, Nat.add_comm 1 j]

/-- The poll loop returns with the first poll that finds the ready bit set. -/
theorem wait_floppy_ready_exact (hw : Controller) (k : Nat) :
    ∀ (fuel : Nat) (s : Floppy), k < fuel →
      (∀ j, j < k → ¬ ready hw (reads (FLOPPY_BASE + FLOPPY_MSR) s.trace + j)) →
      ready hw (reads (FLOPPY_BASE + FLOPPY_MSR) s.trace + k) →
      wait_floppy_ready hw fuel s = some { s with
        trace := s.trace ++ poll_events hw (reads (FLOPPY_BASE + FLOPPY_MSR) s.trace) (k + 1) } := by
  induction k with
  | zero =>
    intro fuel s hf _ hr
    obtain ⟨f, rfl⟩ : ∃ f, fuel = f + 1 := ⟨fuel - 1, by omega⟩
    have hr2 : 0x80 &&& (port_byte_in hw (FLOPPY_BASE + FLOPPY_MSR) s).1 ≠ 0 := by
      simpa [ready, port_byte_in] using hr
    simp only [wait_floppy_ready, if_pos hr2]
    rfl
  | succ k ih =>
    intro fuel s hf hclear hr
    obtain ⟨f, rfl⟩ : ∃ f, fuel = f + 1 := ⟨fuel - 1, by omega⟩
    have h0 : ¬ (0x80 &&& (port_byte_in hw (FLOPPY_BASE + FLOPPY_MSR) s).1 ≠ 0) := by
      simpa [ready, port_byte_in] using hclear 0 (Nat.succ_pos k)
    simp only [wait_floppy_ready, if_neg h0]
    rw [ih f _ (by omega) (by
        intro j hj
        rw [reads_poll]
        have := hclear (j + 1) (by omega)
        rwa [Nat.add_assoc, Nat.add_comm 1 j]) (by
        rw [reads_poll]
        rwa [Nat.add_assoc, Nat.add_comm 1 k]), reads_poll]
    simp [port_byte_in, poll_events]

theorem reads_poll_events (hw : Controller) (k : Nat) :
    ∀ n, reads (FLOPPY_BASE + FLOPPY_MSR) (poll_events hw n k) = k := by
  induction k with
  | zero => intro n; rfl
  | succ k ih =>
    intro n
    have := ih (n + 1)
    simp only [reads] at this
    simp [poll_events, reads, is_inb, this]

theorem deaf_never_ready (n : Nat) : ¬ ready deaf n := by
  simp [ready, deaf]

theorem late_ready (n k : Nat) : ready (late n) k ↔ n ≤ k := by
  by_cases h : n ≤ k
  · simp [ready, late, FLOPPY_BASE, FLOPPY_MSR, h]
  · simp [ready, late, FLOPPY_BASE, FLOPPY_MSR, h]

/-! ## Claim on the ready poll -/

/-- C22 (as stated, refuted): with the controller `deaf`, which never sets the
ready bit, `wait_floppy_ready`, `floppy_write_cmd` and `floppy_read_data` are
still polling after any number of status reads, from any state; and with the
controller `late n`, which sets the bit at poll `n`, `wait_floppy_ready` has
not returned after `n` reads and returns with read `n + 1`, so no number
bounds the reads for all controllers. -/
theorem ready_poll_unbounded :
    (∀ (fuel cmd : Nat) (s : Floppy),
      wait_floppy_ready deaf fuel s = none ∧ floppy_write_cmd deaf fuel cmd s = none ∧
      floppy_read_data deaf fuel s = none) ∧
    ∀ n : Nat, wait_floppy_ready (late n) n idle = none ∧
      ∃ t, wait_floppy_ready (late n) (n + 1) idle = some t ∧
        reads (FLOPPY_BASE + FLOPPY_MSR) t.trace = n + 1 := by
  have hdeaf : ∀ (fuel : Nat) (s : Floppy), wait_floppy_ready deaf fuel s = none :=
    fun fuel s => wait_floppy_ready_stuck deaf fuel s (fun j _ => deaf_never_ready _)
  refine ⟨fun fuel cmd s => ⟨hdeaf fuel s, ?_, ?_⟩, fun n => ⟨?_, ?_⟩⟩
  · simp [floppy_write_cmd, hdeaf]
  · simp [floppy_read_data, hdeaf]
  · apply wait_floppy_ready_stuck
    intro j hj
    rw [late_ready]
    simp only [idle, reads, List.filter_nil, List.length_nil]
    omega
  · refine ⟨_, wait_floppy_ready_exact (late n) n (n + 1) idle (Nat.lt_succ_self n) ?_ ?_, ?_⟩
    · intro j hj
      rw [late_ready]
      simp only [idle, reads, List.filter_nil, List.length_nil]
      omega
    · rw [late_ready]
      simp only [idle, reads, List.filter_nil, List.length_nil]
      omega
    · simp only [reads_append, reads_poll_events]
      simp [idle, reads]

/-- C22 (amended): let poll `k` (counted from 0, from the state `s` on) be the
first at which the controller shows the ready bit.  Then `wait_floppy_ready`
returns after exactly `k + 1` status reads and has done nothing else, and
`floppy_write_cmd` and `floppy_read_data` return after the same polls and their
one FIFO access; a run that is followed for `k` polls or fewer is still
polling. -/
theorem wait_floppy_ready_polls (hw : Controller) (fuel k cmd : Nat) (s : Floppy)
    (hclear : ∀ j, j < k → ¬ ready hw (reads (FLOPPY_BASE + FLOPPY_MSR) s.trace + j))
    (hset : ready hw (reads (FLOPPY_BASE + FLOPPY_MSR) s.trace + k)) :
    (k < fuel →
      wait_floppy_ready hw fuel s = some { s with
        trace := s.trace ++ poll_events hw (reads (FLOPPY_BASE + FLOPPY_MSR) s.trace) (k + 1) } ∧
      floppy_write_cmd hw fuel cmd s = some { s with
        trace := s.trace ++ poll_events hw (reads (FLOPPY_BASE + FLOPPY_MSR) s.trace) (k + 1)
          ++ [IoEvent.outb (FLOPPY_BASE + FLOPPY_FIFO) (cmd % 256)] } ∧
      floppy_read_data hw fuel s = some
        (hw.answer (FLOPPY_BASE + FLOPPY_FIFO) (fifo_reads s) % 256, { s with
          trace := s.trace ++ poll_events hw (reads (FLOPPY_BASE + FLOPPY_MSR) s.trace) (k + 1)
            ++ [IoEvent.inb (FLOPPY_BASE + FLOPPY_FIFO)
              (hw.answer (FLOPPY_BASE + FLOPPY_FIFO) (fifo_reads s) % 256)] })) ∧
    (fuel ≤ k →
      wait_floppy_ready hw fuel s = none ∧ floppy_write_cmd hw fuel cmd s = none ∧
      floppy_read_data hw fuel s = none) ∧
    reads (FLOPPY_BASE + FLOPPY_MSR)
      (poll_events hw (reads (FLOPPY_BASE + FLOPPY_MSR) s.trace) (k + 1)) = k + 1 := by
  refine ⟨fun hf => ?_, fun hf => ?_, reads_poll_events hw (k + 1) _⟩
  · have hw1 := wait_floppy_ready_exact hw k fuel s hf hclear hset
    have hfr : reads (FLOPPY_BASE + FLOPPY_FIFO)
        (s.trace ++ poll_events hw (reads (FLOPPY_BASE + FLOPPY_MSR) s.trace) (k + 1))
        = fifo_reads s := by
      have hq : ∀ (m n : Nat), reads (FLOPPY_BASE + FLOPPY_FIFO) (poll_events hw n m) = 0 := by
        intro m
        induction m with
        | zero => intro n; rfl
        | succ m ih =>
          intro n
          have hne : (FLOPPY_BASE + FLOPPY_MSR == FLOPPY_BASE + FLOPPY_FIFO) = false := by
            decide
          have := ih (n + 1)
          simp only [reads] at this
          simp only [poll_events, reads, List.filter_cons, is_inb, hne, Bool.false_eq_true,
            if_false]
          exact this
      rw [reads_append, hq]
      rfl
    refine ⟨hw1, ?_, ?_⟩
    · simp only [floppy_write_cmd, hw1, Option.map_some', port_byte_out]
    · simp only [floppy_read_data, hw1, Option.map_some', port_byte_in, hfr]
  · have hn := wait_floppy_ready_stuck hw fuel s (fun j hj => hclear j (by omega))
    exact ⟨hn, by simp [floppy_write_cmd, hn], by simp [floppy_read_data, hn]⟩

/-- C22 witness: the controller `sample` shows the ready bit at its second
poll; followed for two polls the wait returns, followed for one it has not. -/
theorem wait_floppy_ready_polls_witness :
    wait_floppy_ready sample 2 idle = some { idle with
      trace := [IoEvent.inb 0x3F4 0, IoEvent.inb 0x3F4 0x80] } ∧
    wait_floppy_ready sample 1 idle = none := by
  have h := wait_floppy_ready_polls sample 2 1 0 idle (by decide) (by decide)
  have h1 := wait_floppy_ready_polls sample 1 1 0 idle (by decide) (by decide)
  exact ⟨(h.1 (by decide)).1, (h1.2.1 (Nat.le_refl 1)).1⟩


/-! ## Lemmas on `execute_command` for any line -/

theorem collapse_runs_nonzero (c : Byte) (prev : Option Byte) (l : List Byte)
    (h : ∀ x ∈ l, x ≠ 0) : ∀ x ∈ collapse_runs c prev l, x ≠ 0 :=
  fun x hx => h x ((collapse_runs_sublist c prev l).subset hx)

/-- What `execute_command` hands over for any line lying at `args`, in terms of
the line `t` with its runs of spaces collapsed: one argument more than `t` has
spaces, in an array of as many elements. -/
theorem execute_command_line (fuel command args : Nat) (mem : Nat → Byte)
    (line t : List Byte) (hline0 : ∀ x ∈ line, x ≠ 0) (ht : t = collapse_runs 32 none line)
    (hc : command ≠ 0 ∨ t.count 32 ≠ 0)
    (hmem : ∀ j, j ≤ line.length → mem (args + j) = line.getD j 0)
    (hfuel : line.length < fuel) :
    execute_command fuel command args mem = some
      { mem := fun a => if args ≤ a ∧ a ≤ args + line.length then
          (if t.getD (a - args) 0 = 32 then 0 else t.getD (a - args) 0) else mem a,
        argv_length := t.count 32 + 1,
        argv := command :: arg_pointers args t,
        argc := t.count 32 + 1 } := by
  have ht0 : ∀ x ∈ t, x ≠ 0 := by rw [ht]; exact collapse_runs_nonzero 32 none line hline0
  have hlen : t.length ≤ line.length := by
    rw [ht]; exact collapse_runs_length_le _ _ _
  obtain ⟨mem1, hm1⟩ : ∃ m : Nat → Byte, m = fun a =>
      if args ≤ a ∧ a ≤ args + line.length then t.getD (a - args) 0 else mem a := ⟨_, rfl⟩
  have hred := reduce_spec 32 args fuel mem line hline0 hmem hfuel
  rw [← ht, ← hm1] at hred
  have hmem1 : ∀ j, j ≤ t.length → mem1 (args + 0 + j) = t.getD j 0 := by
    intro j hj
    have h1 : args ≤ args + 0 + j ∧ args + 0 + j ≤ args + line.length := by omega
    have h2 : args + 0 + j - args = j := by omega
    rw [hm1]
    simp only [if_pos h1, h2]
  have hcount := string_count_char_spec mem1 args 32 t fuel 0 0 ht0 hmem1 (by omega)
  have hsplit := split_loop_spec args t fuel mem1 0 [command] ht0 hmem1 (by omega)
  have hP : (arg_pointers args t).length = t.count 32 := arg_pointers_length t args
  have hlast : (command :: arg_pointers args t).getD (t.count 32 + 1 - 1) 0 ≠ 0 := by
    have hl : t.count 32 + 1 - 1 = (command :: arg_pointers args t).length - 1 := by
      simp only [List.length_cons, hP]
    rw [hl]
    by_cases hws : t.count 32 = 0
    · have hc0 : command ≠ 0 := hc.resolve_right (fun h => h hws)
      have hnil : arg_pointers args t = [] := by
        apply List.eq_nil_of_length_eq_zero
        rw [hP, hws]
      rw [hnil]
      simpa using hc0
    · have e : (command :: arg_pointers args t).length - 1
          = (arg_pointers args t).length - 1 + 1 := by
        simp only [List.length_cons, hP]
        omega
      rw [e, List.getD_cons_succ]
      have hne : arg_pointers args t ≠ [] := by
        intro h
        rw [h] at hP
        exact hws hP.symm
      have := arg_pointers_pos t args _ (getD_last_mem _ hne)
      omega
  simp only [Nat.add_zero, Nat.zero_add] at hcount hsplit
  simp only [execute_command, hred, Option.some_bind, hcount, hsplit, List.singleton_append,
    List.length_cons, hP, if_neg hlast]
  congr 2
  · funext a
    rw [hm1]
    by_cases h1 : args ≤ a ∧ a ≤ args + line.length
    · simp only [if_pos h1]
      by_cases h2 : t.getD (a - args) 0 = 32
      · have h3 : a - args < t.length := by
          by_contra hge
          rw [List.getD_eq_default _ _ (by omega)] at h2
          exact absurd h2 (by decide)
        have h4 : args ≤ a ∧ a < args + t.length ∧ t.getD (a - args) 0 = 32 := by
          refine ⟨h1.1, by omega, h2⟩
        rw [if_pos h4, if_pos h2]
      · have h4 : ¬ (args ≤ a ∧ a < args + t.length ∧ t.getD (a - args) 0 = 32) :=
          fun h => h2 h.2.2
        rw [if_neg h4, if_neg h2]
    · simp only [if_neg h1]
      have h4 : ¬ (args ≤ a ∧ a < args + t.length ∧ mem a = 32) := by
        rintro ⟨h5, h6, _⟩
        exact h1 ⟨h5, by omega⟩
      rw [if_neg h4]
  · rw [List.take_of_length_le]
    simp only [List.length_cons, hP]
    omega

/-- Collapsing the runs of spaces of a line of words that is followed by more
text leaves the words separated by single spaces, followed by the collapsed
text. -/
theorem collapse_runs_spaced_append (tl : List Byte) (ws : List (List Byte)) :
    ∀ (w : List Byte) (seps : List Nat) (prev : Option Byte),
      (∀ v ∈ w :: ws, v ≠ [] ∧ ∀ x ∈ v, x ≠ 32) →
      collapse_runs 32 prev (spaced (w :: ws) seps ++ tl)
        = spaced (w :: ws) [] ++ collapse_runs 32 none tl := by
  induction ws with
  | nil =>
    intro w seps prev h
    obtain ⟨hne, hfree⟩ := h w (List.mem_cons_self _ _)
    simpa [spaced] using collapse_runs_free_append 32 w tl prev hne hfree
  | cons v ws ih =>
    intro w seps prev h
    obtain ⟨hne, hfree⟩ := h w (List.mem_cons_self _ _)
    have hrest := ih v seps.tail (some 32) (fun u hu => h u (List.mem_cons_of_mem _ hu))
    have e1 : spaced (w :: v :: ws) seps ++ tl
        = w ++ (32 :: (List.replicate (seps.headD 0) 32 ++ (spaced (v :: ws) seps.tail ++ tl))) := by
      simp [spaced, List.replicate_succ]
    have e2 : spaced (w :: v :: ws) [] ++ collapse_runs 32 none tl
        = w ++ (32 :: (spaced (v :: ws) [] ++ collapse_runs 32 none tl)) := by
      simp [spaced]
    rw [e1, e2, collapse_runs_free_append 32 w _ prev hne hfree, collapse_runs,
      if_neg (fun hh => by simp at hh), collapse_runs_run, hrest]

theorem collapse_runs_spaces (k : Nat) :
    collapse_runs 32 none (List.replicate (k + 1) 32) = [32] := by
  have e : List.replicate (k + 1) (32 : Byte) = 32 :: (List.replicate k 32 ++ []) := by
    simp [List.replicate_succ]
  rw [e, collapse_runs, if_neg (fun hh => by simp at hh), collapse_runs_run]
  rfl

theorem count_spaced (ws : List (List Byte)) (w : List Byte)
    (h : ∀ v ∈ w :: ws, ∀ x ∈ v, x ≠ 32) : (spaced (w :: ws) []).count 32 = ws.length := by
  rw [← arg_pointers_length _ 0]
  exact arg_pointers_spaced ws w 0 h

/-! ## Claims on the argument array -/

/-- C24 (the code, on every line): a line without zero bytes lies at `args`,
followed by its terminator, and `command` is not the null pointer.  Then
`execute_command` returns (given fuel for more than the length of the line);
with `count` the value of `string_count_char(args, ' ')` on the reduced line
(the number of spaces left in it), the array `argv` has `count + 1` elements,
the loop fills `argv[0 .. count]`, and the index `argc` at which the null
pointer is stored is `count + 1`: it is not smaller than the array length. -/
theorem argv_null_out_of_bounds (fuel command args : Nat) (mem : Nat → Byte)
    (line : List Byte) (hline0 : ∀ x ∈ line, x ≠ 0) (hcommand : command ≠ 0)
    (hmem : ∀ j, j ≤ line.length → mem (args + j) = line.getD j 0)
    (hfuel : line.length < fuel) :
    ∃ (mem1 : Nat → Byte) (call : Call),
      reduce_consecutive_occurrences fuel mem args 32 = some mem1 ∧
      string_count_char mem1 args 32 fuel 0 0 = some ((collapse_runs 32 none line).count 32) ∧
      execute_command fuel command args mem = some call ∧
      call.argv_length = (collapse_runs 32 none line).count 32 + 1 ∧
      call.argv.length = (collapse_runs 32 none line).count 32 + 1 ∧
      call.argc = (collapse_runs 32 none line).count 32 + 1 ∧
      ¬ (call.argc < call.argv_length) := by
  have hcall := execute_command_line fuel command args mem line _ hline0 rfl (Or.inl hcommand)
    hmem hfuel
  have hred := reduce_spec 32 args fuel mem line hline0 hmem hfuel
  have hlen : (collapse_runs 32 none line).length ≤ line.length :=
    collapse_runs_length_le _ _ _
  have hcount := string_count_char_spec
    (fun a => if args ≤ a ∧ a ≤ args + line.length then
      (collapse_runs 32 none line).getD (a - args) 0 else mem a)
    args 32 (collapse_runs 32 none line) fuel 0 0
    (collapse_runs_nonzero 32 none line hline0) (by
      intro j hj
      have h1 : args ≤ args + 0 + j ∧ args + 0 + j ≤ args + line.length := by omega
      have h2 : args + 0 + j - args = j := by omega
      simp only [if_pos h1, h2]) (by omega)
  rw [Nat.zero_add] at hcount
  refine ⟨_, _, hred, hcount, hcall, rfl, ?_, rfl, Nat.lt_irrefl _⟩
  simp only [List.length_cons, arg_pointers_length]

set_option maxRecDepth 8192 in
/-- C24 witness: the line `help`.  The array has one element and the null
pointer is stored at index 1. -/
theorem argv_null_out_of_bounds_witness :
    ∃ (mem1 : Nat → Byte) (call : Call),
      reduce_consecutive_occurrences 5 (memory_of (ascii "help")) 0 32 = some mem1 ∧
      string_count_char mem1 0 32 5 0 0 = some 0 ∧
      execute_command 5 2000 0 (memory_of (ascii "help")) = some call ∧
      call.argv_length = 1 ∧ call.argc = 1 ∧ ¬ (call.argc < call.argv_length) := by
  obtain ⟨mem1, call, h1, h2, h3, h4, _, h6, h7⟩ :=
    argv_null_out_of_bounds 5 2000 0 (memory_of (ascii "help")) (ascii "help") (by decide)
      (by decide) (fun j _ => by simp [memory_of]) (by decide)
  have e : (collapse_runs 32 none (ascii "help")).count 32 = 0 := by decide
  rw [e] at h2 h4 h6
  exact ⟨mem1, call, h1, h2, h3, h4, h6, h7⟩

/-- C25 (the code, on every line with trailing spaces): the line consists of
the words `w :: ws` (non-empty, free of spaces and zero bytes, separated by
runs of spaces) followed by `k + 1` spaces; `command` is not the null pointer.
Then `execute_command` passes `argc` = number of words + 1, one more than for
the same line without the trailing spaces, and the last argument is the empty
string: the test `argv[argc - 1] == 0` looks at the pointer, which is never
null, so `argc` is not decremented. -/
theorem trailing_space_counted (fuel command args : Nat) (mem mem0 : Nat → Byte)
    (w : List Byte) (ws : List (List Byte)) (seps : List Nat) (k : Nat)
    (hwords : ∀ v ∈ w :: ws, v ≠ [] ∧ ∀ x ∈ v, x ≠ 0 ∧ x ≠ 32)
    (hcommand : command ≠ 0)
    (hmem : ∀ j, j ≤ (spaced (w :: ws) seps ++ List.replicate (k + 1) 32).length →
      mem (args + j) = (spaced (w :: ws) seps ++ List.replicate (k + 1) 32).getD j 0)
    (hmem0 : ∀ j, j ≤ (spaced (w :: ws) seps).length →
      mem0 (args + j) = (spaced (w :: ws) seps).getD j 0)
    (hfuel : (spaced (w :: ws) seps ++ List.replicate (k + 1) 32).length < fuel) :
    ∃ (call call0 : Call),
      execute_command fuel command args mem0 = some call0 ∧
      call0.argc = (w :: ws).length ∧
      execute_command fuel command args mem = some call ∧
      call.argc = (w :: ws).length + 1 ∧
      message_at call.mem fuel (call.argv.getD (call.argc - 1) 0) = some [] := by
  have h0 : ∀ v ∈ w :: ws, ∀ x ∈ v, x ≠ 0 := fun v hv x hx => ((hwords v hv).2 x hx).1
  have h32 : ∀ v ∈ w :: ws, v ≠ [] ∧ ∀ x ∈ v, x ≠ 32 :=
    fun v hv => ⟨(hwords v hv).1, fun x hx => ((hwords v hv).2 x hx).2⟩
  have hcall0 := execute_command_spaced fuel command args mem0 w ws seps _ _ rfl rfl hwords
    (Or.inl hcommand) hmem0 (by
      rw [List.length_append] at hfuel
      omega)
  obtain ⟨line, hline⟩ : ∃ l, l = spaced (w :: ws) seps ++ List.replicate (k + 1) 32 := ⟨_, rfl⟩
  obtain ⟨t, ht⟩ : ∃ l, l = spaced (w :: ws) [] ++ [32] := ⟨_, rfl⟩
  rw [← hline] at hmem hfuel
  have hline0 : ∀ x ∈ line, x ≠ 0 := by
    intro x hx
    rw [hline, List.mem_append] at hx
    rcases hx with hx | hx
    · exact spaced_nonzero ws w seps h0 x hx
    · rw [(List.mem_replicate.1 hx).2]
      decide
  have hcol : t = collapse_runs 32 none line := by
    rw [hline, ht, collapse_runs_spaced_append _ ws w seps none h32, collapse_runs_spaces]
  have hlen : t.length ≤ line.length := by
    rw [hcol]; exact collapse_runs_length_le _ _ _
  have hcnt : t.count 32 = ws.length + 1 := by
    rw [ht, List.count_append, count_spaced ws w (fun v hv => (h32 v hv).2)]
    rfl
  have hcall := execute_command_line fuel command args mem line t hline0 hcol
    (Or.inl hcommand) hmem hfuel
  rw [hcnt] at hcall
  have hptr : arg_pointers args t
      = arg_pointers args (spaced (w :: ws) []) ++ [args + (spaced (w :: ws) []).length + 1] := by
    rw [ht, arg_pointers_append]
    rfl
  have hplen : (arg_pointers args (spaced (w :: ws) [])).length = ws.length :=
    arg_pointers_spaced ws w args (fun v hv => (h32 v hv).2)
  have htlen : t.length = (spaced (w :: ws) []).length + 1 := by
    rw [ht, List.length_append]
    rfl
  refine ⟨_, _, hcall0, by simp, hcall, by simp, ?_⟩
  have hidx : ws.length + 1 + 1 - 1 = ws.length + 1 := by omega
  have hlast : (command :: arg_pointers args t).getD (ws.length + 1) 0 = args + t.length := by
    rw [List.getD_cons_succ, hptr, List.getD_append_right _ _ _ _ (by omega), hplen,
      Nat.sub_self, List.getD_cons_zero, htlen]
    omega
  simp only [hidx, hlast]
  apply message_at_eq _ [] fuel (args + t.length) (fun c hc => by simp at hc)
    (by simp only [List.length_nil]; omega)
  intro j hj
  have hj0 : j = 0 := by simpa using hj
  subst hj0
  have h1 : args ≤ args + t.length + 0 ∧ args + t.length + 0 ≤ args + line.length := by omega
  have h2 : t.getD (args + t.length + 0 - args) 0 = 0 :=
    List.getD_eq_default _ _ (by omega)
  simp only [if_pos h1, h2]
  rfl

set_option maxRecDepth 8192 in
/-- C25 witness: the line `help` followed by one space is run with `argc = 2`
and an empty `argv[1]`; the line `help` is run with `argc = 1`. -/
theorem trailing_space_counted_witness :
    spaced [ascii "help"] [] ++ List.replicate (0 + 1) 32 = ascii "help " ∧
    ∃ (call call0 : Call),
      execute_command 6 2000 0 (memory_of (ascii "help")) = some call0 ∧ call0.argc = 1 ∧
      execute_command 6 2000 0 (memory_of (ascii "help ")) = some call ∧ call.argc = 2 ∧
      message_at call.mem 6 (call.argv.getD 1 0) = some [] := by
  have e : spaced [ascii "help"] [] ++ List.replicate (0 + 1) 32 = ascii "help " := by decide
  have e0 : spaced [ascii "help"] [] = ascii "help" := by decide
  obtain ⟨call, call0, h1, h2, h3, h4, h5⟩ :=
    trailing_space_counted 6 2000 0 (memory_of (ascii "help ")) (memory_of (ascii "help"))
      (ascii "help") [] [] 0 (by decide) (by decide)
      (by rw [e]; exact fun j _ => by simp [memory_of])
      (by rw [e0]; exact fun j _ => by simp [memory_of]) (by decide)
  rw [h4] at h5
  exact ⟨e, call, call0, h1, h2, h3, h4, h5⟩

/-! ## Lemmas on the arguments of a command line -/

theorem memset_loop_spec (destination : Nat) (value : Byte) (n : Nat) :
    ∀ (i : Nat) (mem : Nat → Byte),
      memset_loop destination value n i mem
        = fun a => if destination + i ≤ a ∧ a < destination + i + n then value else mem a := by
  induction n with
  | zero =>
    intro i mem
    funext a
    have h : ¬ (destination + i ≤ a ∧ a < destination + i + 0) := by omega
    rw [if_neg h]
    rfl
  | succ n ih =>
    intro i mem
    rw [memset_loop, ih]
    funext a
    by_cases ha : a = destination + i
    · subst ha
      have h1 : ¬ (destination + (i + 1) ≤ destination + i ∧
          destination + i < destination + (i + 1) + n) := by omega
      have h2 : destination + i ≤ destination + i ∧
          destination + i < destination + i + (n + 1) := by omega
      rw [if_neg h1, if_pos h2]
      simp [poke]
    · have hp : poke mem (destination + i) value a = mem a := by simp [poke, ha]
      rw [hp]
      by_cases h1 : destination + (i + 1) ≤ a ∧ a < destination + (i + 1) + n
      · have h2 : destination + i ≤ a ∧ a < destination + i + (n + 1) := by omega
        rw [if_pos h1, if_pos h2]
      · have h2 : ¬ (destination + i ≤ a ∧ a < destination + i + (n + 1)) := by omega
        rw [if_neg h1, if_neg h2]

/-- The copy loop standing in front of the characters `u` of the first word,
which are followed by a space or the terminator, when no byte of the
destination is one of the bytes still to be read. -/
theorem copy_command_loop_spec (command command_buffer : Nat) (u : List Byte) :
    ∀ (fuel : Nat) (mem : Nat → Byte) (i : Nat),
      (∀ x ∈ u, x ≠ 32 ∧ x ≠ 0) →
      (∀ j, j < u.length → mem (command_buffer + i + j) = u.getD j 0) →
      (mem (command_buffer + i + u.length) = 32 ∨ mem (command_buffer + i + u.length) = 0) →
      (∀ a b, a < u.length → b ≤ u.length → command + i + a ≠ command_buffer + i + b) →
      u.length < fuel →
      copy_command_loop command command_buffer fuel mem i = some (fun a =>
        if command + i ≤ a ∧ a < command + i + u.length then u.getD (a - (command + i)) 0
        else mem a) := by
  induction u with
  | nil =>
    intro fuel mem i _ _ hend _ hfuel
    obtain ⟨f, rfl⟩ : ∃ f, fuel = f + 1 := ⟨fuel - 1, by simp at hfuel; omega⟩
    have hstop : ¬ (mem (command_buffer + i) ≠ 32 ∧ mem (command_buffer + i) ≠ 0) := by
      simp only [List.length_nil, Nat.add_zero] at hend
      rcases hend with h | h
      · exact fun hh => hh.1 h
      · exact fun hh => hh.2 h
    simp only [copy_command_loop, if_neg hstop]
    congr 1
    funext a
    have h : ¬ (command + i ≤ a ∧ a < command + i + ([] : List Byte).length) := by
      simp only [List.length_nil]
      omega
    rw [if_neg h]
  | cons x r ih =>
    intro fuel mem i hu hmem hend hd hfuel
    obtain ⟨f, rfl⟩ : ∃ f, fuel = f + 1 := ⟨fuel - 1, by simp at hfuel; omega⟩
    have hx := hu x (List.mem_cons_self _ _)
    have hmx : mem (command_buffer + i) = x := by
      simpa using hmem 0 (by simp)
    have hgo : mem (command_buffer + i) ≠ 32 ∧ mem (command_buffer + i) ≠ 0 := by
      rw [hmx]; exact hx
    have hpoke : ∀ b, b ≤ r.length →
        poke mem (command + i) x (command_buffer + (i + 1) + b) = mem (command_buffer + i + (b + 1)) := by
      intro b hb
      have hne : command_buffer + (i + 1) + b ≠ command + i := by
        have := hd 0 (b + 1) (by simp) (by simp only [List.length_cons]; omega)
        omega
      simp only [poke, if_neg hne]
      congr 1
      omega
    simp only [copy_command_loop]
    rw [if_pos hgo, hmx, ih f (poke mem (command + i) x) (i + 1)
      (fun y hy => hu y (List.mem_cons_of_mem _ hy))
      (by
        intro j hj
        rw [hpoke j (by omega)]
        have := hmem (j + 1) (by simp only [List.length_cons]; omega)
        rw [List.getD_cons_succ] at this
        exact this)
      (by
        rw [hpoke r.length (Nat.le_refl _)]
        simpa using hend)
      (by
        intro a b ha hb
        have := hd (a + 1) (b + 1) (by simp only [List.length_cons]; omega)
          (by simp only [List.length_cons]; omega)
        omega)
      (by simp only [List.length_cons] at hfuel; omega)]
    congr 1
    funext a
    by_cases ha : a = command + i
    · subst ha
      have h1 : ¬ (command + (i + 1) ≤ command + i ∧
          command + i < command + (i + 1) + r.length) := by omega
      have h2 : command + i ≤ command + i ∧ command + i < command + i + (x :: r).length := by
        simp only [List.length_cons]; omega
      rw [if_neg h1, if_pos h2, Nat.sub_self, List.getD_cons_zero]
      simp [poke]
    · have hp : poke mem (command + i) x a = mem a := by simp [poke, ha]
      rw [hp]
      by_cases h1 : command + (i + 1) ≤ a ∧ a < command + (i + 1) + r.length
      · have h2 : command + i ≤ a ∧ a < command + i + (x :: r).length := by
          simp only [List.length_cons]; omega
        have e : a - (command + i) = (a - (command + (i + 1))) + 1 := by omega
        rw [if_pos h1, if_pos h2, e, List.getD_cons_succ]
      · have h2 : ¬ (command + i ≤ a ∧ a < command + i + (x :: r).length) := by
          simp only [List.length_cons]; omega
        rw [if_neg h1, if_neg h2]

/-- A line of words begins with its first word, which is followed by a space
or by the end of the line. -/
theorem spaced_head (w : List Byte) (ws : List (List Byte)) (seps : List Nat) :
    ∃ rest, spaced (w :: ws) seps = w ++ rest ∧ (rest.getD 0 0 = 32 ∨ rest.getD 0 0 = 0) := by
  cases ws with
  | nil => exact ⟨[], by simp [spaced], Or.inr rfl⟩
  | cons v ws =>
    refine ⟨32 :: (List.replicate (seps.headD 0) 32 ++ spaced (v :: ws) seps.tail), ?_, Or.inl rfl⟩
    simp [spaced, List.replicate_succ]

/-- Where the words of a split line lie: the line `t` of words separated by
single spaces lies at `q` with its spaces turned into zero bytes.  Then the
first word is the string at `q` and the other words are the strings at the
argument pointers, in order. -/
theorem words_at (ws : List (List Byte)) :
    ∀ (w : List Byte) (q fuel : Nat) (m : Nat → Byte),
      (∀ v ∈ w :: ws, ∀ x ∈ v, x ≠ 0 ∧ x ≠ 32) →
      (∀ j, j ≤ (spaced (w :: ws) []).length →
        m (q + j) = if (spaced (w :: ws) []).getD j 0 = 32 then 0
          else (spaced (w :: ws) []).getD j 0) →
      (spaced (w :: ws) []).length < fuel →
      message_at m fuel q = some w ∧
      ∀ k, k < ws.length →
        message_at m fuel ((arg_pointers q (spaced (w :: ws) [])).getD k 0)
          = some (ws.getD k []) := by
  induction ws with
  | nil =>
    intro w q fuel m hw hm hfuel
    have e : spaced [w] [] = w := by simp [spaced]
    rw [e] at hm hfuel
    refine ⟨message_at_eq m w fuel q (fun x hx => (hw w (List.mem_cons_self _ _) x hx).1)
      hfuel ?_, fun k hk => absurd hk (Nat.not_lt_zero k)⟩
    intro j hj
    rw [hm j hj]
    by_cases hlt : j < w.length
    · have hin : w.getD j 0 ∈ w := by
        rw [List.getD_eq_getElem w 0 hlt]
        exact List.getElem_mem hlt
      rw [if_neg (hw w (List.mem_cons_self _ _) _ hin).2]
    · rw [List.getD_eq_default _ _ (by omega)]
      rfl
  | cons v ws ih =>
    intro w q fuel m hw hm hfuel
    have e : spaced (w :: v :: ws) [] = w ++ (32 :: spaced (v :: ws) []) := by
      simp [spaced]
    rw [e] at hm hfuel
    have hlen : (w ++ (32 :: spaced (v :: ws) [])).length
        = w.length + 1 + (spaced (v :: ws) []).length := by
      simp only [List.length_append, List.length_cons]
      omega
    rw [hlen] at hm hfuel
    have hww := hw w (List.mem_cons_self _ _)
    have hfirst : message_at m fuel q = some w := by
      apply message_at_eq m w fuel q (fun x hx => (hww x hx).1) (by omega)
      intro j hj
      rw [hm j (by omega)]
      by_cases hlt : j < w.length
      · rw [List.getD_append _ _ _ _ hlt]
        have hin : w.getD j 0 ∈ w := by
          rw [List.getD_eq_getElem w 0 hlt]
          exact List.getElem_mem hlt
        rw [if_neg (hww _ hin).2]
      · have hj2 : j = w.length := by omega
        rw [List.getD_append_right _ _ _ _ (by omega), hj2, Nat.sub_self, List.getD_cons_zero,
          if_pos rfl, List.getD_eq_default _ _ (Nat.le_refl _)]
    obtain ⟨ih1, ih2⟩ := ih v (q + w.length + 1) fuel m
      (fun u hu => hw u (List.mem_cons_of_mem _ hu))
      (by
        intro j hj
        have e1 : w.length + 1 + j - w.length = j + 1 := by omega
        have := hm (w.length + 1 + j) (by omega)
        rw [List.getD_append_right _ _ _ _ (by omega), e1, List.getD_cons_succ] at this
        rw [← this]
        congr 1
        omega)
      (by omega)
    have hptr : arg_pointers q (w ++ (32 :: spaced (v :: ws) []))
        = (q + w.length + 1) :: arg_pointers (q + w.length + 1) (spaced (v :: ws) []) := by
      rw [arg_pointers_append, arg_pointers_free w (fun x hx => (hww x hx).2), List.nil_append,
        arg_pointers, if_pos rfl]
    refine ⟨hfirst, ?_⟩
    intro k hk
    rw [e, hptr]
    cases k with
    | zero => exact ih1
    | succ k =>
      simp only [List.getD_cons_succ]
      exact ih2 k (by simp only [List.length_cons] at hk; omega)

/-! ## Claim on the arguments of a command line -/

/-- C23: the command buffer at `args` holds a line of words `w :: ws`
(non-empty, free of spaces and zero bytes, word `k` followed by `seps[k] + 1`
spaces, no space at either end) and its terminator; the first word has at
most 31 characters; the local array `command` (32 bytes at a non-null address)
does not overlap the line.  Then the newline case of
`shell_keyboard_print_function` reaches the call of the command function
(given fuel for more than the length of the line) with `argc` equal to the
number of words, `argv[0] = command`, and for every `k < argc` the string at
`argv[k]` is word `k`. -/
theorem shell_line_arguments (fuel command args : Nat) (mem : Nat → Byte)
    (w : List Byte) (ws : List (List Byte)) (seps : List Nat)
    (hwords : ∀ v ∈ w :: ws, v ≠ [] ∧ ∀ x ∈ v, x ≠ 0 ∧ x ≠ 32)
    (hw31 : w.length ≤ 31) (hcommand : command ≠ 0)
    (hdisj : command + 32 ≤ args ∨ args + (spaced (w :: ws) seps).length < command)
    (hmem : ∀ j, j ≤ (spaced (w :: ws) seps).length →
      mem (args + j) = (spaced (w :: ws) seps).getD j 0)
    (hfuel : (spaced (w :: ws) seps).length < fuel) :
    ∃ call : Call, shell_keyboard_newline fuel command args mem = some call ∧
      call.argc = (w :: ws).length ∧ call.argv.length = call.argc ∧
      call.argv.getD 0 0 = command ∧
      ∀ k, k < call.argc →
        message_at call.mem fuel (call.argv.getD k 0) = some ((w :: ws).getD k []) := by
  obtain ⟨line, hline⟩ : ∃ l, l = spaced (w :: ws) seps := ⟨_, rfl⟩
  obtain ⟨t, ht⟩ : ∃ l, l = spaced (w :: ws) [] := ⟨_, rfl⟩
  rw [← hline] at hdisj hmem hfuel
  obtain ⟨rest, hrest, hend⟩ := spaced_head w ws seps
  rw [← hline] at hrest
  have hwl : line.length = w.length + rest.length := by rw [hrest, List.length_append]
  have hww := hwords w (List.mem_cons_self _ _)
  have h32 : ∀ v ∈ w :: ws, v ≠ [] ∧ ∀ x ∈ v, x ≠ 32 :=
    fun v hv => ⟨(hwords v hv).1, fun x hx => ((hwords v hv).2 x hx).2⟩
  have htlen : t.length ≤ line.length := by
    rw [ht, hline, ← collapse_runs_spaced ws w seps none h32]
    exact collapse_runs_length_le _ _ _
  -- the array `command` after `memset`
  obtain ⟨m0, hm0⟩ : ∃ m : Nat → Byte, m = fun a =>
      if command + 0 ≤ a ∧ a < command + 0 + 32 then 0 else mem a := ⟨_, rfl⟩
  have hset : (memset mem command 0 32).2 = m0 := by
    rw [hm0]
    simp only [memset, memset_loop_spec]
  have hm0args : ∀ j, j ≤ line.length → m0 (args + j) = line.getD j 0 := by
    intro j hj
    have h : ¬ (command + 0 ≤ args + j ∧ args + j < command + 0 + 32) := by omega
    rw [hm0]
    simp only [if_neg h]
    exact hmem j hj
  -- after the copy loop
  obtain ⟨m1, hm1⟩ : ∃ m : Nat → Byte, m = fun a =>
      if command + 0 ≤ a ∧ a < command + 0 + w.length then w.getD (a - (command + 0)) 0
      else m0 a := ⟨_, rfl⟩
  have hcopy : copy_command_loop command args fuel m0 0 = some m1 := by
    rw [hm1]
    apply copy_command_loop_spec command args w fuel m0 0
      (fun x hx => ⟨(hww.2 x hx).2, (hww.2 x hx).1⟩)
    · intro j hj
      rw [Nat.add_zero, hm0args j (by omega), hrest, List.getD_append _ _ _ _ hj]
    · rw [Nat.add_zero, hm0args w.length (by omega), hrest,
        List.getD_append_right _ _ _ _ (Nat.le_refl _), Nat.sub_self]
      exact hend
    · intro a b ha hb
      omega
    · omega
  -- after `command[31] = 0`
  obtain ⟨m2, hm2⟩ : ∃ m : Nat → Byte, m = poke m1 (command + (32 - 1)) 0 := ⟨_, rfl⟩
  have hm2args : ∀ j, j ≤ line.length → m2 (args + j) = line.getD j 0 := by
    intro j hj
    have h1 : args + j ≠ command + (32 - 1) := by omega
    have h2 : ¬ (command + 0 ≤ args + j ∧ args + j < command + 0 + w.length) := by omega
    rw [hm2, hm1]
    simp only [poke, if_neg h1, if_neg h2]
    exact hm0args j hj
  have hm2cmd : ∀ j, j ≤ w.length → m2 (command + j) = w.getD j 0 := by
    intro j hj
    rw [hm2, hm1, hm0]
    by_cases h31 : j = 31
    · have h1 : command + j = command + (32 - 1) := by omega
      simp only [poke, if_pos h1]
      rw [List.getD_eq_default _ _ (by omega)]
    · have h1 : command + j ≠ command + (32 - 1) := by omega
      simp only [poke, if_neg h1]
      by_cases hlt : j < w.length
      · have h2 : command + 0 ≤ command + j ∧ command + j < command + 0 + w.length := by omega
        have e : command + j - (command + 0) = j := by omega
        simp only [if_pos h2, e]
      · have h2 : ¬ (command + 0 ≤ command + j ∧ command + j < command + 0 + w.length) := by
          omega
        have h3 : command + 0 ≤ command + j ∧ command + j < command + 0 + 32 := by omega
        simp only [if_neg h2, if_pos h3]
        rw [List.getD_eq_default _ _ (by omega)]
  have hcall := execute_command_spaced fuel command args m2 w ws seps line t hline ht hwords
    (Or.inl hcommand) hm2args hfuel
  have hrun : shell_keyboard_newline fuel command args mem = execute_command fuel command args m2 := by
    simp only [shell_keyboard_newline, MAX_COMMAND_NAME_LENGTH, hset, hcopy, Option.some_bind]
    rw [hm2]
  rw [hrun]
  refine ⟨_, hcall, rfl, ?_, rfl, ?_⟩
  · simp only [List.length_cons, ht, arg_pointers_spaced ws w args (fun v hv => (h32 v hv).2)]
  · intro k hk
    simp only [List.length_cons] at hk
    cases k with
    | zero =>
      simp only [List.getD_cons_zero]
      apply message_at_eq _ w fuel command (fun x hx => (hww.2 x hx).1) (by omega)
      intro j hj
      have h : ¬ (args ≤ command + j ∧ command + j ≤ args + line.length) := by omega
      simp only [if_neg h]
      exact hm2cmd j hj
    | succ k =>
      simp only [List.getD_cons_succ]
      have hwa := words_at ws w args fuel
        (fun a => if args ≤ a ∧ a ≤ args + line.length then
          (if t.getD (a - args) 0 = 32 then 0 else t.getD (a - args) 0) else m2 a)
        (fun v hv => (hwords v hv).2)
        (by
          rw [← ht]
          intro j hj
          have h1 : args ≤ args + j ∧ args + j ≤ args + line.length := by omega
          have e : args + j - args = j := by omega
          simp only [if_pos h1, e])
        (by rw [← ht]; omega)
      rw [← ht] at hwa
      exact hwa.2 k (by omega)

set_option maxRecDepth 8192 in
/-- C23 witness: the line `print  a b` with the array `command` at address
2000. -/
theorem shell_line_arguments_witness :
    spaced [ascii "print", ascii "a", ascii "b"] [1, 0] = ascii "print  a b" ∧
    ∃ call : Call,
      shell_keyboard_newline 16 2000 0 (memory_of (ascii "print  a b")) = some call ∧
      call.argc = 3 ∧ call.argv.getD 0 0 = 2000 ∧
      message_at call.mem 16 (call.argv.getD 0 0) = some (ascii "print") ∧
      message_at call.mem 16 (call.argv.getD 1 0) = some (ascii "a") ∧
      message_at call.mem 16 (call.argv.getD 2 0) = some (ascii "b") := by
  have e : spaced [ascii "print", ascii "a", ascii "b"] [1, 0] = ascii "print  a b" := by
    decide
  obtain ⟨call, h1, h2, _, h4, h5⟩ :=
    shell_line_arguments 16 2000 0 (memory_of (ascii "print  a b")) (ascii "print")
      [ascii "a", ascii "b"] [1, 0] (by decide) (by decide) (by decide)
      (Or.inr (by decide)) (by rw [e]; exact fun j _ => by simp [memory_of]) (by decide)
  exact ⟨e, call, h1, h2, h4, h5 0 (by rw [h2]; decide), h5 1 (by rw [h2]; decide),
    h5 2 (by rw [h2]; decide)⟩


/-! ## Lemmas on the screen -/

theorem int_op_eq_some (x y : Int) :
    int_op x = some y ↔ y = x ∧ -2147483648 ≤ x ∧ x ≤ 2147483647 := by
  unfold int_op
  by_cases h : -2147483648 ≤ x ∧ x ≤ 2147483647
  · rw [if_pos h]
    constructor
    · intro e
      exact ⟨(Option.some.inj e).symm, h⟩
    · rintro ⟨e, _⟩
      rw [e]
  · rw [if_neg h]
    constructor
    · intro e
      exact absurd e (by simp)
    · rintro ⟨_, h2⟩
      exact absurd h2 h

theorem int_op_of_range (x : Int) (h : -2147483648 ≤ x ∧ x ≤ 2147483647) :
    int_op x = some x := (int_op_eq_some x x).2 ⟨rfl, h⟩

/-- On the screen grid `get_screen_position` is `row * 80 + column`. -/
theorem get_screen_position_inside (column row : Int) (hc0 : 0 ≤ column) (hc : column < 80)
    (hr0 : 0 ≤ row) (hr : row < 25) :
    get_screen_position column row = some (row * 80 + column) := by
  have h1 : ¬ column < 0 := by omega
  have h2 : ¬ row < 0 := by omega
  have h3 : ¬ column ≥ 80 := by omega
  have h4 : ¬ row ≥ 25 := by omega
  simp only [get_screen_position, MAX_COLUMNS, MAX_ROWS, if_neg h1, Option.some_bind, if_neg h2,
    if_neg h3, if_neg h4]

/-- Whatever `get_screen_position` returns is a position on the screen. -/
theorem get_screen_position_range (column row p : Int)
    (h : get_screen_position column row = some p) : 0 ≤ p ∧ p < 2000 := by
  simp only [get_screen_position, MAX_COLUMNS, MAX_ROWS, Option.bind_eq_some] at h
  obtain ⟨p1, h1, p3, h3, h4⟩ := h
  -- after the first `if`: the column is not negative
  have hp1 : 0 ≤ p1.1 := by
    split at h1
    · simp only [Option.bind_eq_some, int_op_eq_some] at h1
      obtain ⟨n, ⟨hn, _, _⟩, r, _, h1⟩ := h1
      have e := Option.some.inj h1
      rw [← e]
      have hn0 : 0 ≤ n := by omega
      have hm : n.tmod 80 = n % 80 := Int.tmod_eq_emod hn0 (by decide)
      show 0 ≤ 80 - n.tmod 80
      rw [hm]
      omega
    · have e := Option.some.inj h1
      rw [← e]
      show 0 ≤ column
      omega
  -- after the second `if`: neither is negative
  obtain ⟨p2, hp2⟩ : ∃ q : Int × Int, q = if p1.2 < 0 then (0, 0) else p1 := ⟨_, rfl⟩
  rw [← hp2] at h3
  have hp2c : 0 ≤ p2.1 ∧ 0 ≤ p2.2 := by
    by_cases hneg : p1.2 < 0
    · rw [if_pos hneg] at hp2
      rw [hp2]
      exact ⟨Int.le_refl 0, Int.le_refl 0⟩
    · rw [if_neg hneg] at hp2
      rw [hp2]
      exact ⟨hp1, by omega⟩
  -- after the third `if`: the column is on the grid
  have hp3 : 0 ≤ p3.1 ∧ p3.1 < 80 ∧ 0 ≤ p3.2 := by
    split at h3
    · rename_i hge
      simp only [Option.bind_eq_some, int_op_eq_some] at h3
      obtain ⟨r, ⟨hr, _, _⟩, h3⟩ := h3
      have e := Option.some.inj h3
      rw [← e]
      have hd : p2.1.tdiv 80 = p2.1 / 80 := Int.tdiv_eq_ediv hp2c.1 (by decide)
      have hm : p2.1.tmod 80 = p2.1 % 80 := Int.tmod_eq_emod hp2c.1 (by decide)
      show 0 ≤ p2.1.tmod 80 ∧ p2.1.tmod 80 < 80 ∧ 0 ≤ r
      rw [hm, hr, hd]
      omega
    · rename_i hlt
      have e := Option.some.inj h3
      rw [← e]
      omega
  have e := Option.some.inj h4
  rw [← e]
  by_cases h25 : p3.2 ≥ 25
  · rw [if_pos h25]
    omega
  · rw [if_neg h25]
    omega

/-- `get_screen_position` does not overflow for arguments of moderate size. -/
theorem get_screen_position_defined (column row : Int)
    (hc : -1073741824 ≤ column ∧ column ≤ 1073741824)
    (hr : -1073741824 ≤ row ∧ row ≤ 1073741824) :
    ∃ p, get_screen_position column row = some p := by
  simp only [get_screen_position, MAX_COLUMNS, MAX_ROWS]
  -- the first `if`
  obtain ⟨p1, h1, hp1c, hp1r⟩ : ∃ p1 : Int × Int,
      (if column < 0 then
        (int_op (-column)).bind fun (n : Int) =>
        (int_op (row - (n.tdiv 80 + 1))).bind fun (row : Int) =>
        some (80 - n.tmod 80, row)
      else some (column, row)) = some p1 ∧
      (0 ≤ p1.1 ∧ p1.1 ≤ 1073741824) ∧ (-1100000000 ≤ p1.2 ∧ p1.2 ≤ 1073741824) := by
    by_cases hneg : column < 0
    · have hn0 : 0 ≤ -column := by omega
      have hd : (-column).tdiv 80 = (-column) / 80 := Int.tdiv_eq_ediv hn0 (by decide)
      have hm : (-column).tmod 80 = (-column) % 80 := Int.tmod_eq_emod hn0 (by decide)
      refine ⟨(80 - (-column).tmod 80, row - ((-column).tdiv 80 + 1)), ?_, ?_, ?_⟩
      · rw [if_pos hneg, int_op_of_range _ (by omega), Option.some_bind,
          int_op_of_range _ (by rw [hd]; omega), Option.some_bind]
      · show 0 ≤ 80 - (-column).tmod 80 ∧ 80 - (-column).tmod 80 ≤ 1073741824
        rw [hm]
        omega
      · show -1100000000 ≤ row - ((-column).tdiv 80 + 1) ∧
          row - ((-column).tdiv 80 + 1) ≤ 1073741824
        rw [hd]
        omega
    · exact ⟨(column, row), by rw [if_neg hneg], ⟨by show 0 ≤ column; omega, hc.2⟩,
        ⟨by show -1100000000 ≤ row; omega, hr.2⟩⟩
  rw [h1, Option.some_bind]
  obtain ⟨p2, hp2⟩ : ∃ q : Int × Int, q = if p1.2 < 0 then (0, 0) else p1 := ⟨_, rfl⟩
  rw [← hp2]
  have hp2c : (0 ≤ p2.1 ∧ p2.1 ≤ 1073741824) ∧ (0 ≤ p2.2 ∧ p2.2 ≤ 1073741824) := by
    by_cases hneg : p1.2 < 0
    · rw [if_pos hneg] at hp2
      rw [hp2]
      exact ⟨⟨Int.le_refl 0, by decide⟩, ⟨Int.le_refl 0, by decide⟩⟩
    · rw [if_neg hneg] at hp2
      rw [hp2]
      exact ⟨hp1c, ⟨by omega, hp1r.2⟩⟩
  by_cases hge : p2.1 ≥ 80
  · have hd : p2.1.tdiv 80 = p2.1 / 80 := Int.tdiv_eq_ediv hp2c.1.1 (by decide)
    rw [if_pos hge, int_op_of_range _ (by rw [hd]; omega)]
    exact ⟨_, rfl⟩
  · rw [if_neg hge]
    exact ⟨_, rfl⟩

/-! ## Claim on screen positions -/

/-- C26: for all `column` and `row`, whenever `get_screen_position` returns
(that is, none of its `int` operations overflows) the result is a position `p`
with `0 ≤ p < 80 * 25`, and `print_char_at` then writes inside the 4000 bytes
of video memory only; for `0 ≤ column < 80` and `0 ≤ row < 25` the result is
`row * 80 + column`; and no operation overflows when both arguments are
between `-2^30` and `2^30`. -/
theorem get_screen_position_valid (column row : Int) :
    (∀ p, get_screen_position column row = some p → 0 ≤ p ∧ p < 80 * 25) ∧
    (∀ (mem mem2 : Nat → Byte) (character attribute_byte : Byte),
      print_char_at mem character column row attribute_byte = some mem2 →
      ∀ a, a < VIDEO_ADRESS ∨ VIDEO_ADRESS + 2 * (80 * 25) ≤ a → mem2 a = mem a) ∧
    (0 ≤ column → column < 80 → 0 ≤ row → row < 25 →
      get_screen_position column row = some (row * 80 + column)) ∧
    (-1073741824 ≤ column ∧ column ≤ 1073741824 → -1073741824 ≤ row ∧ row ≤ 1073741824 →
      ∃ p, get_screen_position column row = some p) := by
  refine ⟨fun p h => get_screen_position_range column row p h, ?_,
    get_screen_position_inside column row, get_screen_position_defined column row⟩
  intro mem mem2 character attribute_byte h a ha
  simp only [print_char_at, Option.bind_eq_some, int_op_eq_some] at h
  obtain ⟨p, hp, offset, ⟨ho, _, _⟩, h⟩ := h
  have hr := get_screen_position_range column row p hp
  rw [← Option.some.inj h]
  simp only [VIDEO_ADRESS] at ha ⊢
  have h1 : a ≠ ((753664 : Nat) + offset : Int).toNat := by omega
  have h2 : a ≠ ((753664 : Nat) + (offset + 1) : Int).toNat := by omega
  simp only [poke, if_neg h1, if_neg h2]

/-- C26 witness: column -1 of row 3 is the last column of row 2, and column 5
of row 2 is position 165. -/
theorem get_screen_position_valid_witness :
    get_screen_position (-1) 3 = some 239 ∧ (0 : Int) ≤ 239 ∧ (239 : Int) < 80 * 25 ∧
    get_screen_position 5 2 = some (2 * 80 + 5) := by
  have h : get_screen_position (-1) 3 = some 239 := by decide
  have hv := get_screen_position_valid (-1) 3
  have hw := get_screen_position_valid 5 2
  exact ⟨h, (hv.1 239 h).1, (hv.1 239 h).2,
    hw.2.2.1 (by decide) (by decide) (by decide) (by decide)⟩

/-! ## Lemmas on scrolling -/

theorem blank_loop_spec (last_line : Nat) (n : Nat) :
    ∀ (i : Nat) (mem : Nat → Byte),
      blank_loop last_line n i mem
        = fun a => if last_line + i ≤ a ∧ a < last_line + i + n then 0 else mem a := by
  induction n with
  | zero =>
    intro i mem
    funext a
    have h : ¬ (last_line + i ≤ a ∧ a < last_line + i + 0) := by omega
    rw [if_neg h]
    rfl
  | succ n ih =>
    intro i mem
    rw [blank_loop, ih]
    funext a
    by_cases ha : a = last_line + i
    · subst ha
      have h1 : ¬ (last_line + (i + 1) ≤ last_line + i ∧
          last_line + i < last_line + (i + 1) + n) := by omega
      have h2 : last_line + i ≤ last_line + i ∧ last_line + i < last_line + i + (n + 1) := by
        omega
      rw [if_neg h1, if_pos h2]
      simp [poke]
    · have hp : poke mem (last_line + i) 0 a = mem a := by simp [poke, ha]
      rw [hp]
      by_cases h1 : last_line + (i + 1) ≤ a ∧ a < last_line + (i + 1) + n
      · have h2 : last_line + i ≤ a ∧ a < last_line + i + (n + 1) := by omega
        rw [if_pos h1, if_pos h2]
      · have h2 : ¬ (last_line + i ≤ a ∧ a < last_line + i + (n + 1)) := by omega
        rw [if_neg h1, if_neg h2]

/-- The row loop of `scroll_up` started at row `r + 1` with `n` rows to go:
the `n` rows from row `r` on receive the bytes that lay 160 bytes further,
nothing else changes. -/
theorem scroll_rows_spec (n : Nat) :
    ∀ (r : Nat) (mem : Nat → Byte), r + 1 + n ≤ 25 →
      scroll_rows n ((r : Int) + 1) mem = some (fun a =>
        if VIDEO_ADRESS + r * 160 ≤ a ∧ a < VIDEO_ADRESS + r * 160 + n * 160 then mem (a + 160)
        else mem a) := by
  induction n with
  | zero =>
    intro r mem _
    simp only [scroll_rows]
    congr 1
    funext a
    have h : ¬ (VIDEO_ADRESS + r * 160 ≤ a ∧ a < VIDEO_ADRESS + r * 160 + 0 * 160) := by omega
    rw [if_neg h]
  | succ n ih =>
    intro r mem hr
    have e1 : (r : Int) + 1 - 1 = (r : Int) := by omega
    have g1 := get_screen_position_inside 0 (r : Int) (by decide) (by decide) (by omega)
      (by omega)
    have g2 := get_screen_position_inside 0 ((r : Int) + 1) (by decide) (by decide) (by omega)
      (by omega)
    have a1 : (((r : Int) * 80 + 0) * 2 + (VIDEO_ADRESS : Int)).toNat = VIDEO_ADRESS + r * 160 := by
      simp only [VIDEO_ADRESS]
      omega
    have a2 : ((((r : Int) + 1) * 80 + 0) * 2 + (VIDEO_ADRESS : Int)).toNat
        = VIDEO_ADRESS + r * 160 + 160 := by
      simp only [VIDEO_ADRESS]
      omega
    have a3 : (MAX_COLUMNS * 2).toNat = 160 := rfl
    have ec : (r : Int) + 1 + 1 = ((r + 1 : Nat) : Int) + 1 := by omega
    simp only [scroll_rows, e1, g1, g2, Option.some_bind, a1, a2, a3]
    rw [ec, ih (r + 1) _ (by omega)]
    congr 1
    funext a
    simp only [memcpy_down mem (VIDEO_ADRESS + r * 160) (VIDEO_ADRESS + r * 160 + 160) 160
      (by omega)]
    by_cases h1 : VIDEO_ADRESS + (r + 1) * 160 ≤ a ∧ a < VIDEO_ADRESS + (r + 1) * 160 + n * 160
    · have h2 : ¬ (VIDEO_ADRESS + r * 160 ≤ a + 160 ∧ a + 160 < VIDEO_ADRESS + r * 160 + 160) := by
        omega
      have h3 : VIDEO_ADRESS + r * 160 ≤ a ∧ a < VIDEO_ADRESS + r * 160 + (n + 1) * 160 := by
        omega
      rw [if_pos h1, if_neg h2, if_pos h3]
    · rw [if_neg h1]
      by_cases h2 : VIDEO_ADRESS + r * 160 ≤ a ∧ a < VIDEO_ADRESS + r * 160 + 160
      · have h3 : VIDEO_ADRESS + r * 160 ≤ a ∧ a < VIDEO_ADRESS + r * 160 + (n + 1) * 160 := by
          omega
        have e : VIDEO_ADRESS + r * 160 + 160 + (a - (VIDEO_ADRESS + r * 160)) = a + 160 := by
          omega
        rw [if_pos h2, if_pos h3, e]
      · have h3 : ¬ (VIDEO_ADRESS + r * 160 ≤ a ∧
            a < VIDEO_ADRESS + r * 160 + (n + 1) * 160) := by omega
        rw [if_neg h2, if_neg h3]

/-- The video memory after `scroll_up(1)`. -/
theorem scroll_up_one (mem : Nat → Byte) :
    scroll_up 1 mem = some (fun a =>
      if VIDEO_ADRESS + 3840 ≤ a ∧ a < VIDEO_ADRESS + 3840 + 159 then 0
      else if VIDEO_ADRESS ≤ a ∧ a < VIDEO_ADRESS + 3840 then mem (a + 160) else mem a) := by
  have hrows := scroll_rows_spec 24 0 mem (by decide)
  have e0 : ((0 : Nat) : Int) + 1 = 1 := rfl
  rw [e0] at hrows
  have g := get_screen_position_inside 0 24 (by decide) (by decide) (by decide) (by decide)
  have e1 : (MAX_ROWS - 1).toNat = 24 := rfl
  have e2 : MAX_ROWS - 1 = 24 := rfl
  have e3 : (MAX_COLUMNS * 2 - 1).toNat = 159 := rfl
  have e4 : (((24 : Int) * 80 + 0) * 2).toNat = 3840 := rfl
  have e5 : (1 : Int).toNat = 1 := rfl
  have e6 : (24 : Int).toNat = 24 := rfl
  simp only [scroll_up, e5, scroll_up_loop, e1, e2, e6, e3, hrows, Option.some_bind, g, e4,
    blank_loop_spec]
  rfl

/-! ## Claim on scrolling -/

/-- C27 (the code): `scroll_up(1)` returns; afterwards every row `i - 1` with
`1 ≤ i < 25` holds the 160 bytes that row `i` held, except that in row 24 the
bytes 0 to 158 are zero and byte 159, the attribute byte of the last cell,
still is what it was; memory outside the 4000 bytes of video memory is
unchanged.  So the last line is blanked one byte short. -/
theorem scroll_up_blank_short (mem : Nat → Byte) :
    ∃ mem2, scroll_up 1 mem = some mem2 ∧
      (∀ i k, 1 ≤ i → i < 25 → k < 160 →
        mem2 (VIDEO_ADRESS + (i - 1) * 160 + k) = mem (VIDEO_ADRESS + i * 160 + k)) ∧
      (∀ k, k < 159 → mem2 (VIDEO_ADRESS + 24 * 160 + k) = 0) ∧
      mem2 (VIDEO_ADRESS + 24 * 160 + 159) = mem (VIDEO_ADRESS + 24 * 160 + 159) ∧
      (∀ a, a < VIDEO_ADRESS ∨ VIDEO_ADRESS + 4000 ≤ a → mem2 a = mem a) := by
  refine ⟨_, scroll_up_one mem, ?_, ?_, ?_, ?_⟩
  · intro i k hi1 hi2 hk
    have h1 : ¬ (VIDEO_ADRESS + 3840 ≤ VIDEO_ADRESS + (i - 1) * 160 + k ∧
        VIDEO_ADRESS + (i - 1) * 160 + k < VIDEO_ADRESS + 3840 + 159) := by omega
    have h2 : VIDEO_ADRESS ≤ VIDEO_ADRESS + (i - 1) * 160 + k ∧
        VIDEO_ADRESS + (i - 1) * 160 + k < VIDEO_ADRESS + 3840 := by omega
    have e : VIDEO_ADRESS + (i - 1) * 160 + k + 160 = VIDEO_ADRESS + i * 160 + k := by omega
    simp only [if_neg h1, if_pos h2, e]
  · intro k hk
    have h1 : VIDEO_ADRESS + 3840 ≤ VIDEO_ADRESS + 24 * 160 + k ∧
        VIDEO_ADRESS + 24 * 160 + k < VIDEO_ADRESS + 3840 + 159 := by omega
    simp only [if_pos h1]
  · have h1 : ¬ (VIDEO_ADRESS + 3840 ≤ VIDEO_ADRESS + 24 * 160 + 159 ∧
        VIDEO_ADRESS + 24 * 160 + 159 < VIDEO_ADRESS + 3840 + 159) := by omega
    have h2 : ¬ (VIDEO_ADRESS ≤ VIDEO_ADRESS + 24 * 160 + 159 ∧
        VIDEO_ADRESS + 24 * 160 + 159 < VIDEO_ADRESS + 3840) := by omega
    simp only [if_neg h1, if_neg h2]
  · intro a ha
    have h1 : ¬ (VIDEO_ADRESS + 3840 ≤ a ∧ a < VIDEO_ADRESS + 3840 + 159) := by omega
    have h2 : ¬ (VIDEO_ADRESS ≤ a ∧ a < VIDEO_ADRESS + 3840) := by omega
    simp only [if_neg h1, if_neg h2]

/-- C27 witness: on a screen filled with the byte 7 (light grey on black, the
default colour scheme), the last byte of video memory is still 7 after
`scroll_up(1)`: row 24 is not all zero. -/
theorem scroll_up_blank_short_witness :
    ∃ mem2, scroll_up 1 (fun _ => 7) = some mem2 ∧
      mem2 (VIDEO_ADRESS + 24 * 160 + 159) = 7 ∧ mem2 (VIDEO_ADRESS + 24 * 160 + 159) ≠ 0 := by
  obtain ⟨mem2, h1, _, _, h4, _⟩ := scroll_up_blank_short (fun _ => 7)
  exact ⟨mem2, h1, h4, by rw [h4]; decide⟩

/-! ## Claim on the exception messages -/

set_option maxRecDepth 8192 in
/-- C28 (the code): the table `exception_messages` has 20 entries.  For
`int_no` from 0 to 19 `fault_handler` prints entry `int_no` and halts; for
`int_no` from 20 to 31 the lookup `exception_messages[int_no]` is behind the
end of the table: the last entry, `Reserved Exceptions`, is used for exception
19 only and not for 20 to 31.  For `int_no` of 32 or more the handler does
nothing. -/
theorem fault_handler_lookup :
    exception_messages.length = 20 ∧
    (∀ n, n < 20 → fault_handler n
      = Fault.halted [exception_messages.getD n "", " Exception. System Halted!\n"]) ∧
    fault_handler 19 = Fault.halted ["Reserved Exceptions", " Exception. System Halted!\n"] ∧
    (∀ n, 20 ≤ n → n < 32 → fault_handler n = Fault.out_of_table n) ∧
    (∀ n, 32 ≤ n → fault_handler n = Fault.ignored) := by
  refine ⟨rfl, by decide, by decide, ?_, ?_⟩
  · intro n h1 h2
    have hnone : exception_messages[n]? = none :=
      List.getElem?_eq_none (by rw [show exception_messages.length = 20 from rfl]; exact h1)
    simp only [fault_handler, if_pos h2, hnone]
  · intro n h
    have h2 : ¬ n < 32 := by omega
    simp only [fault_handler, if_neg h2]

/-- C28 witness: exception 20 (the first reserved one after 19) is looked up at
index 20 of a table of 20 entries. -/
theorem fault_handler_lookup_witness :
    fault_handler 20 = Fault.out_of_table 20 ∧ ¬ (20 < exception_messages.length) :=
  ⟨fault_handler_lookup.2.2.2.1 20 (by decide) (by decide), by decide⟩


/-! ## The driver returns when the controller keeps getting ready -/

theorem seek_loop_returns (hw : Controller) (d fuel cyli head : Nat)
    (hready : ReadyWithin hw d) (hfuel : d ≤ fuel) (n : Nat) :
    ∀ s : Floppy, ∃ r, seek_loop hw fuel cyli head n s = some r := by
  induction n with
  | zero => intro s; exact ⟨_, rfl⟩
  | succ n ih =>
    intro s
    obtain ⟨t, e, _⟩ := seek_attempt_spec hw d fuel cyli head s hready hfuel
    simp only [seek_loop, e, Option.some_bind]
    split
    · exact ⟨_, rfl⟩
    · exact ih t

theorem calibrate_loop_returns (hw : Controller) (d fuel : Nat)
    (hready : ReadyWithin hw d) (hfuel : d ≤ fuel) (n : Nat) :
    ∀ s : Floppy, ∃ r, calibrate_loop hw fuel n s = some r := by
  induction n with
  | zero => intro s; exact ⟨_, rfl⟩
  | succ n ih =>
    intro s
    obtain ⟨t, e, _⟩ := calibrate_attempt_spec hw d fuel s hready hfuel
    simp only [calibrate_loop, e, Option.some_bind]
    split
    · exact ⟨_, rfl⟩
    · exact ih t

theorem floppy_do_track_returns (hw : Controller) (d fuel addr cyl dir : Nat) (s : Floppy)
    (hready : ReadyWithin hw d) (hfuel : d ≤ fuel) :
    ∃ r, floppy_do_track hw fuel addr cyl dir s = some r := by
  unfold floppy_do_track
  by_cases hd : dir = floppy_dir_read ∨ dir = floppy_dir_write
  · obtain ⟨r0, h0⟩ := seek_loop_returns hw d fuel cyl 0 hready hfuel 10
      (floppy_motor FLOPPY_MOTOR_ON s)
    have h0' : floppy_seek hw fuel cyl 0 s = some r0 := h0
    simp only [if_pos hd, h0', Option.some_bind]
    split
    · exact ⟨_, rfl⟩
    · obtain ⟨r1, h1⟩ := seek_loop_returns hw d fuel cyl 1 hready hfuel 10
        (floppy_motor FLOPPY_MOTOR_ON r0.2)
      have h1' : floppy_seek hw fuel cyl 1 r0.2 = some r1 := h1
      simp only [h1', Option.some_bind]
      split
      · exact ⟨_, rfl⟩
      · obtain ⟨vs, t, e, _⟩ := track_attempt_spec hw d fuel addr cyl dir
          (if dir = floppy_dir_read then CMD_READ_DATA ||| 0xC0 else CMD_WRITE_DATA ||| 0xC0)
          r1.2 hready hfuel hd
        exact ⟨_, by simp only [track_loop]; exact e⟩
  · simp only [if_neg hd]
    exact ⟨_, rfl⟩

theorem floppy_reset_returns (hw : Controller) (d fuel : Nat) (s : Floppy)
    (hready : ReadyWithin hw d) (hfuel : d ≤ fuel) :
    ∃ r, floppy_reset hw fuel s = some r := by
  obtain ⟨t1, e1, _⟩ := floppy_check_interrupt_spec hw d fuel
    (wait_for_interrupt (port_byte_out (FLOPPY_BASE + FLOPPY_DOR) 0x0C
      (port_byte_out (FLOPPY_BASE + FLOPPY_DOR) 0x00 s))) hready hfuel
  obtain ⟨t2, e2, _⟩ := write_cmds_spec hw d fuel hready hfuel [CMD_SPECIFY, 0xdf, 0x02]
    (port_byte_out (FLOPPY_BASE + FLOPPY_CCR) 0x00 t1)
  obtain ⟨r, e3⟩ := calibrate_loop_returns hw d fuel hready hfuel 10
    (floppy_motor FLOPPY_MOTOR_ON t2)
  have e3' : floppy_calibrate hw fuel t2 = some r := e3
  simp only [floppy_reset, e1, Option.some_bind, e2, e3']
  split
  · exact ⟨_, rfl⟩
  · exact ⟨_, rfl⟩

/-! ## Claim on the ready handshake -/

/-- C21: start from a state whose trace obeys the ready handshake (for
instance the empty trace).  For any controller behaviour, when `floppy_reset`,
`floppy_calibrate`, `floppy_seek` or `floppy_do_track` returns, then in the
trace of the returned state, and in every prefix of it, each write of a
command byte to the data FIFO (port 0x3F5) and each read of a result byte from
it stands directly behind a read of the master status register (port 0x3F4)
that returned a value with bit 7 set.  And each of the four does return when
the controller shows the ready bit within `d` polls from any poll on and the
run is followed for `d` polls per wait. -/
theorem fifo_access_guarded (hw : Controller) (fuel addr cyl head dir : Nat) (s : Floppy)
    (hs : Guarded s.trace) :
    (∀ r : Int × Floppy,
      (floppy_reset hw fuel s = some r ∨ floppy_calibrate hw fuel s = some r ∨
        floppy_seek hw fuel cyl head s = some r ∨
        floppy_do_track hw fuel addr cyl dir s = some r) →
      ∀ pre, pre <+: r.2.trace → Guarded pre) ∧
    (∀ d, ReadyWithin hw d → d ≤ fuel →
      (∃ r, floppy_reset hw fuel s = some r) ∧ (∃ r, floppy_calibrate hw fuel s = some r) ∧
      (∃ r, floppy_seek hw fuel cyl head s = some r) ∧
      (∃ r, floppy_do_track hw fuel addr cyl dir s = some r)) := by
  have hg : guarded none s.trace = true := (guarded_iff _).2 hs
  constructor
  · intro r hrun
    have hr : guarded none r.2.trace = true := by
      rcases hrun with h | h | h | h
      · exact floppy_reset_guarded hw fuel s r hg h
      · exact floppy_calibrate_guarded hw fuel s r hg h
      · exact floppy_seek_guarded hw fuel cyl head s r hg h
      · exact floppy_do_track_guarded hw fuel addr cyl dir s r hg h
    rintro pre ⟨rest, hrest⟩
    apply guarded_prefix_closed pre rest
    rw [hrest]
    exact (guarded_iff _).1 hr
  · intro d hready hfuel
    exact ⟨floppy_reset_returns hw d fuel s hready hfuel,
      calibrate_loop_returns hw d fuel hready hfuel 10 _,
      seek_loop_returns hw d fuel cyl head hready hfuel 10 _,
      floppy_do_track_returns hw d fuel addr cyl dir s hready hfuel⟩

/-- C21 witness: a seek of cylinder 1 with the controller `sample`, which has
the ready bit clear at every second poll. -/
theorem fifo_access_guarded_witness :
    Guarded idle.trace ∧
    ∃ t, floppy_seek sample 2 1 0 idle = some (0, t) ∧ Guarded t.trace := by
  have hidle : Guarded idle.trace := (guarded_iff _).1 rfl
  obtain ⟨t, ht, _⟩ := floppy_seek_found sample 2 2 1 0 0 idle sample_ready (Nat.le_refl 2)
    (by decide) (fun j hj => absurd hj (Nat.not_lt_zero j)) (by decide)
  exact ⟨hidle, t, ht, (fifo_access_guarded sample 2 0 1 0 0 idle hidle).1 (0, t)
    (Or.inr (Or.inr (Or.inl ht))) t.trace List.prefix_rfl⟩

end RubenOS
